import Mathlib

/-!
Package sortkey: lexicographically sortable keys with dense insertion

A shallow embedding of `keyset.go`, `parsed.go` and `errors.go`.

* A Go `string` handed to `NewKeySet` is a Lean `String`; `len` is its UTF-8
  byte length, `[]rune(s)` its code points and `s[i]` its i-th UTF-8 byte.
* A `SortKey` / `[]byte` is a `List Nat` (a list of byte values); the Go
  comparison `a < b` on strings is the lexicographic order on `List Nat`.
* A `map[byte]int` is an association list that is read from the front, so
  that the last assignment to a key wins.
* A Go function returning `(T, error)` is a function into `Except Error T`.
  A run-time panic (index or slice out of range) is the value `Error.panic`,
  and a loop that would not terminate is cut off with `Error.fuel`.
  `Between` returns the literal Go pair `(SortKey, error)`.
-/

namespace Sortkey

/-- The error values of `errors.go`, plus the two ways a Go call can fail to
return at all. -/
inductive Error where
  /-- The type `*ConfigError` with its message (the formatted rune is left out). -/
  | config (msg : String)
  /-- The type `*InvalidValueError` with its message (the formatted value is left out). -/
  | invalidValue (msg : String)
  /-- The value `ErrOverflow`. -/
  | overflow
  /-- The value `ErrUnderflow`. -/
  | underflow
  /-- The value `errors.New("a >= b")` of `midpoint`. -/
  | misordered
  /-- A run-time panic: index or slice bound out of range. -/
  | panic
  /-- The loop budget of `midpointSuffix` ran out: the Go loop does not end. -/
  | fuel
  deriving DecidableEq, Repr

/-- The struct `parsedKey` of `parsed.go`. -/
structure parsedKey where
  sigil : Nat
  integer : List Nat
  fraction : List Nat
  deriving DecidableEq, Repr

/-- The struct `KeySet`.  The maps hold the non-negative `int`s that
`NewKeySet`, the only constructor, stores in them. -/
structure KeySet where
  sigils : List Nat
  digits : List Nat
  zero : List Nat
  smallest : List Nat
  sigilsIdx : List (Nat × Nat)
  sigilsLen : List (Nat × Nat)
  digitsIdx : List (Nat × Nat)
  deriving DecidableEq, Repr

/-- Map assignment `m[k] = v`. -/
def mapSet (m : List (Nat × Nat)) (k v : Nat) : List (Nat × Nat) :=
  (k, v) :: m

/-- The two-valued map read `v, ok := m[k]`. -/
def mapGet? (m : List (Nat × Nat)) (k : Nat) : Option Nat :=
  m.lookup k

/-- The one-valued map read `m[k]`: a missing key reads as `0`. -/
def mapGet (m : List (Nat × Nat)) (k : Nat) : Nat :=
  (mapGet? m k).getD 0

/-- Indexing `l[i]` with a Go `int`: out of range is a panic. -/
def index (l : List Nat) (i : Int) : Except Error Nat :=
  if i < 0 then .error .panic
  else
    match l[i.toNat]? with
    | some x => .ok x
    | none => .error .panic

/-- The bytes of a Go string: its UTF-8 encoding. -/
def goBytes (s : String) : List Nat :=
  (s.data.flatMap String.utf8EncodeChar).map UInt8.toNat

/-- The runes of a Go string, `[]rune(s)`. -/
def goRunes (s : String) : List Nat :=
  s.data.map Char.toNat

/-- The pairs `(i, r)` of `for i, r := range s` from byte offset `i` on. -/
def rangeFrom : Nat → List Char → List (Nat × Nat)
  | _, [] => []
  | i, c :: cs => (i, c.toNat) :: rangeFrom (i + c.utf8Size) cs

/-- The pairs `(i, r)` visited by `for i, r := range s`: byte offset and rune. -/
def goRange (s : String) : List (Nat × Nat) :=
  rangeFrom 0 s.data

/-- The function `bytes.Compare`: -1, 0 or 1. -/
def bytesCompare : List Nat → List Nat → Int
  | [], [] => 0
  | [], _ :: _ => -1
  | _ :: _, [] => 1
  | x :: xs, y :: ys =>
    if x < y then -1 else if y < x then 1 else bytesCompare xs ys

/-- The loop shared by `validateDigits` and `validateSigils` (lines 100-114
and 132-146), with the two messages it can fail with. -/
def validateRunes (nonAscii unsorted : String) : Nat → List Nat → Except Error Unit
  | _, [] => .ok ()
  | prev, next :: rest =>
    if next ≥ 128 then .error (.config nonAscii)
    else if prev ≥ next then .error (.config unsorted)
    else validateRunes nonAscii unsorted next rest

/-- The function `validateDigits`. -/
def validateDigits (digits : String) : Except Error Unit :=
  if digits.utf8ByteSize < 2 then .error (.config "too few digits")
  else
    match goRunes digits with
    | [] => .error .panic
    | prev :: rest =>
      if prev ≥ 128 then .error (.config "non-ascii digit")
      else validateRunes "non-ascii digit" "unsorted digit" prev rest

/-- The function `validateSigils`. -/
def validateSigils (sigils : String) : Except Error Unit :=
  if sigils.utf8ByteSize < 1 then .ok ()
  else
    match goRunes sigils with
    | [] => .error .panic
    | prev :: rest =>
      if prev ≥ 128 then .error (.config "non-ascii sigil")
      else validateRunes "non-ascii sigil" "unsorted sigil" prev rest

/-- The value stored in `sigilsLen` for the sigil at byte offset `i`
(lines 56-60). -/
def bandWidth (midpoint i : Nat) : Nat :=
  if i < midpoint then midpoint - i + 1 else 2 + i - midpoint

/-- The constructor `NewKeySet`. -/
def NewKeySet (sigils digits : String) : Except Error KeySet := do
  validateSigils sigils
  validateDigits digits
  let digitsIdx := (goRange digits).foldl (fun m p => mapSet m (p.2 % 256) p.1) []
  let midpoint := sigils.utf8ByteSize / 2
  let sigilsIdx := (goRange sigils).foldl (fun m p => mapSet m (p.2 % 256) p.1) []
  let sigilsLen :=
    (goRange sigils).foldl (fun m p => mapSet m (p.2 % 256) (bandWidth midpoint p.1)) []
  let smallest ←
    if sigils.utf8ByteSize < 1 then do
      let d ← index (goBytes digits) 0
      pure [d]
    else do
      let s ← index (goBytes sigils) 0
      let n := mapGet sigilsLen s
      if 1 < n then do
        let d ← index (goBytes digits) 0
        pure (s :: List.replicate (n - 1) d)
      else pure [s]
  let zero ←
    if sigils.utf8ByteSize < 1 then do
      let d ← index (goBytes digits) 0
      pure [d]
    else do
      let s ← index (goBytes sigils) midpoint
      let d ← index (goBytes digits) 0
      pure [s, d]
  pure
    { sigils := goBytes sigils, digits := goBytes digits, zero := zero,
      smallest := smallest, sigilsIdx := sigilsIdx, sigilsLen := sigilsLen,
      digitsIdx := digitsIdx }

/-- The method `(*parsedKey).Compare`. -/
def parsedKey.Compare (v x : parsedKey) : Int :=
  if v.sigil < x.sigil then -1
  else if v.sigil > x.sigil then 1
  else if bytesCompare v.integer x.integer ≠ 0 then bytesCompare v.integer x.integer
  else bytesCompare v.fraction x.fraction

/-- The method `(*parsedKey).integerOnly`. -/
def parsedKey.integerOnly (v : parsedKey) : parsedKey :=
  { sigil := v.sigil, integer := v.integer, fraction := [] }

/-- The methods `(*parsedKey).String` and `(*parsedKey).Value`. -/
def parsedKey.Value (v : parsedKey) : List Nat :=
  v.sigil :: (v.integer ++ v.fraction)

/-- The loop of `decrementInteger` (lines 229-237), entered with
`i + 1 = n`: it returns the integer and the final `borrow`. -/
def decrementLoop (ks : KeySet) : Nat → List Nat → Except Error (List Nat × Bool)
  | 0, integer => .ok (integer, true)
  | i + 1, integer => do
    let x ← index integer i
    let idx : Int := (mapGet ks.digitsIdx x : Int) - 1
    if idx = -1 then do
      let d ← index ks.digits ((ks.digits.length : Int) - 1)
      decrementLoop ks i (integer.set i d)
    else do
      let d ← index ks.digits idx
      pure (integer.set i d, false)

/-- The method `decrementInteger`: the updated `*v`, or the error. -/
def decrementInteger (ks : KeySet) (v : parsedKey) : Except Error parsedKey := do
  let r ← decrementLoop ks v.integer.length v.integer
  if r.2 then do
    let idx : Int := (mapGet ks.sigilsIdx v.sigil : Int) - 1
    if idx = -1 then .error .underflow
    else do
      let n := r.1.length + 1
      let sigil ← index ks.sigils idx
      if n < mapGet ks.sigilsLen sigil then do
        let d ← index ks.digits ((ks.digits.length : Int) - 1)
        pure { sigil := sigil, integer := r.1 ++ [d], fraction := v.fraction }
      else if n > mapGet ks.sigilsLen sigil then
        match r.1 with
        | [] => .error .panic
        | _ :: rest => pure { sigil := sigil, integer := rest, fraction := v.fraction }
      else pure { sigil := sigil, integer := r.1, fraction := v.fraction }
  else pure { sigil := v.sigil, integer := r.1, fraction := v.fraction }

/-- The loop of `incrementInteger` (lines 258-266), entered with
`i + 1 = n`: it returns the integer and the final `carry`. -/
def incrementLoop (ks : KeySet) : Nat → List Nat → Except Error (List Nat × Bool)
  | 0, integer => .ok (integer, true)
  | i + 1, integer => do
    let x ← index integer i
    let idx : Int := (mapGet ks.digitsIdx x : Int) + 1
    if idx = ks.digits.length then do
      let d ← index ks.digits 0
      incrementLoop ks i (integer.set i d)
    else do
      let d ← index ks.digits idx
      pure (integer.set i d, false)

/-- The method `incrementInteger`: the updated `*v`, or the error. -/
def incrementInteger (ks : KeySet) (v : parsedKey) : Except Error parsedKey := do
  let r ← incrementLoop ks v.integer.length v.integer
  if r.2 then do
    let idx : Int := (mapGet ks.sigilsIdx v.sigil : Int) + 1
    if idx = ks.sigils.length then .error .overflow
    else do
      let n := r.1.length + 1
      let sigil ← index ks.sigils idx
      if n < mapGet ks.sigilsLen sigil then do
        let d ← index ks.digits 0
        pure { sigil := sigil, integer := r.1 ++ [d], fraction := v.fraction }
      else if n > mapGet ks.sigilsLen sigil then
        match r.1 with
        | [] => .error .panic
        | _ :: rest => pure { sigil := sigil, integer := rest, fraction := v.fraction }
      else pure { sigil := sigil, integer := r.1, fraction := v.fraction }
  else pure { sigil := v.sigil, integer := r.1, fraction := v.fraction }

/-- The loop of `midpointPrefix` (lines 306-314): the final `i`, where the
two lists are what is left of `a` and `b` from position `i` on. -/
def midpointPrefixLoop (zero : Nat) : List Nat → List Nat → Nat
  | _, [] => 0
  | [], y :: ys => if zero ≠ y then 0 else midpointPrefixLoop zero [] ys + 1
  | x :: xs, y :: ys => if x ≠ y then 0 else midpointPrefixLoop zero xs ys + 1

/-- The method `midpointPrefix`. -/
def midpointPrefix (ks : KeySet) (a b : List Nat) : Except Error (List Nat) := do
  let zero ← index ks.digits 0
  let i := midpointPrefixLoop zero a b
  if i > 0 then pure (b.take i) else pure []

/-- The midpoint digit `int(math.Round(0.5 * float64(s)))` for a sum `s` of
two digit indices: halves round away from zero, and the sum is small enough
to be exact in `float64`. -/
def roundHalf (s : Nat) : Nat :=
  (s + 1) / 2

/-- The method `midpointSuffix`, with the `result` built so far and a bound on the
number of iterations of its `for` loop. -/
def midpointSuffix (ks : KeySet) : Nat → List Nat → List Nat → List Nat → Except Error (List Nat)
  | 0, _, _, _ => .error .fuel
  | fuel + 1, a, b, result =>
    let digitA : Nat := match a with
      | [] => 0
      | x :: _ => mapGet ks.digitsIdx x
    let digitB : Nat := match b with
      | [] => ks.digits.length
      | y :: _ => mapGet ks.digitsIdx y
    if (digitB : Int) - (digitA : Int) > 1 then do
      let d ← index ks.digits (roundHalf (digitA + digitB))
      pure (result ++ [d])
    else
      match b with
      | y :: _ :: _ => pure (result ++ [y])
      | _ => do
        let d ← index ks.digits digitA
        midpointSuffix ks fuel a.tail [] (result ++ [d])

/-- The method `midpoint`.  The loop of `midpointSuffix` gets one iteration per byte of
`a` and two more. -/
def midpoint (ks : KeySet) (a b : List Nat) : Except Error (List Nat) := do
  if b.length > 0 ∧ bytesCompare a b ≥ 0 then .error .misordered
  else do
    let pre ← midpointPrefix ks a b
    let n := pre.length
    let a1 := if n > 0 then (if n < a.length then a.drop n else []) else a
    let b1 := if n > 0 then b.drop n else b
    let suffix ← midpointSuffix ks (a1.length + 2) a1 b1 []
    pure (pre ++ suffix)

/-- The method `validateParsed`. -/
def validateParsed (ks : KeySet) (parsed : parsedKey) : Except Error Unit :=
  if parsed.integer.any (fun x => (mapGet? ks.digitsIdx x).isNone) then
    .error (.invalidValue "invalid integer part")
  else if parsed.fraction.any (fun x => (mapGet? ks.digitsIdx x).isNone) then
    .error (.invalidValue "invalid fractional part")
  else if parsed.fraction.length > 0 then do
    let last ← index parsed.fraction ((parsed.fraction.length : Int) - 1)
    let zero ← index ks.digits 0
    if last = zero then .error (.invalidValue "trailing zero") else pure ()
  else pure ()

/-- The method `parse`. -/
def parse (ks : KeySet) (value : List Nat) : Except Error parsedKey :=
  match value with
  | [] => .error (.invalidValue "sortkey too short")
  | sigil :: _ =>
    match mapGet? ks.sigilsLen sigil with
    | none => .error (.invalidValue "invalid sigil")
    | some n =>
      if value.length < n then .error (.invalidValue "sortkey too short")
      else if n < 1 then .error .panic
      else
        let result : parsedKey :=
          { sigil := sigil, integer := (value.take n).drop 1, fraction := value.drop n }
        match validateParsed ks result with
        | .error e => .error e
        | .ok _ => .ok result

/-- The method `Between`: the pair `(SortKey, error)` it returns, with `none` for a nil
error.  A panic inside it is reported in the error component. -/
def Between (ks : KeySet) (a b : List Nat) : List Nat × Option Error :=
  if a = [] then
    if b = [] then (ks.zero, none)
    else
      match parse ks b with
      | .error e => ([], some e)
      | .ok pb =>
        if pb.integer = ks.smallest then
          match midpoint ks [] pb.fraction with
          | .error e => ([], some e)
          | .ok fb => (parsedKey.Value { pb with fraction := fb }, none)
        else if pb.fraction.length > 0 then
          (parsedKey.Value { pb with fraction := [] }, none)
        else
          match decrementInteger ks pb with
          | .error e => ([], some e)
          | .ok pb1 => (pb1.Value, none)
  else if b = [] then
    match parse ks a with
    | .error e => ([], some e)
    | .ok pa =>
      match incrementInteger ks pa with
      | .error e => ([], some e)
      | .ok pa1 => (pa1.Value, none)
  else
    match parse ks a with
    | .error e => ([], some e)
    | .ok pa =>
      match parse ks b with
      | .error e => ([], some e)
      | .ok pb =>
        if pa.sigil = pb.sigil ∧ pa.integer = pb.integer then
          match midpoint ks pa.fraction pb.fraction with
          | .error e => ([], some e)
          | .ok fa => (parsedKey.Value { pa with fraction := fa }, none)
        else
          match incrementInteger ks pa.integerOnly with
          | .error e => ([], some e)
          | .ok ai =>
            if ai.Compare pb < 0 then (ai.Value, none)
            else
              match midpoint ks pa.fraction [] with
              | .error .panic => ([], some .panic)
              | .error .fuel => ([], some .fuel)
              | .error _ => ([], none)
              | .ok tmp => (parsedKey.Value { pa with fraction := tmp }, none)

/-- The bytes of an ASCII string literal, for writing keys down. -/
def key (s : String) : List Nat :=
  s.data.map Char.toNat

/-- What `NewKeySet` establishes about the `KeySet` it returns. -/
structure WF (ks : KeySet) : Prop where
  digits_sorted : ks.digits.Pairwise (· < ·)
  digits_len : 2 ≤ ks.digits.length
  sigils_sorted : ks.sigils.Pairwise (· < ·)
  digitsIdx_spec : ∀ x i, mapGet? ks.digitsIdx x = some i ↔ ks.digits[i]? = some x
  sigilsIdx_spec : ∀ x i, mapGet? ks.sigilsIdx x = some i ↔ ks.sigils[i]? = some x
  sigilsLen_spec : ∀ x n, mapGet? ks.sigilsLen x = some n ↔
    ∃ i, ks.sigils[i]? = some x ∧ n = bandWidth (ks.sigils.length / 2) i
  smallest_spec : ∀ s rest, ks.sigils = s :: rest →
    ∃ d, ks.digits[0]? = some d ∧
      ks.smallest = s :: List.replicate (bandWidth (ks.sigils.length / 2) 0 - 1) d
  zero_spec : ∃ d, ks.digits[0]? = some d ∧
    ((ks.sigils = [] ∧ ks.zero = [d]) ∨
      ∃ s, ks.sigils[ks.sigils.length / 2]? = some s ∧ ks.zero = [s, d])

/-- A parsed key as `parse` accepts it: a configured sigil, an integer of
configured digits whose length is fixed by the sigil, and a fraction of
configured digits that does not end in the smallest digit. -/
structure Valid (ks : KeySet) (v : parsedKey) : Prop where
  sigil_ok : ∃ i, ks.sigils[i]? = some v.sigil ∧
    v.integer.length + 1 = bandWidth (ks.sigils.length / 2) i
  integer_ok : ∀ x ∈ v.integer, x ∈ ks.digits
  fraction_ok : ∀ x ∈ v.fraction, x ∈ ks.digits
  canonical : ∀ d, ks.digits[0]? = some d → v.fraction.getLast? ≠ some d

/-- The `KeySet` of `TestDecrementInteger`: sigils `!#$%`, digits `abcdef`. -/
def ksSix : KeySet :=
  { sigils := [33, 35, 36, 37], digits := [97, 98, 99, 100, 101, 102], zero := [36, 97],
    smallest := [33, 97, 97], sigilsIdx := [(37, 3), (36, 2), (35, 1), (33, 0)],
    sigilsLen := [(37, 3), (36, 2), (35, 2), (33, 3)],
    digitsIdx := [(102, 5), (101, 4), (100, 3), (99, 2), (98, 1), (97, 0)] }

/-- The `KeySet` with sigils `abc` and digits `ab`: the first sigil is also
a digit. -/
def ksOverlap : KeySet :=
  { sigils := [97, 98, 99], digits := [97, 98], zero := [98, 97],
    smallest := [97, 97], sigilsIdx := [(99, 2), (98, 1), (97, 0)],
    sigilsLen := [(99, 3), (98, 2), (97, 2)], digitsIdx := [(98, 1), (97, 0)] }

/-- The first `KeySet` of `TestNewGenerator`: no sigils, digits `01`. -/
def ksBinary : KeySet :=
  { sigils := [], digits := [48, 49], zero := [48], smallest := [48], sigilsIdx := [],
    sigilsLen := [], digitsIdx := [(49, 1), (48, 0)] }

/-- The last `KeySet` of `TestNewGenerator`: sigils `ABab`, digits `0123456789`. -/
def ksAlnum : KeySet :=
  { sigils := [65, 66, 97, 98], digits := [48, 49, 50, 51, 52, 53, 54, 55, 56, 57],
    zero := [97, 48], smallest := [65, 48, 48],
    sigilsIdx := [(98, 3), (97, 2), (66, 1), (65, 0)],
    sigilsLen := [(98, 3), (97, 2), (66, 2), (65, 3)],
    digitsIdx := [(57, 9), (56, 8), (55, 7), (54, 6), (53, 5), (52, 4), (51, 3), (50, 2),
      (49, 1), (48, 0)] }

/-- The parsed keys that `Between` handles: a result of `parse`, possibly
followed by `integerOnly` and by successful calls of `incrementInteger` or
`decrementInteger`. -/
inductive Derived (ks : KeySet) : parsedKey → Prop
  | parsed (a : List Nat) (p : parsedKey) : parse ks a = .ok p → Derived ks p
  | integerOnly (p : parsedKey) : Derived ks p → Derived ks p.integerOnly
  | incremented (p p1 : parsedKey) :
      Derived ks p → incrementInteger ks p = .ok p1 → Derived ks p1
  | decremented (p p1 : parsedKey) :
      Derived ks p → decrementInteger ks p = .ok p1 → Derived ks p1

/-- The `KeySet` of `TestNewGenerator` with the single sigil `#` and digits
`01`. -/
def ksSingle : KeySet :=
  { sigils := [35], digits := [48, 49], zero := [35, 48], smallest := [35, 48],
    sigilsIdx := [(35, 0)], sigilsLen := [(35, 2)], digitsIdx := [(49, 1), (48, 0)] }

/-- The function `math.Round` on an exact value: the nearest integer, halves
away from zero. -/
def goRound (x : ℚ) : Int :=
  if 0 ≤ x then ⌊x + 1 / 2⌋ else -⌊-x + 1 / 2⌋

/-- The `KeySet` of `TestMidpoint`: no sigils, digits `0123456789`. -/
def ksDecimal : KeySet :=
  { sigils := [], digits := [48, 49, 50, 51, 52, 53, 54, 55, 56, 57], zero := [48],
    smallest := [48], sigilsIdx := [], sigilsLen := [],
    digitsIdx := [(57, 9), (56, 8), (55, 7), (54, 6), (53, 5), (52, 4), (51, 3), (50, 2),
      (49, 1), (48, 0)] }

/-- Whether every byte of a sequence has digit index 0, as the padding has. -/
def allSmallest (ks : KeySet) (l : List Nat) : Bool :=
  l.all (fun y => mapGet ks.digitsIdx y == 0)

/-- The order of the specification on digit sequences: digit by digit, by
digit index, the shorter sequence padded on the right with the smallest digit
(index 0); the result is -1, 0 or 1. -/
def paddedCompare (ks : KeySet) : List Nat → List Nat → Int
  | [], b => if allSmallest ks b then 0 else -1
  | x :: xs, [] => if allSmallest ks (x :: xs) then 0 else 1
  | x :: xs, y :: ys =>
    if mapGet ks.digitsIdx x < mapGet ks.digitsIdx y then -1
    else if mapGet ks.digitsIdx y < mapGet ks.digitsIdx x then 1
    else paddedCompare ks xs ys

theorem char_toNat_val (c : Char) : c.toNat = c.val.toNat := rfl

theorem utf8Size_pos (c : Char) : 1 ≤ c.utf8Size := by
  simp only [Char.utf8Size]
  split_ifs <;> omega

theorem utf8Size_ascii (c : Char) (h : c.toNat < 128) : c.utf8Size = 1 := by
  have hv : c.val ≤ UInt32.ofNatCore 127 (by decide) := by
    show c.val.toNat ≤ 127
    rw [char_toNat_val] at h
    omega
  simp only [Char.utf8Size, hv, if_true]

theorem encode_ascii (c : Char) (h : c.toNat < 128) :
    (String.utf8EncodeChar c).map UInt8.toNat = [c.toNat] := by
  rw [char_toNat_val] at h
  have hv : c.val ≤ 0x7f := by
    show c.val.toNat ≤ 127
    omega
  simp only [String.utf8EncodeChar, hv, if_true, List.map]
  congr 1
  show c.val.toNat % 256 = c.toNat
  rw [char_toNat_val]
  omega

theorem byteSize_go_ge (cs : List Char) : cs.length ≤ String.utf8ByteSize.go cs := by
  induction cs with
  | nil => simp [String.utf8ByteSize.go]
  | cons c cs ih =>
    have := utf8Size_pos c
    simp only [String.utf8ByteSize.go, List.length_cons]
    omega

theorem byteSize_go_ascii (cs : List Char) (h : ∀ c ∈ cs, c.toNat < 128) :
    String.utf8ByteSize.go cs = cs.length := by
  induction cs with
  | nil => simp [String.utf8ByteSize.go]
  | cons c cs ih =>
    have h1 := utf8Size_ascii c (h c (List.mem_cons_self _ _))
    have h2 := ih (fun x hx => h x (List.mem_cons_of_mem _ hx))
    simp only [String.utf8ByteSize.go, List.length_cons, h1, h2]

theorem byteSize_ge (s : String) : s.data.length ≤ s.utf8ByteSize := by
  cases s with
  | mk cs => exact byteSize_go_ge cs

theorem byteSize_of_data_nil (s : String) (h : s.data = []) : s.utf8ByteSize = 0 := by
  cases s with
  | mk cs =>
    simp only at h
    subst h
    rfl

theorem goRunes_eq_nil (s : String) (h : goRunes s = []) : s.utf8ByteSize = 0 := by
  apply byteSize_of_data_nil
  simpa [goRunes] using h

theorem byteSize_ascii (s : String) (h : ∀ c ∈ s.data, c.toNat < 128) :
    s.utf8ByteSize = s.data.length := by
  cases s with
  | mk cs => exact byteSize_go_ascii cs h

theorem goBytes_ascii (s : String) (h : ∀ c ∈ s.data, c.toNat < 128) :
    goBytes s = goRunes s := by
  unfold goBytes goRunes
  generalize s.data = cs at h
  induction cs with
  | nil => rfl
  | cons c cs ih =>
    have h1 := encode_ascii c (h c (List.mem_cons_self _ _))
    have h2 := ih (fun x hx => h x (List.mem_cons_of_mem _ hx))
    simp only [List.flatMap_cons, List.map_append, List.map_cons, h1, h2]
    rfl

theorem rangeFrom_ascii (cs : List Char) (k : Nat) (h : ∀ c ∈ cs, c.toNat < 128) :
    rangeFrom k cs = (cs.map Char.toNat).enumFrom k := by
  induction cs generalizing k with
  | nil => rfl
  | cons c cs ih =>
    have h1 := utf8Size_ascii c (h c (List.mem_cons_self _ _))
    have h2 := ih (k + 1) (fun x hx => h x (List.mem_cons_of_mem _ hx))
    simp only [rangeFrom, h1, h2, List.map_cons, List.enumFrom_cons]

theorem goRange_ascii (s : String) (h : ∀ c ∈ s.data, c.toNat < 128) :
    goRange s = (goRunes s).enumFrom 0 :=
  rangeFrom_ascii s.data 0 h

/-- The validation loop only ever fails with a `ConfigError`. -/
theorem validateRunes_cases (m1 m2 : String) (prev : Nat) (rest : List Nat) :
    validateRunes m1 m2 prev rest = .ok () ∨
      ∃ msg, validateRunes m1 m2 prev rest = .error (.config msg) := by
  induction rest generalizing prev with
  | nil => left; rfl
  | cons next rest ih =>
    unfold validateRunes
    split_ifs
    · right; exact ⟨_, rfl⟩
    · right; exact ⟨_, rfl⟩
    · exact ih next

theorem validateRunes_ok_iff (m1 m2 : String) (prev : Nat) (rest : List Nat) :
    validateRunes m1 m2 prev rest = .ok () ↔
      (∀ r ∈ rest, r < 128) ∧ List.Chain (· < ·) prev rest := by
  induction rest generalizing prev with
  | nil => simp [validateRunes]
  | cons next rest ih =>
    unfold validateRunes
    split_ifs with h1 h2
    · simp only [List.mem_cons, forall_eq_or_imp, List.chain_cons, false_iff]
      intro h
      omega
    · simp only [List.mem_cons, forall_eq_or_imp, List.chain_cons, false_iff]
      intro h
      omega
    · rw [ih next]
      simp only [List.mem_cons, forall_eq_or_imp, List.chain_cons]
      constructor
      · rintro ⟨ha, hc⟩
        exact ⟨⟨by omega, ha⟩, by omega, hc⟩
      · rintro ⟨⟨_, ha⟩, _, hc⟩
        exact ⟨ha, hc⟩

/-- An alphabet string is plain when every rune is ASCII and the runes
strictly increase. -/
theorem goRunes_lt_iff (s : String) :
    (∀ r ∈ goRunes s, r < 128) ↔ ∀ c ∈ s.data, c.toNat < 128 := by
  simp [goRunes]

theorem validateSigils_cases (s : String) :
    validateSigils s = .ok () ∨ ∃ msg, validateSigils s = .error (.config msg) := by
  unfold validateSigils
  split_ifs with h
  · left; rfl
  · have hlen : s.data ≠ [] := by
      intro h0
      have : s.utf8ByteSize = 0 := by
        cases s with
        | mk cs =>
          simp only at h0
          subst h0
          rfl
      omega
    cases hr : goRunes s with
    | nil =>
      simp [goRunes] at hr
      exact absurd hr hlen
    | cons prev rest =>
      simp only
      split_ifs
      · right; exact ⟨_, rfl⟩
      · exact validateRunes_cases _ _ _ _

theorem validateSigils_ok_iff (s : String) :
    validateSigils s = .ok () ↔
      (∀ c ∈ s.data, c.toNat < 128) ∧ (goRunes s).Chain' (· < ·) := by
  unfold validateSigils
  split_ifs with h
  · have h0 : s.data = [] := by
      have := byteSize_ge s
      exact List.eq_nil_of_length_eq_zero (by omega)
    simp [goRunes, h0]
  · rw [← goRunes_lt_iff]
    cases hr : goRunes s with
    | nil =>
      have := goRunes_eq_nil s hr
      omega
    | cons prev rest =>
      simp only
      split_ifs with h1
      · simp only [List.mem_cons, forall_eq_or_imp, false_iff]
        intro hh
        omega
      · rw [validateRunes_ok_iff]
        simp only [List.mem_cons, forall_eq_or_imp, List.Chain']
        constructor
        · rintro ⟨ha, hc⟩
          exact ⟨⟨by omega, ha⟩, hc⟩
        · rintro ⟨⟨_, ha⟩, hc⟩
          exact ⟨ha, hc⟩

theorem validateDigits_cases (s : String) :
    validateDigits s = .ok () ∨ ∃ msg, validateDigits s = .error (.config msg) := by
  unfold validateDigits
  split_ifs with h
  · right; exact ⟨_, rfl⟩
  · have hlen : s.data ≠ [] := by
      intro h0
      have : s.utf8ByteSize = 0 := by
        cases s with
        | mk cs =>
          simp only at h0
          subst h0
          rfl
      omega
    cases hr : goRunes s with
    | nil =>
      simp [goRunes] at hr
      exact absurd hr hlen
    | cons prev rest =>
      simp only
      split_ifs
      · right; exact ⟨_, rfl⟩
      · exact validateRunes_cases _ _ _ _

theorem validateDigits_ok_iff (s : String) :
    validateDigits s = .ok () ↔
      (∀ c ∈ s.data, c.toNat < 128) ∧ (goRunes s).Chain' (· < ·) ∧ 2 ≤ s.data.length := by
  unfold validateDigits
  by_cases hasc : ∀ c ∈ s.data, c.toNat < 128
  · rw [byteSize_ascii s hasc]
    split_ifs with h
    · simp only [false_iff]
      rintro ⟨_, _, h2⟩
      omega
    · have hr0 := (goRunes_lt_iff s).2 hasc
      cases hr : goRunes s with
      | nil =>
        simp [goRunes] at hr
        simp [hr] at h
      | cons prev rest =>
        rw [hr] at hr0
        simp only
        have hp : prev < 128 := hr0 prev (List.mem_cons_self _ _)
        have hrest : ∀ r ∈ rest, r < 128 := fun r hr1 => hr0 r (List.mem_cons_of_mem _ hr1)
        rw [if_neg (by omega), validateRunes_ok_iff]
        simp only [List.Chain']
        constructor
        · rintro ⟨_, hc⟩
          exact ⟨hasc, hc, by omega⟩
        · rintro ⟨_, hc, _⟩
          exact ⟨hrest, hc⟩
  · have hne : validateDigits s ≠ .ok () := by
      unfold validateDigits
      split_ifs with h
      · simp
      · cases hr : goRunes s with
        | nil => simp
        | cons prev rest =>
          simp only
          split_ifs with h1
          · simp
          · rw [Ne, validateRunes_ok_iff]
            rintro ⟨ha, _⟩
            apply hasc
            rw [← goRunes_lt_iff, hr]
            intro r hr1
            rcases List.mem_cons.1 hr1 with rfl | h2
            · omega
            · exact ha r h2
    unfold validateDigits at hne
    constructor
    · intro h
      exact absurd h hne
    · rintro ⟨h, _⟩
      exact absurd h hasc

theorem foldl_mapSet (L : List (Nat × Nat)) (g f : Nat × Nat → Nat) (m0 : List (Nat × Nat)) :
    L.foldl (fun m p => mapSet m (g p) (f p)) m0 =
      (L.map (fun p => (g p, f p))).reverse ++ m0 := by
  induction L generalizing m0 with
  | nil => rfl
  | cons p L ih =>
    simp only [List.foldl_cons, List.map_cons, List.reverse_cons, List.append_assoc,
      List.singleton_append]
    rw [ih]
    rfl

theorem lookup_iff_mem (l : List (Nat × Nat)) (hn : (l.map Prod.fst).Nodup) (x v : Nat) :
    l.lookup x = some v ↔ (x, v) ∈ l := by
  induction l with
  | nil => simp
  | cons p l ih =>
    obtain ⟨k, w⟩ := p
    simp only [List.map_cons, List.nodup_cons, List.mem_map, Prod.exists, exists_and_right,
      exists_eq_right, not_exists] at hn
    by_cases hx : x = k
    · subst hx
      simp only [List.lookup_cons, beq_self_eq_true, Option.some.injEq, List.mem_cons,
        Prod.mk.injEq, true_and]
      constructor
      · intro h
        exact Or.inl h.symm
      · rintro (h | h)
        · exact h.symm
        · exact absurd h (hn.1 v)
    · have hb : (x == k) = false := by simpa using hx
      simp only [List.lookup_cons, hb, List.mem_cons, Prod.mk.injEq, hx, false_and, false_or]
      exact ih hn.2

theorem buildMap_spec (l : List Nat) (f : Nat → Nat) (hl : ∀ r ∈ l, r < 128)
    (hs : l.Pairwise (· < ·)) (x v : Nat) :
    mapGet? ((l.enumFrom 0).foldl (fun m p => mapSet m (p.2 % 256) (f p.1)) []) x = some v ↔
      ∃ i, l[i]? = some x ∧ v = f i := by
  rw [foldl_mapSet (l.enumFrom 0) (fun p => p.2 % 256) (fun p => f p.1)]
  unfold mapGet?
  have hkeys : (((l.enumFrom 0).map (fun p : Nat × Nat => (p.2 % 256, f p.1))).reverse ++ []).map Prod.fst
      = l.reverse := by
    simp only [List.append_nil, List.map_reverse, List.map_map]
    congr 1
    have : (Prod.fst ∘ fun p : Nat × Nat => (p.2 % 256, f p.1)) = (fun r => r % 256) ∘ Prod.snd := by
      funext p; rfl
    rw [this, ← List.map_map, List.enumFrom_map_snd]
    conv_rhs => rw [← List.map_id l]
    apply List.map_congr_left
    intro r hr
    have := hl r hr
    simp only [id]
    omega
  rw [lookup_iff_mem _ (by rw [hkeys]; exact List.nodup_reverse.2 (hs.imp (fun h => Nat.ne_of_lt h)))]
  simp only [List.append_nil, List.mem_reverse, List.mem_map, Prod.mk.injEq, Prod.exists]
  constructor
  · rintro ⟨i, r, hmem, hr, hv⟩
    rw [List.mk_mem_enumFrom_iff_le_and_getElem?_sub] at hmem
    have hr128 : r < 128 := hl r (List.getElem?_mem hmem.2)
    refine ⟨i, ?_, hv.symm⟩
    rw [← hr, Nat.mod_eq_of_lt (by omega)]
    simpa using hmem.2
  · rintro ⟨i, hi, hv⟩
    have hr128 : x < 128 := hl x (List.getElem?_mem hi)
    refine ⟨i, x, ?_, Nat.mod_eq_of_lt (by omega), hv.symm⟩
    rw [List.mk_mem_enumFrom_iff_le_and_getElem?_sub]
    simpa using hi

theorem index_zero_cons (x : Nat) (l : List Nat) : index (x :: l) 0 = .ok x := by
  simp [index]

theorem index_natCast (l : List Nat) (i : Nat) (x : Nat) (h : l[i]? = some x) :
    index l (i : Int) = .ok x := by
  unfold index
  rw [if_neg (by omega)]
  simp [h]

theorem bandWidth_ge (m i : Nat) : 2 ≤ bandWidth m i := by
  unfold bandWidth
  split_ifs <;> omega

/-- Plain alphabets: what `validateSigils` and `validateDigits` accept. -/
theorem NewKeySet_ok (sigils digits : String)
    (hs : validateSigils sigils = .ok ()) (hd : validateDigits digits = .ok ()) :
    ∃ ks, NewKeySet sigils digits = .ok ks ∧ WF ks ∧
      ks.sigils = goRunes sigils ∧ ks.digits = goRunes digits := by
  have hs1 := (validateSigils_ok_iff sigils).1 hs
  have hd1 := (validateDigits_ok_iff digits).1 hd
  obtain ⟨hsa, hsc⟩ := hs1
  obtain ⟨hda, hdc, hdl⟩ := hd1
  have hsp : (goRunes sigils).Pairwise (· < ·) := List.chain'_iff_pairwise.1 hsc
  have hdp : (goRunes digits).Pairwise (· < ·) := List.chain'_iff_pairwise.1 hdc
  have hdlen : (goRunes digits).length = digits.data.length := by simp [goRunes]
  have hslen : (goRunes sigils).length = sigils.data.length := by simp [goRunes]
  obtain ⟨d0, dr, hdeq⟩ : ∃ d0 dr, goRunes digits = d0 :: dr := by
    cases h : goRunes digits with
    | nil => rw [h] at hdlen; simp only [List.length_nil] at hdlen; omega
    | cons a b => exact ⟨a, b, rfl⟩
  have hsl := (goRunes_lt_iff sigils).2 hsa
  have hdl128 := (goRunes_lt_iff digits).2 hda
  simp only [NewKeySet, hs, hd, bind, Except.bind, goBytes_ascii sigils hsa,
    goBytes_ascii digits hda, goRange_ascii sigils hsa, goRange_ascii digits hda,
    byteSize_ascii sigils hsa, ← hslen]
  have hDI := buildMap_spec (goRunes digits) (fun i => i) hdl128 hdp
  have hSI := buildMap_spec (goRunes sigils) (fun i => i) hsl hsp
  have hSL := buildMap_spec (goRunes sigils) (bandWidth ((goRunes sigils).length / 2)) hsl hsp
  rw [hdeq, index_zero_cons]
  cases hseq : goRunes sigils with
  | nil =>
    refine ⟨_, rfl, ?_, rfl, rfl⟩
    refine ⟨hdeq ▸ hdp, ?_, List.Pairwise.nil, ?_, ?_, ?_, ?_, ?_⟩
    · show 2 ≤ (d0 :: dr).length
      rw [← hdeq]; omega
    · intro x i
      rw [← hdeq, hDI x i]
      constructor
      · rintro ⟨j, hj, rfl⟩; exact hj
      · intro h; exact ⟨i, h, rfl⟩
    · intro x i
      simp [mapGet?, List.enumFrom]
    · intro x n
      simp [mapGet?, List.enumFrom]
    · intro s rest h
      simp at h
    · exact ⟨d0, by simp, Or.inl ⟨rfl, rfl⟩⟩
  | cons s0 sr =>
    rw [hseq] at hSI hSL hsp
    have hn : mapGet (List.foldl (fun m p => mapSet m (p.2 % 256)
        (bandWidth ((s0 :: sr).length / 2) p.1)) [] (List.enumFrom 0 (s0 :: sr))) s0 =
        bandWidth ((s0 :: sr).length / 2) 0 := by
      unfold mapGet
      rw [(hSL s0 _).2 ⟨0, by simp, rfl⟩]
      rfl
    have hmid : (s0 :: sr).length / 2 < (s0 :: sr).length :=
      Nat.div_lt_self (by simp) (by decide)
    obtain ⟨sm, hsm⟩ : ∃ sm, (s0 :: sr)[(s0 :: sr).length / 2]? = some sm :=
      ⟨_, List.getElem?_eq_getElem hmid⟩
    have hge := bandWidth_ge ((s0 :: sr).length / 2) 0
    have hlt : ¬ (s0 :: sr).length < 1 := by simp
    have h1n : 1 < bandWidth ((s0 :: sr).length / 2) 0 := by omega
    simp only [if_neg hlt, index_zero_cons, hn, if_pos h1n, index_natCast _ _ _ hsm, pure,
      Except.pure]
    refine ⟨_, rfl, ?_, rfl, rfl⟩
    refine ⟨hdeq ▸ hdp, ?_, hsp, ?_, ?_, ?_, ?_, ?_⟩
    · show 2 ≤ (d0 :: dr).length
      rw [← hdeq]; omega
    · intro x i
      rw [← hdeq, hDI x i]
      constructor
      · rintro ⟨j, hj, rfl⟩; exact hj
      · intro h; exact ⟨i, h, rfl⟩
    · intro x i
      rw [hSI x i]
      constructor
      · rintro ⟨j, hj, rfl⟩; exact hj
      · intro h; exact ⟨i, h, rfl⟩
    · intro x n
      exact hSL x n
    · intro s rest h
      have h1 : s0 = s := by
        have : (s0 :: sr) = s :: rest := h
        exact (List.cons.inj this).1
      subst h1
      exact ⟨d0, by simp, rfl⟩
    · exact ⟨d0, by simp, Or.inr ⟨sm, hsm, rfl⟩⟩

theorem cons_lt_cons_iff (x y : Nat) (xs ys : List Nat) :
    x :: xs < y :: ys ↔ x < y ∨ (x = y ∧ xs < ys) := by
  constructor
  · intro h
    cases h with
    | rel h => exact Or.inl h
    | cons h => exact Or.inr ⟨rfl, h⟩
  · rintro (h | ⟨rfl, h⟩)
    · exact List.Lex.rel h
    · exact List.Lex.cons h

theorem not_lt_nil (l : List Nat) : ¬ l < [] := by
  intro h
  cases h

theorem nil_lt_iff (l : List Nat) : [] < l ↔ l ≠ [] := by
  cases l with
  | nil => simp
  | cons x xs => simp [List.nil_lt_cons]

theorem append_lt_append_iff (p s t : List Nat) : p ++ s < p ++ t ↔ s < t := by
  induction p with
  | nil => rfl
  | cons x p ih =>
    simp only [List.cons_append, cons_lt_cons_iff, lt_irrefl, true_and, false_or, ih]

theorem lt_append_of_ne_nil (l s : List Nat) (h : s ≠ []) : l < l ++ s := by
  have := (append_lt_append_iff l [] s).2 ((nil_lt_iff s).2 h)
  simpa using this

theorem append_lt_append_of_length (x y s t : List Nat) (hl : x.length = y.length) :
    x ++ s < y ++ t ↔ x < y ∨ (x = y ∧ s < t) := by
  induction x generalizing y with
  | nil =>
    cases y with
    | nil => simp
    | cons b y => simp at hl
  | cons a x ih =>
    cases y with
    | nil => simp at hl
    | cons b y =>
      have hl1 : x.length = y.length := by simpa using hl
      simp only [List.cons_append, cons_lt_cons_iff, ih y hl1, List.cons.injEq]
      constructor
      · rintro (h | ⟨rfl, h | ⟨rfl, h⟩⟩)
        · exact Or.inl (Or.inl h)
        · exact Or.inl (Or.inr ⟨rfl, h⟩)
        · exact Or.inr ⟨⟨rfl, rfl⟩, h⟩
      · rintro ((h | ⟨rfl, h⟩) | ⟨⟨rfl, rfl⟩, h⟩)
        · exact Or.inl h
        · exact Or.inr ⟨rfl, Or.inl h⟩
        · exact Or.inr ⟨rfl, Or.inr ⟨rfl, h⟩⟩

theorem lt_append_of_lt (x y t : List Nat) (h : x < y) : x < y ++ t := by
  induction x generalizing y with
  | nil =>
    cases y with
    | nil => exact absurd h (not_lt_nil _)
    | cons b y => exact List.nil_lt_cons _ _
  | cons a x ih =>
    cases y with
    | nil => exact absurd h (not_lt_nil _)
    | cons b y =>
      rw [List.cons_append, cons_lt_cons_iff]
      rcases (cons_lt_cons_iff a b x y).1 h with h1 | ⟨h1, h2⟩
      · exact Or.inl h1
      · exact Or.inr ⟨h1, ih y h2⟩

theorem bytesCompare_cases (a b : List Nat) :
    (bytesCompare a b = -1 ∧ a < b) ∨ (bytesCompare a b = 0 ∧ a = b) ∨
      (bytesCompare a b = 1 ∧ b < a) := by
  induction a generalizing b with
  | nil =>
    cases b with
    | nil => right; left; exact ⟨rfl, rfl⟩
    | cons y ys => left; exact ⟨rfl, List.nil_lt_cons _ _⟩
  | cons x xs ih =>
    cases b with
    | nil => right; right; exact ⟨rfl, List.nil_lt_cons _ _⟩
    | cons y ys =>
      unfold bytesCompare
      by_cases h1 : x < y
      · left
        rw [if_pos h1]
        exact ⟨rfl, List.Lex.rel h1⟩
      · by_cases h2 : y < x
        · right; right
          rw [if_neg h1, if_pos h2]
          exact ⟨rfl, List.Lex.rel h2⟩
        · have hxy : x = y := by omega
          subst hxy
          rw [if_neg h1, if_neg h2]
          rcases ih ys with ⟨h, hl⟩ | ⟨h, hl⟩ | ⟨h, hl⟩
          · left; exact ⟨h, List.Lex.cons hl⟩
          · right; left; exact ⟨h, by rw [hl]⟩
          · right; right; exact ⟨h, List.Lex.cons hl⟩

theorem bytesCompare_neg_iff (a b : List Nat) : bytesCompare a b < 0 ↔ a < b := by
  rcases bytesCompare_cases a b with ⟨h, hl⟩ | ⟨h, hl⟩ | ⟨h, hl⟩
  · rw [h]; simp [hl]
  · rw [h, hl]; simp
  · rw [h]
    simp only [show ¬ ((1 : Int) < 0) by decide, false_iff]
    exact lt_asymm hl

theorem bytesCompare_eq_zero_iff (a b : List Nat) : bytesCompare a b = 0 ↔ a = b := by
  rcases bytesCompare_cases a b with ⟨h, hl⟩ | ⟨h, hl⟩ | ⟨h, hl⟩
  · rw [h]
    simp only [show ¬ ((-1 : Int) = 0) by decide, false_iff]
    exact ne_of_lt hl
  · rw [h, hl]; simp
  · rw [h]
    simp only [show ¬ ((1 : Int) = 0) by decide, false_iff]
    exact (ne_of_lt hl).symm

theorem bytesCompare_nonneg_iff (a b : List Nat) : bytesCompare a b ≥ 0 ↔ ¬ a < b := by
  rw [← bytesCompare_neg_iff]
  omega

theorem digit_lt_iff {ks : KeySet} (hw : WF ks) {i j x y : Nat}
    (hi : ks.digits[i]? = some x) (hj : ks.digits[j]? = some y) : x < y ↔ i < j := by
  obtain ⟨hi1, rfl⟩ := List.getElem?_eq_some.1 hi
  obtain ⟨hj1, rfl⟩ := List.getElem?_eq_some.1 hj
  have hp := List.pairwise_iff_getElem.1 hw.digits_sorted
  constructor
  · intro h
    by_contra hc
    rcases Nat.lt_or_eq_of_le (Nat.le_of_not_lt hc) with h1 | h1
    · have := hp j i hj1 hi1 h1
      omega
    · subst h1
      omega
  · intro h
    exact hp i j hi1 hj1 h

theorem digit_eq_iff {ks : KeySet} (hw : WF ks) {i j x y : Nat}
    (hi : ks.digits[i]? = some x) (hj : ks.digits[j]? = some y) : x = y ↔ i = j := by
  have h1 := digit_lt_iff hw hi hj
  have h2 := digit_lt_iff hw hj hi
  constructor
  · intro h; omega
  · intro h; omega

theorem sigil_lt_iff {ks : KeySet} (hw : WF ks) {i j x y : Nat}
    (hi : ks.sigils[i]? = some x) (hj : ks.sigils[j]? = some y) : x < y ↔ i < j := by
  obtain ⟨hi1, rfl⟩ := List.getElem?_eq_some.1 hi
  obtain ⟨hj1, rfl⟩ := List.getElem?_eq_some.1 hj
  have hp := List.pairwise_iff_getElem.1 hw.sigils_sorted
  constructor
  · intro h
    by_contra hc
    rcases Nat.lt_or_eq_of_le (Nat.le_of_not_lt hc) with h1 | h1
    · have := hp j i hj1 hi1 h1
      omega
    · subst h1
      omega
  · intro h
    exact hp i j hi1 hj1 h

theorem sigil_eq_iff {ks : KeySet} (hw : WF ks) {i j x y : Nat}
    (hi : ks.sigils[i]? = some x) (hj : ks.sigils[j]? = some y) : x = y ↔ i = j := by
  have h1 := sigil_lt_iff hw hi hj
  have h2 := sigil_lt_iff hw hj hi
  constructor
  · intro h; omega
  · intro h; omega

theorem mapGet_digit {ks : KeySet} (hw : WF ks) {i x : Nat}
    (hi : ks.digits[i]? = some x) : mapGet ks.digitsIdx x = i := by
  unfold mapGet
  rw [(hw.digitsIdx_spec x i).2 hi]
  rfl

theorem mapGet_sigil {ks : KeySet} (hw : WF ks) {i x : Nat}
    (hi : ks.sigils[i]? = some x) : mapGet ks.sigilsIdx x = i := by
  unfold mapGet
  rw [(hw.sigilsIdx_spec x i).2 hi]
  rfl

theorem mapGet_sigilsLen {ks : KeySet} (hw : WF ks) {i x : Nat}
    (hi : ks.sigils[i]? = some x) :
    mapGet? ks.sigilsLen x = some (bandWidth (ks.sigils.length / 2) i) :=
  (hw.sigilsLen_spec x _).2 ⟨i, hi, rfl⟩

theorem digit_index {ks : KeySet} {x : Nat} (hx : x ∈ ks.digits) :
    ∃ i, ks.digits[i]? = some x ∧ i < ks.digits.length := by
  obtain ⟨i, hi⟩ := List.mem_iff_getElem?.1 hx
  exact ⟨i, hi, (List.getElem?_eq_some.1 hi).1⟩

theorem digit_at {ks : KeySet} {i : Nat} (hi : i < ks.digits.length) :
    ∃ x, ks.digits[i]? = some x ∧ x ∈ ks.digits :=
  ⟨ks.digits[i], List.getElem?_eq_getElem hi, List.getElem_mem hi⟩

theorem isDigit_iff {ks : KeySet} (hw : WF ks) (x : Nat) :
    (mapGet? ks.digitsIdx x).isNone = false ↔ x ∈ ks.digits := by
  constructor
  · intro h
    cases hm : mapGet? ks.digitsIdx x with
    | none => rw [hm] at h; simp at h
    | some i => exact List.getElem?_mem ((hw.digitsIdx_spec x i).1 hm)
  · intro h
    obtain ⟨i, hi, _⟩ := digit_index h
    rw [(hw.digitsIdx_spec x i).2 hi]
    rfl

theorem index_append_length (pre suf : List Nat) (x : Nat) :
    index (pre ++ x :: suf) (pre.length : Nat) = .ok x := by
  apply index_natCast
  rw [List.getElem?_append_right (le_refl _)]
  simp

theorem set_append_length (pre suf : List Nat) (x y : Nat) :
    (pre ++ x :: suf).set pre.length y = pre ++ y :: suf := by
  induction pre with
  | nil => rfl
  | cons a pre ih => simp [ih]

theorem index_intCast (l : List Nat) (i : Int) (n x : Nat) (hn : i = (n : Int))
    (h : l[n]? = some x) : index l i = .ok x := by
  subst hn
  exact index_natCast l n x h

theorem index_last (l : List Nat) (mx : Nat) (h : l[l.length - 1]? = some mx) :
    index l ((l.length : Int) - 1) = .ok mx := by
  have hlt : l.length - 1 < l.length := (List.getElem?_eq_some.1 h).1
  exact index_intCast l _ (l.length - 1) mx (by omega) h

/-- The carry loop: either every digit was the largest one and all are now
the smallest, or the digits went up in place. -/
theorem incrementLoop_spec {ks : KeySet} (hw : WF ks) (z mx : Nat)
    (hz : ks.digits[0]? = some z) (hmx : ks.digits[ks.digits.length - 1]? = some mx)
    (pre suf : List Nat) (hpre : ∀ x ∈ pre, x ∈ ks.digits) :
    ((∀ x ∈ pre, x = mx) ∧
      incrementLoop ks pre.length (pre ++ suf) =
        .ok (List.replicate pre.length z ++ suf, true)) ∨
    ((∃ x ∈ pre, x ≠ mx) ∧ ∃ pre1, incrementLoop ks pre.length (pre ++ suf) =
        .ok (pre1 ++ suf, false) ∧ pre1.length = pre.length ∧ pre < pre1 ∧
        ∀ x ∈ pre1, x ∈ ks.digits) := by
  induction pre using List.reverseRecOn generalizing suf with
  | nil =>
    left
    exact ⟨by simp, rfl⟩
  | append_singleton init x ih =>
    have hx : x ∈ ks.digits := hpre x (by simp)
    have hinit : ∀ y ∈ init, y ∈ ks.digits := fun y hy => hpre y (by simp [hy])
    obtain ⟨i, hi, hilt⟩ := digit_index hx
    have hlen : (init ++ [x]).length = init.length + 1 := by simp
    have happ : (init ++ [x]) ++ suf = init ++ x :: suf := by simp
    rw [hlen, happ, incrementLoop]
    simp only [index_append_length, bind, Except.bind, mapGet_digit hw hi, set_append_length]
    by_cases hlast : ((i : Int) + 1 = (ks.digits.length : Int))
    · have hxm : x = mx := (digit_eq_iff hw hi hmx).2 (by omega)
      rw [if_pos hlast, index_intCast _ 0 0 z rfl hz]
      simp only
      rcases ih (z :: suf) hinit with ⟨hall, hres⟩ | ⟨hex, pre1, hres, hl1, hlt, hd1⟩
      · left
        refine ⟨?_, ?_⟩
        · intro y hy
          rcases List.mem_append.1 hy with h | h
          · exact hall y h
          · rw [List.mem_singleton.1 h, hxm]
        · rw [hres, List.replicate_succ']
          simp
      · right
        refine ⟨?_, pre1 ++ [z], ?_, ?_, ?_, ?_⟩
        · obtain ⟨y, hy, hne⟩ := hex
          exact ⟨y, by simp [hy], hne⟩
        · rw [hres]; simp
        · simp [hl1]
        · rw [append_lt_append_of_length _ _ _ _ hl1.symm]
          exact Or.inl hlt
        · intro y hy
          rcases List.mem_append.1 hy with h | h
          · exact hd1 y h
          · rw [List.mem_singleton.1 h]
            exact List.getElem?_mem hz
    · rw [if_neg hlast]
      have hi1 : i + 1 < ks.digits.length := by omega
      obtain ⟨x1, hx1, hx1m⟩ := digit_at hi1
      rw [index_intCast _ _ (i + 1) x1 (by push_cast; ring) hx1]
      right
      refine ⟨⟨x, by simp, ?_⟩, init ++ [x1], ?_, by simp, ?_, ?_⟩
      · intro h
        have := (digit_eq_iff hw hi hmx).1 h
        omega
      · simp [pure, Except.pure]
      · rw [append_lt_append_iff, cons_lt_cons_iff]
        exact Or.inl ((digit_lt_iff hw hi hx1).2 (by omega))
      · intro y hy
        rcases List.mem_append.1 hy with h | h
        · exact hinit y h
        · rw [List.mem_singleton.1 h]
          exact hx1m

/-- The borrow loop: either every digit was the smallest one and all are now
the largest, or the digits went down in place. -/
theorem decrementLoop_spec {ks : KeySet} (hw : WF ks) (z mx : Nat)
    (hz : ks.digits[0]? = some z) (hmx : ks.digits[ks.digits.length - 1]? = some mx)
    (pre suf : List Nat) (hpre : ∀ x ∈ pre, x ∈ ks.digits) :
    ((∀ x ∈ pre, x = z) ∧
      decrementLoop ks pre.length (pre ++ suf) =
        .ok (List.replicate pre.length mx ++ suf, true)) ∨
    ((∃ x ∈ pre, x ≠ z) ∧ ∃ pre1, decrementLoop ks pre.length (pre ++ suf) =
        .ok (pre1 ++ suf, false) ∧ pre1.length = pre.length ∧ pre1 < pre ∧
        ∀ x ∈ pre1, x ∈ ks.digits) := by
  have hN := hw.digits_len
  induction pre using List.reverseRecOn generalizing suf with
  | nil =>
    left
    exact ⟨by simp, rfl⟩
  | append_singleton init x ih =>
    have hx : x ∈ ks.digits := hpre x (by simp)
    have hinit : ∀ y ∈ init, y ∈ ks.digits := fun y hy => hpre y (by simp [hy])
    obtain ⟨i, hi, hilt⟩ := digit_index hx
    have hlen : (init ++ [x]).length = init.length + 1 := by simp
    have happ : (init ++ [x]) ++ suf = init ++ x :: suf := by simp
    rw [hlen, happ, decrementLoop]
    simp only [index_append_length, bind, Except.bind, mapGet_digit hw hi, set_append_length]
    by_cases hfirst : ((i : Int) - 1 = -1)
    · have hxz : x = z := (digit_eq_iff hw hi hz).2 (by omega)
      rw [if_pos hfirst, index_last _ mx hmx]
      simp only
      rcases ih (mx :: suf) hinit with ⟨hall, hres⟩ | ⟨hex, pre1, hres, hl1, hlt, hd1⟩
      · left
        refine ⟨?_, ?_⟩
        · intro y hy
          rcases List.mem_append.1 hy with h | h
          · exact hall y h
          · rw [List.mem_singleton.1 h, hxz]
        · rw [hres, List.replicate_succ']
          simp
      · right
        refine ⟨?_, pre1 ++ [mx], ?_, ?_, ?_, ?_⟩
        · obtain ⟨y, hy, hne⟩ := hex
          exact ⟨y, by simp [hy], hne⟩
        · rw [hres]; simp
        · simp [hl1]
        · rw [append_lt_append_of_length _ _ _ _ hl1]
          exact Or.inl hlt
        · intro y hy
          rcases List.mem_append.1 hy with h | h
          · exact hd1 y h
          · rw [List.mem_singleton.1 h]
            exact List.getElem?_mem hmx
    · rw [if_neg hfirst]
      have hi1 : i - 1 < ks.digits.length := by omega
      obtain ⟨x1, hx1, hx1m⟩ := digit_at hi1
      rw [index_intCast _ _ (i - 1) x1 (by omega) hx1]
      right
      refine ⟨⟨x, by simp, ?_⟩, init ++ [x1], ?_, by simp, ?_, ?_⟩
      · intro h
        have := (digit_eq_iff hw hi hz).1 h
        omega
      · simp [pure, Except.pure]
      · rw [append_lt_append_iff, cons_lt_cons_iff]
        exact Or.inl ((digit_lt_iff hw hx1 hi).2 (by omega))
      · intro y hy
        rcases List.mem_append.1 hy with h | h
        · exact hinit y h
        · rw [List.mem_singleton.1 h]
          exact hx1m

theorem bandWidth_succ (m i : Nat) :
    bandWidth m (i + 1) = bandWidth m i + 1 ∨ bandWidth m (i + 1) = bandWidth m i ∨
      bandWidth m (i + 1) + 1 = bandWidth m i := by
  unfold bandWidth
  split_ifs <;> omega

theorem mapGet_sigilsLen_eq {ks : KeySet} (hw : WF ks) {i x : Nat}
    (hi : ks.sigils[i]? = some x) :
    mapGet ks.sigilsLen x = bandWidth (ks.sigils.length / 2) i := by
  unfold mapGet
  rw [mapGet_sigilsLen hw hi]
  rfl

/-- The three outcomes of `incrementInteger` on a key with a configured sigil
and an integer of the right width. -/
theorem incrementInteger_spec {ks : KeySet} (hw : WF ks) (z mx : Nat)
    (hz : ks.digits[0]? = some z) (hmx : ks.digits[ks.digits.length - 1]? = some mx)
    (v : parsedKey) (i : Nat) (hs : ks.sigils[i]? = some v.sigil)
    (hlen : v.integer.length + 1 = bandWidth (ks.sigils.length / 2) i)
    (hint : ∀ x ∈ v.integer, x ∈ ks.digits) :
    ((∃ x ∈ v.integer, x ≠ mx) ∧ ∃ int1, incrementInteger ks v =
        .ok (parsedKey.mk v.sigil int1 v.fraction) ∧
        int1.length = v.integer.length ∧ v.integer < int1 ∧ ∀ x ∈ int1, x ∈ ks.digits) ∨
    ((∀ x ∈ v.integer, x = mx) ∧ i + 1 = ks.sigils.length ∧
      incrementInteger ks v = .error .overflow) ∨
    ((∀ x ∈ v.integer, x = mx) ∧ ∃ s1, ks.sigils[i + 1]? = some s1 ∧
      incrementInteger ks v = .ok (parsedKey.mk s1
        (List.replicate (bandWidth (ks.sigils.length / 2) (i + 1) - 1) z) v.fraction)) := by
  have hge := bandWidth_ge (ks.sigils.length / 2) i
  have hloop := incrementLoop_spec hw z mx hz hmx v.integer [] hint
  simp only [List.append_nil] at hloop
  rcases hloop with ⟨hall, hres⟩ | ⟨hex, int1, hres, hl1, hlt, hd1⟩
  · right
    have hilt : i < ks.sigils.length := (List.getElem?_eq_some.1 hs).1
    by_cases hov : i + 1 = ks.sigils.length
    · left
      refine ⟨hall, hov, ?_⟩
      unfold incrementInteger
      simp only [hres, bind, Except.bind, mapGet_sigil hw hs]
      rw [if_pos trivial, if_pos (by omega)]
    · right
      refine ⟨hall, ?_⟩
      have hi1 : i + 1 < ks.sigils.length := by omega
      refine ⟨ks.sigils[i + 1], List.getElem?_eq_getElem hi1, ?_⟩
      have hs1 : ks.sigils[i + 1]? = some ks.sigils[i + 1] := List.getElem?_eq_getElem hi1
      have hw1 := mapGet_sigilsLen_eq hw hs1
      obtain ⟨k, hk⟩ : ∃ k, v.integer.length = k + 1 := ⟨v.integer.length - 1, by omega⟩
      unfold incrementInteger
      simp only [hres, bind, Except.bind, mapGet_sigil hw hs]
      rw [if_pos trivial, if_neg (by omega),
        index_intCast _ _ (i + 1) _ (by push_cast; ring) hs1]
      simp only [hw1, List.length_replicate, index_intCast _ 0 0 z rfl hz, pure, Except.pure]
      rcases bandWidth_succ (ks.sigils.length / 2) i with h | h | h
      · rw [if_pos (by omega)]
        have : bandWidth (ks.sigils.length / 2) (i + 1) - 1 = v.integer.length + 1 := by omega
        rw [this, List.replicate_succ']
      · rw [if_neg (by omega), if_neg (by omega)]
        have : bandWidth (ks.sigils.length / 2) (i + 1) - 1 = v.integer.length := by omega
        rw [this]
      · rw [if_neg (by omega), if_pos (by omega)]
        have : bandWidth (ks.sigils.length / 2) (i + 1) - 1 = k := by omega
        rw [this, hk, List.replicate_succ]
  · left
    refine ⟨hex, int1, ?_, hl1, hlt, hd1⟩
    unfold incrementInteger
    simp only [hres, bind, Except.bind]
    rfl

/-- The three outcomes of `decrementInteger` on a key with a configured sigil
and an integer of the right width. -/
theorem decrementInteger_spec {ks : KeySet} (hw : WF ks) (z mx : Nat)
    (hz : ks.digits[0]? = some z) (hmx : ks.digits[ks.digits.length - 1]? = some mx)
    (v : parsedKey) (i : Nat) (hs : ks.sigils[i]? = some v.sigil)
    (hlen : v.integer.length + 1 = bandWidth (ks.sigils.length / 2) i)
    (hint : ∀ x ∈ v.integer, x ∈ ks.digits) :
    ((∃ x ∈ v.integer, x ≠ z) ∧ ∃ int1, decrementInteger ks v =
        .ok (parsedKey.mk v.sigil int1 v.fraction) ∧
        int1.length = v.integer.length ∧ int1 < v.integer ∧ ∀ x ∈ int1, x ∈ ks.digits) ∨
    ((∀ x ∈ v.integer, x = z) ∧ i = 0 ∧
      decrementInteger ks v = .error .underflow) ∨
    ((∀ x ∈ v.integer, x = z) ∧ ∃ j s1, i = j + 1 ∧ ks.sigils[j]? = some s1 ∧
      decrementInteger ks v = .ok (parsedKey.mk s1
        (List.replicate (bandWidth (ks.sigils.length / 2) j - 1) mx) v.fraction)) := by
  have hge := bandWidth_ge (ks.sigils.length / 2) i
  have hN := hw.digits_len
  have hloop := decrementLoop_spec hw z mx hz hmx v.integer [] hint
  simp only [List.append_nil] at hloop
  rcases hloop with ⟨hall, hres⟩ | ⟨hex, int1, hres, hl1, hlt, hd1⟩
  · right
    have hilt : i < ks.sigils.length := (List.getElem?_eq_some.1 hs).1
    by_cases hov : i = 0
    · left
      refine ⟨hall, hov, ?_⟩
      unfold decrementInteger
      simp only [hres, bind, Except.bind, mapGet_sigil hw hs]
      rw [if_pos trivial, if_pos (by omega)]
    · right
      refine ⟨hall, ?_⟩
      obtain ⟨j, hj⟩ : ∃ j, i = j + 1 := ⟨i - 1, by omega⟩
      have hi1 : j < ks.sigils.length := by omega
      refine ⟨j, ks.sigils[j], hj, List.getElem?_eq_getElem hi1, ?_⟩
      have hs1 : ks.sigils[j]? = some ks.sigils[j] := List.getElem?_eq_getElem hi1
      have hw1 := mapGet_sigilsLen_eq hw hs1
      obtain ⟨k, hk⟩ : ∃ k, v.integer.length = k + 1 := ⟨v.integer.length - 1, by omega⟩
      unfold decrementInteger
      simp only [hres, bind, Except.bind, mapGet_sigil hw hs]
      rw [if_pos trivial, if_neg (by omega),
        index_intCast _ _ j _ (by omega) hs1]
      simp only [hw1, List.length_replicate, index_last _ mx hmx, pure, Except.pure]
      have hbw := bandWidth_succ (ks.sigils.length / 2) j
      rw [← hj] at hbw
      rcases hbw with h | h | h
      · rw [if_neg (by omega), if_pos (by omega)]
        have : bandWidth (ks.sigils.length / 2) j - 1 = k := by omega
        rw [this, hk, List.replicate_succ]
      · rw [if_neg (by omega), if_neg (by omega)]
        have : bandWidth (ks.sigils.length / 2) j - 1 = v.integer.length := by omega
        rw [this]
      · rw [if_pos (by omega)]
        have : bandWidth (ks.sigils.length / 2) j - 1 = v.integer.length + 1 := by omega
        rw [this, List.replicate_succ']
  · left
    refine ⟨hex, int1, ?_, hl1, hlt, hd1⟩
    unfold decrementInteger
    simp only [hres, bind, Except.bind]
    rfl

theorem roundHalf_bounds (i n : Nat) (h : i + 1 < n) :
    i < roundHalf (i + n) ∧ roundHalf (i + n) < n := by
  unfold roundHalf
  omega

theorem getLast?_singleton_ne {ks : KeySet} (hw : WF ks) {z d j : Nat}
    (hz : ks.digits[0]? = some z) (hd : ks.digits[j]? = some d) (hj : 0 < j) :
    [d].getLast? ≠ some z := by
  simp only [List.getLast?_singleton, ne_eq, Option.some.injEq]
  intro h
  have := (digit_eq_iff hw hd hz).1 h
  omega

theorem getLast?_cons_of_ne_nil (x : Nat) (s : List Nat) (h : s ≠ []) :
    (x :: s).getLast? = s.getLast? := by
  cases s with
  | nil => exact absurd rfl h
  | cons y ys => simp [List.getLast?_cons_cons]

theorem ne_nil_of_lt {a s : List Nat} (h : a < s) : s ≠ [] := by
  intro h0
  subst h0
  exact not_lt_nil a h

/-- With no upper bound the suffix loop ends within one iteration per digit
of `a` plus one, above `a`. -/
theorem midpointSuffix_nil_spec {ks : KeySet} (hw : WF ks) (z : Nat)
    (hz : ks.digits[0]? = some z) (a : List Nat) (ha : ∀ x ∈ a, x ∈ ks.digits)
    (fuel : Nat) (hf : a.length + 1 ≤ fuel) (acc : List Nat) :
    ∃ s, midpointSuffix ks fuel a [] acc = .ok (acc ++ s) ∧ a < s ∧
      (∀ x ∈ s, x ∈ ks.digits) ∧ s.getLast? ≠ some z := by
  have hN := hw.digits_len
  induction a generalizing fuel acc with
  | nil =>
    obtain ⟨f, rfl⟩ : ∃ f, fuel = f + 1 := ⟨fuel - 1, by omega⟩
    have hb := roundHalf_bounds 0 ks.digits.length (by omega)
    obtain ⟨d, hd, hdm⟩ := digit_at hb.2
    refine ⟨[d], ?_, List.nil_lt_cons _ _, ?_, getLast?_singleton_ne hw hz hd hb.1⟩
    · rw [midpointSuffix]
      simp only [Nat.cast_zero, sub_zero]
      rw [if_pos (by omega), index_natCast _ _ d hd]
      rfl
    · intro x hx
      rw [List.mem_singleton.1 hx]
      exact hdm
  | cons x xs ih =>
    obtain ⟨f, rfl⟩ : ∃ f, fuel = f + 1 := ⟨fuel - 1, by omega⟩
    have hx : x ∈ ks.digits := ha x (List.mem_cons_self _ _)
    have hxs : ∀ y ∈ xs, y ∈ ks.digits := fun y hy => ha y (List.mem_cons_of_mem _ hy)
    obtain ⟨i, hi, hilt⟩ := digit_index hx
    rw [midpointSuffix]
    simp only [mapGet_digit hw hi]
    by_cases hroom : (ks.digits.length : Int) - (i : Int) > 1
    · have hb := roundHalf_bounds i ks.digits.length (by omega)
      obtain ⟨d, hd, hdm⟩ := digit_at hb.2
      refine ⟨[d], ?_, ?_, ?_, getLast?_singleton_ne hw hz hd (by omega)⟩
      · rw [if_pos hroom, index_natCast _ _ d hd]
        rfl
      · rw [cons_lt_cons_iff]
        exact Or.inl ((digit_lt_iff hw hi hd).2 hb.1)
      · intro y hy
        rw [List.mem_singleton.1 hy]
        exact hdm
    · obtain ⟨s, hs, hlt, hds, hlast⟩ := ih hxs f (by simp at hf; omega) (acc ++ [x])
      have hne := ne_nil_of_lt hlt
      refine ⟨x :: s, ?_, ?_, ?_, ?_⟩
      · rw [if_neg hroom, index_natCast _ _ x hi]
        simp only [bind, Except.bind, List.tail_cons]
        rw [hs]
        simp
      · rw [cons_lt_cons_iff]
        exact Or.inr ⟨rfl, hlt⟩
      · intro y hy
        rcases List.mem_cons.1 hy with h | h
        · rw [h]; exact hx
        · exact hds y h
      · rw [getLast?_cons_of_ne_nil x s hne]
        exact hlast

/-- One iteration of the suffix loop, with `digitA` and `digitB` read off the
heads of the two lists. -/
theorem midpointSuffix_unfold (ks : KeySet) (f : Nat) (a b acc : List Nat) :
    midpointSuffix ks (f + 1) a b acc =
      if (((b.head?.map (mapGet ks.digitsIdx)).getD ks.digits.length : Nat) : Int) -
          (((a.head?.map (mapGet ks.digitsIdx)).getD 0 : Nat) : Int) > 1 then
        (index ks.digits (roundHalf ((a.head?.map (mapGet ks.digitsIdx)).getD 0 +
          (b.head?.map (mapGet ks.digitsIdx)).getD ks.digits.length))).bind
            (fun d => .ok (acc ++ [d]))
      else if 1 < b.length then .ok (acc ++ [b.headD 0])
      else (index ks.digits ((a.head?.map (mapGet ks.digitsIdx)).getD 0 : Nat)).bind
        (fun d => midpointSuffix ks f a.tail [] (acc ++ [d])) := by
  cases a with
  | nil =>
    cases b with
    | nil => rw [midpointSuffix]; rfl
    | cons y ys =>
      cases ys with
      | nil => rw [midpointSuffix]; rfl
      | cons y1 ys1 =>
        rw [midpointSuffix]
        simp only [List.head?_cons, List.head?_nil, Option.map_some', Option.map_none',
          Option.getD_some, Option.getD_none, List.length_cons, List.headD_cons]
        rw [if_pos (show 1 < ys1.length + 1 + 1 by omega)]
        rfl
  | cons x xs =>
    cases b with
    | nil => rw [midpointSuffix]; rfl
    | cons y ys =>
      cases ys with
      | nil => rw [midpointSuffix]; rfl
      | cons y1 ys1 =>
        rw [midpointSuffix]
        simp only [List.head?_cons, List.head?_nil, Option.map_some', Option.map_none',
          Option.getD_some, Option.getD_none, List.length_cons, List.headD_cons]
        rw [if_pos (show 1 < ys1.length + 1 + 1 by omega)]
        rfl

/-- The first iteration of the suffix loop below an upper bound `y :: ys`
whose first digit is above the first digit `hd` of the padded `a`. -/
theorem midpointSuffix_spec {ks : KeySet} (hw : WF ks) (z : Nat)
    (hz : ks.digits[0]? = some z) (a : List Nat) (ha : ∀ x ∈ a, x ∈ ks.digits)
    (y : Nat) (ys : List Nat) (hy : y ∈ ks.digits)
    (hhead : a.headD z < y) (fuel : Nat) (hf : a.length + 2 ≤ fuel) :
    ∃ s, midpointSuffix ks fuel a (y :: ys) [] = .ok s ∧ a < s ∧ s < y :: ys ∧
      (∀ x ∈ s, x ∈ ks.digits) ∧ s.getLast? ≠ some z := by
  have hN := hw.digits_len
  obtain ⟨f, rfl⟩ : ∃ f, fuel = f + 1 := ⟨fuel - 1, by omega⟩
  obtain ⟨j, hj, hjlt⟩ := digit_index hy
  have hzm : z ∈ ks.digits := List.getElem?_mem hz
  have hhd : a.headD z ∈ ks.digits := by
    cases a with
    | nil => exact hzm
    | cons x xs => exact ha x (List.mem_cons_self _ _)
  obtain ⟨i, hi, hilt⟩ := digit_index hhd
  have hij : i < j := (digit_lt_iff hw hi hj).1 hhead
  have hdA : (a.head?.map (mapGet ks.digitsIdx)).getD 0 = i := by
    cases a with
    | nil =>
      simp only [List.headD_nil] at hi
      exact ((digit_eq_iff hw hi hz).1 rfl).symm
    | cons x xs =>
      simp only [List.headD_cons] at hi
      exact mapGet_digit hw hi
  have halt : ∀ d t, (a.headD z < d ∨ (a.headD z = d ∧ a.tail < t)) → a < d :: t := by
    intro d t hor
    cases a with
    | nil => exact List.nil_lt_cons _ _
    | cons x xs => exact (cons_lt_cons_iff x d xs t).2 hor
  rw [midpointSuffix_unfold]
  simp only [hdA, List.head?_cons, Option.map_some', Option.getD_some, mapGet_digit hw hj]
  by_cases hroom : (j : Int) - (i : Int) > 1
  · have hb : i < roundHalf (i + j) ∧ roundHalf (i + j) < j := roundHalf_bounds i j (by omega)
    obtain ⟨d, hd, hdm⟩ := digit_at (show roundHalf (i + j) < ks.digits.length by omega)
    have hlt1 : a.headD z < d := (digit_lt_iff hw hi hd).2 hb.1
    refine ⟨[d], ?_, ?_, ?_, ?_, getLast?_singleton_ne hw hz hd (by omega)⟩
    · rw [if_pos hroom, index_natCast _ _ d hd]
      rfl
    · exact halt d [] (Or.inl hlt1)
    · rw [cons_lt_cons_iff]
      exact Or.inl ((digit_lt_iff hw hd hj).2 hb.2)
    · intro x hx
      rw [List.mem_singleton.1 hx]
      exact hdm
  · rw [if_neg hroom]
    cases ys with
    | cons y1 ys1 =>
      refine ⟨[y], ?_, ?_, ?_, ?_, getLast?_singleton_ne hw hz hj (by omega)⟩
      · rw [if_pos (by simp)]
        rfl
      · exact halt y [] (Or.inl hhead)
      · rw [cons_lt_cons_iff]
        exact Or.inr ⟨rfl, List.nil_lt_cons _ _⟩
      · intro x hx
        rw [List.mem_singleton.1 hx]
        exact hy
    | nil =>
      have hat : ∀ x ∈ a.tail, x ∈ ks.digits := fun x hx => ha x (List.mem_of_mem_tail hx)
      have hlen : a.tail.length + 1 ≤ f := by
        simp only [List.length_tail]
        omega
      obtain ⟨s, hs, hlt, hds, hlast⟩ :=
        midpointSuffix_nil_spec hw z hz a.tail hat f hlen ([] ++ [a.headD z])
      have hne := ne_nil_of_lt hlt
      refine ⟨a.headD z :: s, ?_, ?_, ?_, ?_, ?_⟩
      · rw [if_neg (by simp), index_natCast _ _ _ hi]
        simp only [Except.bind]
        rw [hs]
        simp
      · exact halt _ s (Or.inr ⟨rfl, hlt⟩)
      · rw [cons_lt_cons_iff]
        exact Or.inl hhead
      · intro x hx
        rcases List.mem_cons.1 hx with h | h
        · rw [h]; exact hhd
        · exact hds x h
      · rw [getLast?_cons_of_ne_nil _ s hne]
        exact hlast

theorem midpointPrefixLoop_le (z : Nat) (a b : List Nat) :
    midpointPrefixLoop z a b ≤ b.length := by
  induction b generalizing a with
  | nil => cases a <;> simp [midpointPrefixLoop]
  | cons y ys ih =>
    cases a with
    | nil =>
      rw [midpointPrefixLoop]
      split_ifs
      · omega
      · have := ih []
        simp only [List.length_cons]
        omega
    | cons x xs =>
      rw [midpointPrefixLoop]
      split_ifs
      · omega
      · have := ih xs
        simp only [List.length_cons]
        omega

theorem midpointPrefixLoop_nil (z : Nat) (a : List Nat) : midpointPrefixLoop z a [] = 0 := by
  cases a <;> rfl

/-- Anything above what is left of `a` after the common prefix, put behind
that prefix, is above `a`. -/
theorem lt_take_append (z : Nat) (a b s : List Nat)
    (h : a.drop (midpointPrefixLoop z a b) < s) :
    a < b.take (midpointPrefixLoop z a b) ++ s := by
  induction b generalizing a with
  | nil =>
    rw [midpointPrefixLoop_nil] at h
    simpa using h
  | cons y ys ih =>
    cases a with
    | nil =>
      rw [midpointPrefixLoop]
      split_ifs with hzy
      · simpa using ne_nil_of_lt h |> (nil_lt_iff s).2
      · simp only [List.take_succ_cons, List.cons_append]
        exact List.nil_lt_cons _ _
    | cons x xs =>
      rw [midpointPrefixLoop] at h ⊢
      split_ifs at h ⊢ with hxy
      · simpa using h
      · have hxy1 : x = y := by simpa using hxy
        subst hxy1
        simp only [List.drop_succ_cons] at h
        simp only [List.take_succ_cons, List.cons_append]
        rw [cons_lt_cons_iff]
        exact Or.inr ⟨rfl, ih xs h⟩

/-- After the common prefix, the upper bound still has a digit, and it is
above the digit of the padded lower bound. -/
theorem drop_head_lt {ks : KeySet} (hw : WF ks) (z : Nat) (hz : ks.digits[0]? = some z)
    (a b : List Nat) (hb : ∀ x ∈ b, x ∈ ks.digits) (hlast : b.getLast? ≠ some z)
    (hab : a < b) :
    ∃ y ys, b.drop (midpointPrefixLoop z a b) = y :: ys ∧
      (a.drop (midpointPrefixLoop z a b)).headD z < y := by
  induction b generalizing a with
  | nil => exact absurd hab (not_lt_nil a)
  | cons y ys ih =>
    have hy : y ∈ ks.digits := hb y (List.mem_cons_self _ _)
    have hys : ∀ x ∈ ys, x ∈ ks.digits := fun x hx => hb x (List.mem_cons_of_mem _ hx)
    obtain ⟨j, hj, _⟩ := digit_index hy
    have hzy : z ≠ y → z < y := by
      intro hne
      apply (digit_lt_iff hw hz hj).2
      have := (digit_eq_iff hw hz hj).not.1 hne
      omega
    cases a with
    | nil =>
      rw [midpointPrefixLoop]
      split_ifs with h
      · exact ⟨y, ys, rfl, hzy h⟩
      · have hyz : z = y := by simpa using h
        have hne : ys ≠ [] := by
          intro h0
          subst h0
          apply hlast
          simp [hyz]
        have hl : ys.getLast? ≠ some z := by
          rw [← getLast?_cons_of_ne_nil y ys hne]
          exact hlast
        obtain ⟨y1, ys1, h1, h2⟩ := ih [] hys hl ((nil_lt_iff ys).2 hne)
        refine ⟨y1, ys1, ?_, ?_⟩
        · simpa using h1
        · simpa using h2
    | cons x xs =>
      rw [midpointPrefixLoop]
      rcases (cons_lt_cons_iff x y xs ys).1 hab with hlt | ⟨hxy, hlt⟩
      · rw [if_pos (by omega)]
        exact ⟨y, ys, rfl, by simpa using hlt⟩
      · subst hxy
        rw [if_neg (by simp)]
        have hne : ys ≠ [] := ne_nil_of_lt hlt
        have hl : ys.getLast? ≠ some z := by
          rw [← getLast?_cons_of_ne_nil x ys hne]
          exact hlast
        obtain ⟨y1, ys1, h1, h2⟩ := ih xs hys hl hlt
        refine ⟨y1, ys1, ?_, ?_⟩
        · simpa using h1
        · simpa using h2

theorem midpointPrefix_eq {ks : KeySet} (z : Nat) (hz : ks.digits[0]? = some z)
    (a b : List Nat) :
    midpointPrefix ks a b = .ok (b.take (midpointPrefixLoop z a b)) := by
  unfold midpointPrefix
  rw [index_intCast _ 0 0 z rfl hz]
  simp only [bind, Except.bind]
  split_ifs with h
  · rfl
  · have : midpointPrefixLoop z a b = 0 := by omega
    rw [this]
    rfl

theorem getLast?_append_ne_nil (p s : List Nat) (h : s ≠ []) :
    (p ++ s).getLast? = s.getLast? := by
  induction p with
  | nil => rfl
  | cons x p ih =>
    rw [List.cons_append, getLast?_cons_of_ne_nil _ _ (by simp [h]), ih]

/-- The method `midpoint` refuses an upper bound that is not above the lower bound. -/
theorem midpoint_misordered (ks : KeySet) (a b : List Nat) (hb : b ≠ []) (hab : ¬ a < b) :
    midpoint ks a b = .error .misordered := by
  unfold midpoint
  rw [if_pos]
  exact ⟨List.length_pos.2 hb, (bytesCompare_nonneg_iff a b).2 hab⟩

/-- The method `midpoint` on configured digits, with no upper bound or a canonical upper
bound above `a`: the result is strictly between, made of configured digits,
and does not end in the smallest digit. -/
theorem midpoint_spec {ks : KeySet} (hw : WF ks) (z : Nat) (hz : ks.digits[0]? = some z)
    (a b : List Nat) (ha : ∀ x ∈ a, x ∈ ks.digits) (hb : ∀ x ∈ b, x ∈ ks.digits)
    (hlast : b.getLast? ≠ some z) (hab : b = [] ∨ a < b) :
    ∃ m, midpoint ks a b = .ok m ∧ a < m ∧ (b ≠ [] → m < b) ∧
      (∀ x ∈ m, x ∈ ks.digits) ∧ m.getLast? ≠ some z := by
  have hguard : ¬ (b.length > 0 ∧ bytesCompare a b ≥ 0) := by
    rintro ⟨h1, h2⟩
    rcases hab with h | h
    · subst h; simp at h1
    · exact (bytesCompare_nonneg_iff a b).1 h2 h
  have hle := midpointPrefixLoop_le z a b
  have hlen : (b.take (midpointPrefixLoop z a b)).length = midpointPrefixLoop z a b := by
    rw [List.length_take]
    omega
  have ha1 : (if midpointPrefixLoop z a b > 0 then
      (if midpointPrefixLoop z a b < a.length then a.drop (midpointPrefixLoop z a b) else [])
      else a) = a.drop (midpointPrefixLoop z a b) := by
    split_ifs with h1 h2
    · rfl
    · exact (List.drop_eq_nil_of_le (by omega)).symm
    · have : midpointPrefixLoop z a b = 0 := by omega
      rw [this]
      rfl
  have hb1 : (if midpointPrefixLoop z a b > 0 then b.drop (midpointPrefixLoop z a b) else b) =
      b.drop (midpointPrefixLoop z a b) := by
    split_ifs with h1
    · rfl
    · have : midpointPrefixLoop z a b = 0 := by omega
      rw [this]
      rfl
  have hdrop : ∀ x ∈ a.drop (midpointPrefixLoop z a b), x ∈ ks.digits :=
    fun x hx => ha x (List.mem_of_mem_drop hx)
  have htake : ∀ x ∈ b.take (midpointPrefixLoop z a b), x ∈ ks.digits :=
    fun x hx => hb x (List.mem_of_mem_take hx)
  unfold midpoint
  rw [if_neg hguard, midpointPrefix_eq z hz]
  simp only [bind, Except.bind, hlen, ha1, hb1]
  rcases hab with h0 | hlt
  · subst h0
    obtain ⟨s, hs, hlt, hds, hl⟩ := midpointSuffix_nil_spec hw z hz
      (a.drop (midpointPrefixLoop z a [])) hdrop
      ((a.drop (midpointPrefixLoop z a [])).length + 2) (by omega) []
    simp only [List.drop_nil, List.take_nil, List.nil_append] at hs ⊢
    rw [hs]
    refine ⟨s, rfl, ?_, fun h => absurd rfl h, hds, hl⟩
    have := lt_take_append z a [] s hlt
    simpa using this
  · obtain ⟨y, ys, hby, hhead⟩ := drop_head_lt hw z hz a b hb hlast hlt
    have hy : y ∈ ks.digits := by
      apply hb
      apply List.mem_of_mem_drop (n := midpointPrefixLoop z a b)
      rw [hby]
      exact List.mem_cons_self _ _
    obtain ⟨s, hs, hlt1, hlt2, hds, hl⟩ := midpointSuffix_spec hw z hz
      (a.drop (midpointPrefixLoop z a b)) hdrop y ys hy hhead
      ((a.drop (midpointPrefixLoop z a b)).length + 2) (le_refl _)
    rw [hby, hs]
    have hne := ne_nil_of_lt hlt1
    refine ⟨_, rfl, lt_take_append z a b s hlt1, fun _ => ?_, ?_, ?_⟩
    · conv_rhs => rw [← List.take_append_drop (midpointPrefixLoop z a b) b, hby]
      exact (append_lt_append_iff _ _ _).2 hlt2
    · intro x hx
      rcases List.mem_append.1 hx with h | h
      · exact htake x h
      · exact hds x h
    · rw [getLast?_append_ne_nil _ _ hne]
      exact hl

theorem any_isNone_false_iff {ks : KeySet} (hw : WF ks) (l : List Nat) :
    ¬ (l.any (fun x => (mapGet? ks.digitsIdx x).isNone) = true) ↔ ∀ x ∈ l, x ∈ ks.digits := by
  simp only [List.any_eq_true, not_exists, not_and, Bool.not_eq_true]
  constructor
  · intro h x hx
    exact (isDigit_iff hw x).1 (h x hx)
  · intro h x hx
    exact (isDigit_iff hw x).2 (h x hx)

/-- The method `validateParsed` accepts exactly configured digits and a fraction that
does not end in the smallest digit; it only fails with `InvalidValueError`. -/
theorem validateParsed_cases {ks : KeySet} (hw : WF ks) (z : Nat)
    (hz : ks.digits[0]? = some z) (p : parsedKey) :
    (validateParsed ks p = .ok () ∧ (∀ x ∈ p.integer, x ∈ ks.digits) ∧
      (∀ x ∈ p.fraction, x ∈ ks.digits) ∧ p.fraction.getLast? ≠ some z) ∨
    ((∃ msg, validateParsed ks p = .error (.invalidValue msg)) ∧
      ¬ ((∀ x ∈ p.integer, x ∈ ks.digits) ∧
        (∀ x ∈ p.fraction, x ∈ ks.digits) ∧ p.fraction.getLast? ≠ some z)) := by
  unfold validateParsed
  by_cases h1 : p.integer.any (fun x => (mapGet? ks.digitsIdx x).isNone) = true
  · right
    rw [if_pos h1]
    refine ⟨⟨_, rfl⟩, ?_⟩
    rintro ⟨h, _⟩
    exact (any_isNone_false_iff hw _).2 h h1
  · rw [if_neg h1]
    have hi := (any_isNone_false_iff hw _).1 h1
    by_cases h2 : p.fraction.any (fun x => (mapGet? ks.digitsIdx x).isNone) = true
    · right
      rw [if_pos h2]
      refine ⟨⟨_, rfl⟩, ?_⟩
      rintro ⟨_, h, _⟩
      exact (any_isNone_false_iff hw _).2 h h2
    · rw [if_neg h2]
      have hf := (any_isNone_false_iff hw _).1 h2
      by_cases h3 : p.fraction.length > 0
      · rw [if_pos h3]
        have hlt : p.fraction.length - 1 < p.fraction.length := by omega
        have hidx : index p.fraction ((p.fraction.length : Int) - 1) =
            .ok (p.fraction[p.fraction.length - 1]) :=
          index_intCast _ _ (p.fraction.length - 1) _ (by omega) (List.getElem?_eq_getElem hlt)
        have hgl : p.fraction.getLast? = some (p.fraction[p.fraction.length - 1]) := by
          rw [List.getLast?_eq_getElem?]
          exact List.getElem?_eq_getElem hlt
        rw [hidx, index_intCast _ 0 0 z rfl hz]
        simp only [bind, Except.bind]
        by_cases h4 : p.fraction[p.fraction.length - 1] = z
        · right
          rw [if_pos h4]
          refine ⟨⟨_, rfl⟩, ?_⟩
          rintro ⟨_, _, h⟩
          apply h
          rw [hgl, h4]
        · left
          rw [if_neg h4]
          refine ⟨rfl, hi, hf, ?_⟩
          rw [hgl]
          intro h
          exact h4 (Option.some.inj h)
      · left
        rw [if_neg h3]
        refine ⟨rfl, hi, hf, ?_⟩
        have : p.fraction = [] := List.eq_nil_of_length_eq_zero (by omega)
        rw [this]
        simp

theorem zero_digit {ks : KeySet} (hw : WF ks) : ∃ z, ks.digits[0]? = some z := by
  have := hw.digits_len
  exact ⟨ks.digits[0], List.getElem?_eq_getElem (by omega)⟩

theorem max_digit {ks : KeySet} (hw : WF ks) :
    ∃ mx, ks.digits[ks.digits.length - 1]? = some mx := by
  have := hw.digits_len
  exact ⟨ks.digits[ks.digits.length - 1], List.getElem?_eq_getElem (by omega)⟩

theorem valid_iff {ks : KeySet} (z : Nat) (hz : ks.digits[0]? = some z) (p : parsedKey) :
    Valid ks p ↔ (∃ i, ks.sigils[i]? = some p.sigil ∧
        p.integer.length + 1 = bandWidth (ks.sigils.length / 2) i) ∧
      (∀ x ∈ p.integer, x ∈ ks.digits) ∧ (∀ x ∈ p.fraction, x ∈ ks.digits) ∧
      p.fraction.getLast? ≠ some z := by
  constructor
  · intro h
    exact ⟨h.sigil_ok, h.integer_ok, h.fraction_ok, h.canonical z hz⟩
  · rintro ⟨h1, h2, h3, h4⟩
    refine ⟨h1, h2, h3, ?_⟩
    intro d hd
    rw [hz] at hd
    rw [← Option.some.inj hd]
    exact h4

/-- What `parse` accepts, and what it returns. -/
theorem parse_ok_iff {ks : KeySet} (hw : WF ks) (a : List Nat) (p : parsedKey) :
    parse ks a = .ok p ↔ a = p.Value ∧ Valid ks p := by
  obtain ⟨z, hz⟩ := zero_digit hw
  rw [valid_iff z hz]
  constructor
  · intro h
    cases a with
    | nil => simp [parse] at h
    | cons s rest =>
      simp only [parse] at h
      cases hn : mapGet? ks.sigilsLen s with
      | none => simp [hn] at h
      | some n =>
        simp only [hn] at h
        obtain ⟨i, hi, hni⟩ := (hw.sigilsLen_spec s n).1 hn
        have hge := bandWidth_ge (ks.sigils.length / 2) i
        split_ifs at h with h1 h2
        obtain ⟨n1, rfl⟩ : ∃ n1, n = n1 + 1 := ⟨n - 1, by omega⟩
        simp only [List.take_succ_cons, List.drop_succ_cons, List.drop_zero] at h
        rcases validateParsed_cases hw z hz ⟨s, rest.take n1, rest.drop n1⟩ with
          ⟨hv, h3, h4, h5⟩ | ⟨⟨msg, hv⟩, _⟩
        · rw [hv] at h
          simp only [Except.ok.injEq] at h
          subst h
          simp only [List.length_cons] at h1
          refine ⟨?_, ⟨i, hi, ?_⟩, h3, h4, h5⟩
          · simp [parsedKey.Value]
          · simp only [List.length_take]
            omega
        · rw [hv] at h
          simp at h
  · rintro ⟨ha, ⟨i, hi, hlen⟩, h3, h4, h5⟩
    subst ha
    simp only [parse, parsedKey.Value, mapGet_sigilsLen hw hi]
    have hge := bandWidth_ge (ks.sigils.length / 2) i
    rw [if_neg (by simp only [List.length_cons, List.length_append]; omega), if_neg (by omega)]
    obtain ⟨n1, hn1⟩ : ∃ n1, bandWidth (ks.sigils.length / 2) i = n1 + 1 :=
      ⟨bandWidth (ks.sigils.length / 2) i - 1, by omega⟩
    have hl : p.integer.length = n1 := by omega
    simp only [hn1, List.take_succ_cons, List.drop_succ_cons, List.drop_zero,
      List.take_left' hl, List.drop_left' hl]
    rcases validateParsed_cases hw z hz ⟨p.sigil, p.integer, p.fraction⟩ with
      ⟨hv, _⟩ | ⟨_, hne⟩
    · rw [hv]
    · exact absurd ⟨h3, h4, h5⟩ hne

/-- The method `parse` only fails with `InvalidValueError`. -/
theorem parse_error {ks : KeySet} (hw : WF ks) (a : List Nat) (e : Error)
    (h : parse ks a = .error e) : ∃ msg, e = .invalidValue msg := by
  obtain ⟨z, hz⟩ := zero_digit hw
  cases a with
  | nil =>
    simp only [parse, Except.error.injEq] at h
    exact ⟨_, h.symm⟩
  | cons s rest =>
    simp only [parse] at h
    cases hn : mapGet? ks.sigilsLen s with
    | none =>
      simp only [hn, Except.error.injEq] at h
      exact ⟨_, h.symm⟩
    | some n =>
      simp only [hn] at h
      obtain ⟨i, hi, hni⟩ := (hw.sigilsLen_spec s n).1 hn
      have hge := bandWidth_ge (ks.sigils.length / 2) i
      split_ifs at h with h1 h2
      · simp only [Except.error.injEq] at h
        exact ⟨_, h.symm⟩
      · omega
      · rcases validateParsed_cases hw z hz ⟨s, (List.take n (s :: rest)).drop 1,
          List.drop n (s :: rest)⟩ with ⟨hv, _⟩ | ⟨⟨msg, hv⟩, _⟩
        · rw [hv] at h
          simp at h
        · rw [hv] at h
          simp only [Except.error.injEq] at h
          exact ⟨_, h.symm⟩

theorem value_lt_of_sigil_lt (s1 s2 : Nat) (l1 l2 : List Nat) (h : s1 < s2) :
    s1 :: l1 < s2 :: l2 :=
  (cons_lt_cons_iff s1 s2 l1 l2).2 (Or.inl h)

/-- The method `incrementInteger` on a valid key: it overflows exactly at the last sigil
with all digits the largest; otherwise the result is valid, keeps the
fraction, and its sigil and integer are above those of the argument. -/
theorem incrementInteger_cases {ks : KeySet} (hw : WF ks) (mx : Nat)
    (hmx : ks.digits[ks.digits.length - 1]? = some mx) (v : parsedKey) (hv : Valid ks v) :
    (incrementInteger ks v = .error .overflow ∧
      ks.sigils[ks.sigils.length - 1]? = some v.sigil ∧ ∀ x ∈ v.integer, x = mx) ∨
    (∃ v1, incrementInteger ks v = .ok v1 ∧ Valid ks v1 ∧ v1.fraction = v.fraction ∧
      (∀ f f1, v.sigil :: (v.integer ++ f) < v1.sigil :: (v1.integer ++ f1)) ∧
      ¬ (ks.sigils[ks.sigils.length - 1]? = some v.sigil ∧ ∀ x ∈ v.integer, x = mx)) := by
  obtain ⟨z, hz⟩ := zero_digit hw
  obtain ⟨i, hi, hlen⟩ := hv.sigil_ok
  have hilt : i < ks.sigils.length := (List.getElem?_eq_some.1 hi).1
  rcases incrementInteger_spec hw z mx hz hmx v i hi hlen hv.integer_ok with
    ⟨⟨x, hx, hne⟩, int1, hres, hl1, hlt, hd1⟩ | ⟨hall, hov, hres⟩ | ⟨hall, s1, hs1, hres⟩
  · right
    refine ⟨_, hres, ⟨⟨i, hi, by simp only; omega⟩, hd1, hv.fraction_ok, hv.canonical⟩, rfl, ?_, ?_⟩
    · intro f f1
      rw [cons_lt_cons_iff]
      refine Or.inr ⟨rfl, ?_⟩
      rw [append_lt_append_of_length _ _ _ _ hl1.symm]
      exact Or.inl hlt
    · rintro ⟨_, hall⟩
      exact hne (hall x hx)
  · left
    refine ⟨hres, ?_, hall⟩
    rw [← hov]
    exact hi
  · right
    have hzm : z ∈ ks.digits := List.getElem?_mem hz
    have hge := bandWidth_ge (ks.sigils.length / 2) (i + 1)
    have hi1 : i + 1 < ks.sigils.length := (List.getElem?_eq_some.1 hs1).1
    refine ⟨_, hres, ⟨⟨i + 1, hs1, ?_⟩, ?_, hv.fraction_ok, hv.canonical⟩, rfl, ?_, ?_⟩
    · simp only [List.length_replicate]
      omega
    · intro x hx
      rw [(List.mem_replicate.1 hx).2]
      exact hzm
    · intro f f1
      exact value_lt_of_sigil_lt _ _ _ _ ((sigil_lt_iff hw hi hs1).2 (by omega))
    · rintro ⟨hlast, _⟩
      have := (sigil_eq_iff hw hi hlast).1 rfl
      omega

/-- The method `decrementInteger` on a valid key: it underflows exactly at the first
sigil with all digits the smallest; otherwise the result is valid, keeps the
fraction, and its sigil and integer are below those of the argument. -/
theorem decrementInteger_cases {ks : KeySet} (hw : WF ks) (z : Nat)
    (hz : ks.digits[0]? = some z) (v : parsedKey) (hv : Valid ks v) :
    (decrementInteger ks v = .error .underflow ∧
      ks.sigils[0]? = some v.sigil ∧ ∀ x ∈ v.integer, x = z) ∨
    (∃ v1, decrementInteger ks v = .ok v1 ∧ Valid ks v1 ∧ v1.fraction = v.fraction ∧
      (∀ f f1, v1.sigil :: (v1.integer ++ f1) < v.sigil :: (v.integer ++ f)) ∧
      ¬ (ks.sigils[0]? = some v.sigil ∧ ∀ x ∈ v.integer, x = z)) := by
  obtain ⟨mx, hmx⟩ := max_digit hw
  obtain ⟨i, hi, hlen⟩ := hv.sigil_ok
  have hilt : i < ks.sigils.length := (List.getElem?_eq_some.1 hi).1
  rcases decrementInteger_spec hw z mx hz hmx v i hi hlen hv.integer_ok with
    ⟨⟨x, hx, hne⟩, int1, hres, hl1, hlt, hd1⟩ | ⟨hall, hov, hres⟩ | ⟨hall, j, s1, hj, hs1, hres⟩
  · right
    refine ⟨_, hres, ⟨⟨i, hi, by simp only; omega⟩, hd1, hv.fraction_ok, hv.canonical⟩, rfl, ?_, ?_⟩
    · intro f f1
      rw [cons_lt_cons_iff]
      refine Or.inr ⟨rfl, ?_⟩
      rw [append_lt_append_of_length _ _ _ _ hl1]
      exact Or.inl hlt
    · rintro ⟨_, hall⟩
      exact hne (hall x hx)
  · left
    refine ⟨hres, ?_, hall⟩
    rw [← hov]
    exact hi
  · right
    have hmm : mx ∈ ks.digits := List.getElem?_mem hmx
    have hge := bandWidth_ge (ks.sigils.length / 2) j
    refine ⟨_, hres, ⟨⟨j, hs1, ?_⟩, ?_, hv.fraction_ok, hv.canonical⟩, rfl, ?_, ?_⟩
    · simp only [List.length_replicate]
      omega
    · intro x hx
      rw [(List.mem_replicate.1 hx).2]
      exact hmm
    · intro f f1
      exact value_lt_of_sigil_lt _ _ _ _ ((sigil_lt_iff hw hs1 hi).2 (by omega))
    · rintro ⟨hfirst, _⟩
      have := (sigil_eq_iff hw hi hfirst).1 rfl
      omega

theorem valid_integerOnly {ks : KeySet} {v : parsedKey} (hv : Valid ks v) :
    Valid ks v.integerOnly :=
  ⟨hv.sigil_ok, hv.integer_ok, by simp [parsedKey.integerOnly],
    by simp [parsedKey.integerOnly]⟩

theorem valid_with_fraction {ks : KeySet} {v : parsedKey} (hv : Valid ks v) (z : Nat)
    (hz : ks.digits[0]? = some z) (m : List Nat)
    (hm : ∀ x ∈ m, x ∈ ks.digits) (hl : m.getLast? ≠ some z) :
    Valid ks { v with fraction := m } :=
  (valid_iff z hz _).2 ⟨hv.sigil_ok, hv.integer_ok, hm, hl⟩

/-- The method `midpoint` below no upper bound always succeeds on configured digits. -/
theorem midpoint_open {ks : KeySet} (hw : WF ks) (z : Nat) (hz : ks.digits[0]? = some z)
    (a : List Nat) (ha : ∀ x ∈ a, x ∈ ks.digits) :
    ∃ m, midpoint ks a [] = .ok m ∧ a < m ∧ (∀ x ∈ m, x ∈ ks.digits) ∧
      m.getLast? ≠ some z := by
  obtain ⟨m, h1, h2, _, h3, h4⟩ := midpoint_spec hw z hz a [] ha (by simp) (by simp) (Or.inl rfl)
  exact ⟨m, h1, h2, h3, h4⟩

/-- Every way `Between` can return: an error with the empty key (never a
panic or a loop that does not end), the value of a valid parsed key, or, with
no sigils configured, the zero key. -/
theorem Between_cases {ks : KeySet} (hw : WF ks) (a b : List Nat) :
    (∃ e, Between ks a b = ([], some e) ∧ e ≠ .panic ∧ e ≠ .fuel) ∨
    (∃ p, Valid ks p ∧ Between ks a b = (p.Value, none)) ∨
    (ks.sigils = [] ∧ ks.zero ≠ [] ∧ Between ks a b = (ks.zero, none)) := by
  obtain ⟨z, hz⟩ := zero_digit hw
  obtain ⟨mx, hmx⟩ := max_digit hw
  have hperr : ∀ k e, parse ks k = .error e → e ≠ .panic ∧ e ≠ .fuel := by
    intro k e he
    obtain ⟨msg, rfl⟩ := parse_error hw k e he
    exact ⟨by simp, by simp⟩
  unfold Between
  by_cases ha : a = []
  · rw [if_pos ha]
    by_cases hb : b = []
    · rw [if_pos hb]
      obtain ⟨d, hd, hzero⟩ := hw.zero_spec
      rcases hzero with ⟨hs, hzk⟩ | ⟨s, hs, hzk⟩
      · right; right
        exact ⟨hs, by simp [hzk], rfl⟩
      · right; left
        refine ⟨⟨s, [d], []⟩, (valid_iff z hz _).2 ⟨⟨_, hs, ?_⟩, ?_, by simp, by simp⟩, ?_⟩
        · simp [bandWidth]
        · intro x hx
          rw [List.mem_singleton.1 hx]
          exact List.getElem?_mem hd
        · rw [hzk]
          rfl
    · rw [if_neg hb]
      cases hpb : parse ks b with
      | error e =>
        left
        exact ⟨e, rfl, hperr b e hpb⟩
      | ok pb =>
        have hvb := ((parse_ok_iff hw b pb).1 hpb).2
        simp only
        by_cases hsm : pb.integer = ks.smallest
        · rw [if_pos hsm]
          have hfb : pb.fraction = [] ∨ [] < pb.fraction := by
            by_cases h : pb.fraction = []
            · exact Or.inl h
            · exact Or.inr ((nil_lt_iff _).2 h)
          obtain ⟨m, hm, _, _, hdm, hlm⟩ := midpoint_spec hw z hz [] pb.fraction (by simp)
            hvb.fraction_ok (hvb.canonical z hz) hfb
          rw [hm]
          right; left
          exact ⟨_, valid_with_fraction hvb z hz m hdm hlm, rfl⟩
        · rw [if_neg hsm]
          by_cases hfr : pb.fraction.length > 0
          · rw [if_pos hfr]
            right; left
            exact ⟨_, valid_with_fraction hvb z hz [] (by simp) (by simp), rfl⟩
          · rw [if_neg hfr]
            rcases decrementInteger_cases hw z hz pb hvb with ⟨hres, _⟩ | ⟨v1, hres, hv1, _⟩
            · rw [hres]
              left
              exact ⟨_, rfl, by simp, by simp⟩
            · rw [hres]
              right; left
              exact ⟨v1, hv1, rfl⟩
  · rw [if_neg ha]
    by_cases hb : b = []
    · rw [if_pos hb]
      cases hpa : parse ks a with
      | error e =>
        left
        exact ⟨e, rfl, hperr a e hpa⟩
      | ok pa =>
        have hva := ((parse_ok_iff hw a pa).1 hpa).2
        simp only
        rcases incrementInteger_cases hw mx hmx pa hva with ⟨hres, _⟩ | ⟨v1, hres, hv1, _⟩
        · rw [hres]
          left
          exact ⟨_, rfl, by simp, by simp⟩
        · rw [hres]
          right; left
          exact ⟨v1, hv1, rfl⟩
    · rw [if_neg hb]
      cases hpa : parse ks a with
      | error e =>
        left
        exact ⟨e, rfl, hperr a e hpa⟩
      | ok pa =>
        have hva := ((parse_ok_iff hw a pa).1 hpa).2
        simp only
        cases hpb : parse ks b with
        | error e =>
          left
          exact ⟨e, rfl, hperr b e hpb⟩
        | ok pb =>
          have hvb := ((parse_ok_iff hw b pb).1 hpb).2
          simp only
          by_cases hsame : pa.sigil = pb.sigil ∧ pa.integer = pb.integer
          · rw [if_pos hsame]
            by_cases hord : pb.fraction = [] ∨ pa.fraction < pb.fraction
            · obtain ⟨m, hm, _, _, hdm, hlm⟩ := midpoint_spec hw z hz pa.fraction pb.fraction
                hva.fraction_ok hvb.fraction_ok (hvb.canonical z hz) hord
              rw [hm]
              right; left
              exact ⟨_, valid_with_fraction hva z hz m hdm hlm, rfl⟩
            · rw [not_or] at hord
              rw [midpoint_misordered ks _ _ hord.1 hord.2]
              left
              exact ⟨_, rfl, by simp, by simp⟩
          · rw [if_neg hsame]
            rcases incrementInteger_cases hw mx hmx pa.integerOnly (valid_integerOnly hva) with
              ⟨hres, _⟩ | ⟨v1, hres, hv1, _⟩
            · rw [hres]
              left
              exact ⟨_, rfl, by simp, by simp⟩
            · rw [hres]
              simp only
              by_cases hcmp : v1.Compare pb < 0
              · rw [if_pos hcmp]
                right; left
                exact ⟨v1, hv1, rfl⟩
              · rw [if_neg hcmp]
                obtain ⟨m, hm, _, hdm, hlm⟩ := midpoint_open hw z hz pa.fraction hva.fraction_ok
                rw [hm]
                right; left
                exact ⟨_, valid_with_fraction hva z hz m hdm hlm, rfl⟩

theorem NewKeySet_wf {sigils digits : String} {ks : KeySet}
    (h : NewKeySet sigils digits = .ok ks) :
    WF ks ∧ ks.sigils = goBytes sigils ∧ ks.digits = goBytes digits ∧
      validateSigils sigils = .ok () ∧ validateDigits digits = .ok () := by
  rcases validateSigils_cases sigils with hs | ⟨msg, hs⟩
  · rcases validateDigits_cases digits with hd | ⟨msg, hd⟩
    · obtain ⟨ks1, h1, hw, h2, h3⟩ := NewKeySet_ok sigils digits hs hd
      rw [h] at h1
      have := Except.ok.inj h1
      subst this
      have hsa := ((validateSigils_ok_iff sigils).1 hs).1
      have hda := ((validateDigits_ok_iff digits).1 hd).1
      exact ⟨hw, by rw [h2, goBytes_ascii _ hsa], by rw [h3, goBytes_ascii _ hda], hs, hd⟩
    · simp [NewKeySet, hs, hd, bind, Except.bind] at h
  · simp [NewKeySet, hs, bind, Except.bind] at h

theorem digit_le_max {ks : KeySet} (hw : WF ks) {mx x : Nat}
    (hmx : ks.digits[ks.digits.length - 1]? = some mx) (hx : x ∈ ks.digits) : x ≤ mx := by
  obtain ⟨i, hi, hilt⟩ := digit_index hx
  have := (digit_lt_iff hw hmx hi).not.2 (by omega)
  omega

theorem not_lt_of_all_max {ks : KeySet} (hw : WF ks) {mx : Nat}
    (hmx : ks.digits[ks.digits.length - 1]? = some mx) (x y : List Nat)
    (hl : x.length = y.length)
    (hx : ∀ e ∈ x, e = mx) (hy : ∀ e ∈ y, e ∈ ks.digits) : ¬ x < y := by
  induction x generalizing y with
  | nil =>
    cases y with
    | nil => exact not_lt_nil _
    | cons b y => simp at hl
  | cons a x ih =>
    cases y with
    | nil => exact not_lt_nil _
    | cons b y =>
      intro h
      have ha : a = mx := hx a (List.mem_cons_self _ _)
      have hb : b ≤ mx := digit_le_max hw hmx (hy b (List.mem_cons_self _ _))
      rcases (cons_lt_cons_iff a b x y).1 h with h1 | ⟨_, h2⟩
      · omega
      · exact ih y (by simpa using hl) (fun e he => hx e (List.mem_cons_of_mem _ he))
          (fun e he => hy e (List.mem_cons_of_mem _ he)) h2

/-- Two valid keys in byte order that differ in sigil or integer are ordered
by sigil and integer alone. -/
theorem key_lt_split {ks : KeySet} (hw : WF ks) {pa pb : parsedKey}
    (hva : Valid ks pa) (hvb : Valid ks pb) (hab : pa.Value < pb.Value)
    (hne : ¬ (pa.sigil = pb.sigil ∧ pa.integer = pb.integer)) :
    pa.sigil < pb.sigil ∨ (pa.sigil = pb.sigil ∧ pa.integer.length = pb.integer.length ∧
      pa.integer < pb.integer) := by
  rcases (cons_lt_cons_iff _ _ _ _).1 hab with h | ⟨h1, h2⟩
  · exact Or.inl h
  · right
    obtain ⟨i, hi, hli⟩ := hva.sigil_ok
    obtain ⟨j, hj, hlj⟩ := hvb.sigil_ok
    have hij : i = j := (sigil_eq_iff hw hi hj).1 h1
    subst hij
    have hl : pa.integer.length = pb.integer.length := by omega
    rcases (append_lt_append_of_length _ _ _ _ hl).1 h2 with h3 | ⟨h3, _⟩
    · exact ⟨h1, hl, h3⟩
    · exact absurd ⟨h1, h3⟩ hne

/-- A negative `Compare` of a key without fraction means a smaller value. -/
theorem compare_neg_value_lt (v x : parsedKey) (hf : v.fraction = [])
    (h : v.Compare x < 0) : v.Value < x.Value := by
  unfold parsedKey.Compare at h
  unfold parsedKey.Value
  rw [hf, List.append_nil]
  split_ifs at h with h1 h2 h3
  · exact value_lt_of_sigil_lt _ _ _ _ h1
  · omega
  · have hs : v.sigil = x.sigil := by omega
    rw [hs, cons_lt_cons_iff]
    exact Or.inr ⟨rfl, lt_append_of_lt _ _ _ ((bytesCompare_neg_iff _ _).1 h)⟩
  · have hs : v.sigil = x.sigil := by omega
    have hi : v.integer = x.integer := (bytesCompare_eq_zero_iff _ _).1 (by simpa using h3)
    rw [hs, hi, cons_lt_cons_iff]
    refine Or.inr ⟨rfl, ?_⟩
    rw [hf] at h
    have := (append_lt_append_iff x.integer [] x.fraction).2 ((bytesCompare_neg_iff _ _).1 h)
    simpa using this

/-- The two-sided case on a well-formed `KeySet`. -/
theorem ordered_insert_wf {ks : KeySet} (hw : WF ks) (a b : List Nat) (pa pb : parsedKey)
    (ha : parse ks a = .ok pa) (hb : parse ks b = .ok pb) (hab : a < b) :
    ∃ r, Between ks a b = (r, none) ∧ a < r ∧ r < b := by
  obtain ⟨z, hz⟩ := zero_digit hw
  obtain ⟨mx, hmx⟩ := max_digit hw
  obtain ⟨hae, hva⟩ := (parse_ok_iff hw a pa).1 ha
  obtain ⟨hbe, hvb⟩ := (parse_ok_iff hw b pb).1 hb
  have ha0 : a ≠ [] := by rw [hae]; simp [parsedKey.Value]
  have hb0 : b ≠ [] := by rw [hbe]; simp [parsedKey.Value]
  unfold Between
  rw [if_neg ha0, if_neg hb0, ha, hb]
  simp only
  rw [hae, hbe] at hab ⊢
  by_cases hsame : pa.sigil = pb.sigil ∧ pa.integer = pb.integer
  · rw [if_pos hsame]
    have hfr : pa.fraction < pb.fraction := by
      unfold parsedKey.Value at hab
      rw [hsame.1, hsame.2, cons_lt_cons_iff] at hab
      rcases hab with h | ⟨_, h⟩
      · omega
      · exact (append_lt_append_iff _ _ _).1 h
    obtain ⟨m, hm, h1, h2, _, _⟩ := midpoint_spec hw z hz pa.fraction pb.fraction
      hva.fraction_ok hvb.fraction_ok (hvb.canonical z hz) (Or.inr hfr)
    rw [hm]
    refine ⟨_, rfl, ?_, ?_⟩
    · unfold parsedKey.Value
      rw [cons_lt_cons_iff]
      exact Or.inr ⟨rfl, (append_lt_append_iff _ _ _).2 h1⟩
    · unfold parsedKey.Value
      simp only
      rw [hsame.1, hsame.2, cons_lt_cons_iff]
      exact Or.inr ⟨rfl, (append_lt_append_iff _ _ _).2 (h2 (ne_nil_of_lt hfr))⟩
  · rw [if_neg hsame]
    have hsplit := key_lt_split hw hva hvb hab hsame
    have hbelow : ∀ m, pa.sigil :: (pa.integer ++ m) < pb.Value := by
      intro m
      unfold parsedKey.Value
      rcases hsplit with h | ⟨h1, hl, h2⟩
      · exact value_lt_of_sigil_lt _ _ _ _ h
      · rw [h1, cons_lt_cons_iff]
        refine Or.inr ⟨rfl, ?_⟩
        rw [append_lt_append_of_length _ _ _ _ hl]
        exact Or.inl h2
    rcases incrementInteger_cases hw mx hmx pa.integerOnly (valid_integerOnly hva) with
      ⟨_, hlast, hall⟩ | ⟨v1, hres, hv1, hf1, hlt, _⟩
    · exfalso
      simp only [parsedKey.integerOnly] at hlast hall
      obtain ⟨j, hj, _⟩ := hvb.sigil_ok
      have hjlt : j < ks.sigils.length := (List.getElem?_eq_some.1 hj).1
      rcases hsplit with h | ⟨_, hl, h2⟩
      · have := (sigil_lt_iff hw hlast hj).1 h
        omega
      · exact not_lt_of_all_max hw hmx _ _ hl hall hvb.integer_ok h2
    · rw [hres]
      simp only
      simp only [parsedKey.integerOnly] at hlt hf1
      by_cases hcmp : v1.Compare pb < 0
      · rw [if_pos hcmp]
        refine ⟨_, rfl, ?_, compare_neg_value_lt v1 pb hf1 hcmp⟩
        exact hlt _ _
      · rw [if_neg hcmp]
        obtain ⟨m, hm, h1, _, _⟩ := midpoint_open hw z hz pa.fraction hva.fraction_ok
        rw [hm]
        refine ⟨_, rfl, ?_, hbelow m⟩
        unfold parsedKey.Value
        rw [cons_lt_cons_iff]
        exact Or.inr ⟨rfl, (append_lt_append_iff _ _ _).2 h1⟩

/-- C1: for every KeySet built by NewKeySet and all keys a < b (byte order)
that both parse under it, Between(a, b) returns no error and a key r with
a < r < b in byte order. -/
theorem Between_ordered (sigils digits : String) (ks : KeySet)
    (hks : NewKeySet sigils digits = .ok ks) (a b : List Nat)
    (ha : ∃ pa, parse ks a = .ok pa) (hb : ∃ pb, parse ks b = .ok pb) (hab : a < b) :
    ∃ r, Between ks a b = (r, none) ∧ a < r ∧ r < b := by
  obtain ⟨pa, ha⟩ := ha
  obtain ⟨pb, hb⟩ := hb
  exact ordered_insert_wf (NewKeySet_wf hks).1 a b pa pb ha hb hab

/-- C1 at sigils `!#$%`, digits `abcdef`, between `$a` and `$ac`. -/
theorem Between_ordered_witness :
    NewKeySet "!#$%" "abcdef" = .ok ksSix ∧
    (∃ pa, parse ksSix (key "$a") = .ok pa) ∧ (∃ pb, parse ksSix (key "$ac") = .ok pb) ∧
    key "$a" < key "$ac" ∧
    ∃ r, Between ksSix (key "$a") (key "$ac") = (r, none) ∧ key "$a" < r ∧ r < key "$ac" :=
  ⟨rfl, ⟨_, rfl⟩, ⟨_, rfl⟩, by decide,
    Between_ordered "!#$%" "abcdef" ksSix rfl (key "$a") (key "$ac") ⟨_, rfl⟩ ⟨_, rfl⟩
      (by decide)⟩

theorem getLast?_eq_index (l : List Nat) (x : Nat) :
    l.getLast? = some x ↔ l[l.length - 1]? = some x := by
  rw [List.getLast?_eq_getElem?]

theorem head?_eq_index (l : List Nat) : l.head? = l[0]? := by
  cases l <;> simp

/-- The open-above case on a well-formed `KeySet`. -/
theorem open_above_wf {ks : KeySet} (hw : WF ks) (a : List Nat) (pa : parsedKey)
    (ha : parse ks a = .ok pa) :
    ((∃ r, Between ks a [] = (r, none) ∧ a < r) ∨
        Between ks a [] = ([], some .overflow)) ∧
      (Between ks a [] = ([], some .overflow) ↔
        (ks.sigils.getLast? = some pa.sigil ∧
          ∀ x ∈ pa.integer, ks.digits.getLast? = some x)) := by
  obtain ⟨mx, hmx⟩ := max_digit hw
  obtain ⟨hae, hva⟩ := (parse_ok_iff hw a pa).1 ha
  have ha0 : a ≠ [] := by rw [hae]; simp [parsedKey.Value]
  have hcond : (ks.sigils.getLast? = some pa.sigil ∧
      ∀ x ∈ pa.integer, ks.digits.getLast? = some x) ↔
      (ks.sigils[ks.sigils.length - 1]? = some pa.sigil ∧ ∀ x ∈ pa.integer, x = mx) := by
    rw [getLast?_eq_index]
    constructor
    · rintro ⟨h1, h2⟩
      refine ⟨h1, fun x hx => ?_⟩
      have := (getLast?_eq_index _ _).1 (h2 x hx)
      rw [hmx] at this
      exact (Option.some.inj this).symm
    · rintro ⟨h1, h2⟩
      refine ⟨h1, fun x hx => ?_⟩
      rw [getLast?_eq_index, h2 x hx]
      exact hmx
  rw [hcond]
  unfold Between
  rw [if_neg ha0, if_pos rfl, ha]
  simp only
  rcases incrementInteger_cases hw mx hmx pa hva with
    ⟨hres, hlast, hall⟩ | ⟨v1, hres, hv1, hf1, hlt, hnot⟩
  · rw [hres]
    exact ⟨Or.inr rfl, fun _ => ⟨hlast, hall⟩, fun _ => rfl⟩
  · rw [hres]
    simp only
    refine ⟨Or.inl ⟨_, rfl, ?_⟩, fun h => ?_, fun h => absurd h hnot⟩
    · rw [hae]
      exact hlt _ _
    · simp [parsedKey.Value] at h

/-- C2: for every KeySet and every key a that parses under it, Between(a, "")
either returns a key r > a (byte order) or fails with ErrOverflow, and it
fails exactly when a's sigil is the last configured sigil and every integer
digit of a is the largest digit. -/
theorem Between_open_above (sigils digits : String) (ks : KeySet)
    (hks : NewKeySet sigils digits = .ok ks) (a : List Nat) (pa : parsedKey)
    (ha : parse ks a = .ok pa) :
    ((∃ r, Between ks a [] = (r, none) ∧ a < r) ∨
        Between ks a [] = ([], some .overflow)) ∧
      (Between ks a [] = ([], some .overflow) ↔
        (ks.sigils.getLast? = some pa.sigil ∧
          ∀ x ∈ pa.integer, ks.digits.getLast? = some x)) :=
  open_above_wf (NewKeySet_wf hks).1 a pa ha

/-- C2 at sigils `!#$%`, digits `abcdef` and the key `%ff`, the largest
integer of the last band. -/
theorem Between_open_above_witness :
    NewKeySet "!#$%" "abcdef" = .ok ksSix ∧
    parse ksSix (key "%ff") = .ok ⟨37, [102, 102], []⟩ ∧
    (((∃ r, Between ksSix (key "%ff") [] = (r, none) ∧ key "%ff" < r) ∨
        Between ksSix (key "%ff") [] = ([], some .overflow)) ∧
      (Between ksSix (key "%ff") [] = ([], some .overflow) ↔
        (ksSix.sigils.getLast? = some 37 ∧
          ∀ x ∈ [102, 102], ksSix.digits.getLast? = some x))) :=
  ⟨rfl, rfl, Between_open_above "!#$%" "abcdef" ksSix rfl (key "%ff") ⟨37, [102, 102], []⟩ rfl⟩

/-- C3, the code at the failing input: with sigils `abc` and digits `ab` the
key `caa` parses, and Between("", "caa") returns `caab`, which is above it. -/
theorem Between_open_below_overlap :
    NewKeySet "abc" "ab" = .ok ksOverlap ∧
    parse ksOverlap (key "caa") = .ok ⟨99, [97, 97], []⟩ ∧
    Between ksOverlap [] (key "caa") = (key "caab", none) ∧
    key "caa" < key "caab" :=
  ⟨rfl, rfl, rfl, by decide⟩

/-- Away from the guard `pb.integer = ks.smallest`, the open-below case does
what C3 says: it fails with ErrUnderflow or returns a key below `b`. -/
theorem Between_open_below_of_guard {ks : KeySet} (hw : WF ks) (b : List Nat)
    (pb : parsedKey) (hb : parse ks b = .ok pb) (hg : pb.integer ≠ ks.smallest) :
    Between ks [] b = ([], some .underflow) ∨ ∃ r, Between ks [] b = (r, none) ∧ r < b := by
  obtain ⟨z, hz⟩ := zero_digit hw
  obtain ⟨hbe, hvb⟩ := (parse_ok_iff hw b pb).1 hb
  have hb0 : b ≠ [] := by rw [hbe]; simp [parsedKey.Value]
  unfold Between
  rw [if_pos rfl, if_neg hb0, hb]
  simp only
  rw [if_neg hg]
  by_cases hfr : pb.fraction.length > 0
  · rw [if_pos hfr]
    right
    refine ⟨_, rfl, ?_⟩
    rw [hbe]
    unfold parsedKey.Value
    rw [cons_lt_cons_iff]
    refine Or.inr ⟨rfl, ?_⟩
    simp only [List.append_nil]
    exact lt_append_of_ne_nil _ _ (List.length_pos.1 hfr)
  · rw [if_neg hfr]
    rcases decrementInteger_cases hw z hz pb hvb with ⟨hres, _⟩ | ⟨v1, hres, _, _, hlt, _⟩
    · rw [hres]
      exact Or.inl rfl
    · rw [hres]
      right
      refine ⟨_, rfl, ?_⟩
      rw [hbe]
      exact hlt _ _

/-- C4: for every KeySet with at least one sigil and all keys a, b (ordered
or not), a key r that Between(a, b) returns without error parses: it is a
sigil, the integer digits its band asks for, and a fraction that is empty or
does not end in the smallest digit. -/
theorem Between_result_parses (sigils digits : String) (ks : KeySet)
    (hks : NewKeySet sigils digits = .ok ks) (hne : ks.sigils ≠ []) (a b r : List Nat)
    (h : Between ks a b = (r, none)) :
    ∃ p, parse ks r = .ok p ∧ r = p.sigil :: (p.integer ++ p.fraction) ∧
      p.integer.length + 1 = mapGet ks.sigilsLen p.sigil ∧
      (p.fraction = [] ∨ p.fraction.getLast? ≠ ks.digits.head?) := by
  have hw := (NewKeySet_wf hks).1
  obtain ⟨z, hz⟩ := zero_digit hw
  rcases Between_cases hw a b with ⟨e, he, _⟩ | ⟨p, hv, hp⟩ | ⟨hs, _⟩
  · rw [he] at h
    simp at h
  · rw [hp] at h
    have hr : r = p.Value := (Prod.mk.inj h).1.symm
    obtain ⟨i, hi, hlen⟩ := hv.sigil_ok
    refine ⟨p, (parse_ok_iff hw r p).2 ⟨hr, hv⟩, hr, ?_, Or.inr ?_⟩
    · rw [mapGet_sigilsLen_eq hw hi]
      exact hlen
    · have hh : ks.digits.head? = some z := by
        rw [← hz]
        exact head?_eq_index _
      rw [hh]
      exact hv.canonical z hz
  · exact absurd hs hne

/-- C4 at sigils `!#$%`, digits `abcdef`, between `$a` and `$ac`. -/
theorem Between_result_parses_witness :
    NewKeySet "!#$%" "abcdef" = .ok ksSix ∧ ksSix.sigils ≠ [] ∧
    Between ksSix (key "$a") (key "$ac") = (key "$ab", none) ∧
    ∃ p, parse ksSix (key "$ab") = .ok p ∧ key "$ab" = p.sigil :: (p.integer ++ p.fraction) ∧
      p.integer.length + 1 = mapGet ksSix.sigilsLen p.sigil ∧
      (p.fraction = [] ∨ p.fraction.getLast? ≠ ksSix.digits.head?) :=
  ⟨rfl, by decide, rfl,
    Between_result_parses "!#$%" "abcdef" ksSix rfl (by decide) (key "$a") (key "$ac")
      (key "$ab") rfl⟩

/-- C5: for every sigil string and digit string accepted by NewKeySet,
Between("", "") returns no error and the key sigils[len(sigils)/2] followed
by digits[0], or digits[0] alone when there are no sigils. -/
theorem Between_zero_key (sigils digits : String) (ks : KeySet)
    (hks : NewKeySet sigils digits = .ok ks) :
    ∃ d, (goBytes digits)[0]? = some d ∧
      ((goBytes sigils = [] ∧ Between ks [] [] = ([d], none)) ∨
        (goBytes sigils ≠ [] ∧ ∃ s, (goBytes sigils)[(goBytes sigils).length / 2]? = some s ∧
          Between ks [] [] = ([s, d], none))) := by
  obtain ⟨hw, hs, hd, _, _⟩ := NewKeySet_wf hks
  obtain ⟨d, hd0, hzero⟩ := hw.zero_spec
  rw [← hs, ← hd]
  have hB : Between ks [] [] = (ks.zero, none) := by
    unfold Between
    rw [if_pos rfl, if_pos rfl]
  rw [hB]
  refine ⟨d, hd0, ?_⟩
  rcases hzero with ⟨h1, h2⟩ | ⟨s, h1, h2⟩
  · left
    exact ⟨h1, by rw [h2]⟩
  · right
    refine ⟨?_, s, h1, by rw [h2]⟩
    intro h0
    rw [h0] at h1
    simp at h1

/-- C5 at sigils `ABab`, digits `0123456789`: the zero key is `a0`. -/
theorem Between_zero_key_witness :
    NewKeySet "ABab" "0123456789" = .ok ksAlnum ∧
    ∃ d, (goBytes "0123456789")[0]? = some d ∧
      ((goBytes "ABab" = [] ∧ Between ksAlnum [] [] = ([d], none)) ∨
        (goBytes "ABab" ≠ [] ∧ ∃ s, (goBytes "ABab")[(goBytes "ABab").length / 2]? = some s ∧
          Between ksAlnum [] [] = ([s, d], none))) :=
  ⟨rfl, Between_zero_key "ABab" "0123456789" ksAlnum rfl⟩

/-- The constructor `NewKeySet` returns a `KeySet` when both validations pass and the
`ConfigError` of the first failing validation otherwise. -/
theorem NewKeySet_result (sigils digits : String) :
    ((∃ ks, NewKeySet sigils digits = .ok ks) ∧
      validateSigils sigils = .ok () ∧ validateDigits digits = .ok ()) ∨
    ((∃ msg, NewKeySet sigils digits = .error (.config msg)) ∧
      ¬ (validateSigils sigils = .ok () ∧ validateDigits digits = .ok ())) := by
  rcases validateSigils_cases sigils with hs | ⟨msg, hs⟩
  · rcases validateDigits_cases digits with hd | ⟨msg, hd⟩
    · left
      obtain ⟨ks, h, _⟩ := NewKeySet_ok sigils digits hs hd
      exact ⟨⟨ks, h⟩, hs, hd⟩
    · right
      refine ⟨⟨msg, ?_⟩, ?_⟩
      · simp [NewKeySet, hs, hd, bind, Except.bind]
      · rw [hd]
        simp
  · right
    refine ⟨⟨msg, ?_⟩, ?_⟩
    · simp [NewKeySet, hs, bind, Except.bind]
    · rw [hs]
      simp

/-- Both validations pass exactly on ASCII, strictly increasing alphabets
with at least two digits. -/
theorem validate_ok_iff (sigils digits : String) :
    (validateSigils sigils = .ok () ∧ validateDigits digits = .ok ()) ↔
      ¬ (digits.length < 2 ∨ (∃ c ∈ digits.data ++ sigils.data, 128 ≤ c.toNat) ∨
        ¬ (goBytes digits).Chain' (· < ·) ∨ ¬ (goBytes sigils).Chain' (· < ·)) := by
  rw [validateSigils_ok_iff, validateDigits_ok_iff]
  have hlen : digits.length = digits.data.length := rfl
  constructor
  · rintro ⟨⟨hsa, hsc⟩, hda, hdc, hdl⟩
    rw [goBytes_ascii _ hsa, goBytes_ascii _ hda]
    rintro (h | ⟨c, hc, h⟩ | h | h)
    · omega
    · rcases List.mem_append.1 hc with h1 | h1
      · have := hda c h1
        omega
      · have := hsa c h1
        omega
    · exact h hdc
    · exact h hsc
  · intro h
    simp only [not_or, not_exists, not_and, not_not, List.mem_append] at h
    obtain ⟨h1, h2, h3, h4⟩ := h
    have hsa : ∀ c ∈ sigils.data, c.toNat < 128 := fun c hc => by
      have := h2 c (Or.inr hc)
      omega
    have hda : ∀ c ∈ digits.data, c.toNat < 128 := fun c hc => by
      have := h2 c (Or.inl hc)
      omega
    rw [goBytes_ascii _ hsa] at h4
    rw [goBytes_ascii _ hda] at h3
    exact ⟨⟨hsa, h4⟩, hda, h3, by omega⟩

/-- C6: NewKeySet(sigils, digits) fails with a ConfigError if and only if
digits has fewer than 2 symbols, or some character of digits or sigils has
code point >= 128, or digits is not strictly increasing by byte value, or
sigils is not strictly increasing by byte value; in every other case (the
empty sigil string included) it succeeds. -/
theorem NewKeySet_fails_iff (sigils digits : String) :
    ((∃ msg, NewKeySet sigils digits = .error (.config msg)) ↔
      (digits.length < 2 ∨ (∃ c ∈ digits.data ++ sigils.data, 128 ≤ c.toNat) ∨
        ¬ (goBytes digits).Chain' (· < ·) ∨ ¬ (goBytes sigils).Chain' (· < ·))) ∧
    ((∃ ks, NewKeySet sigils digits = .ok ks) ↔
      ¬ (digits.length < 2 ∨ (∃ c ∈ digits.data ++ sigils.data, 128 ≤ c.toNat) ∨
        ¬ (goBytes digits).Chain' (· < ·) ∨ ¬ (goBytes sigils).Chain' (· < ·))) := by
  have hiff := validate_ok_iff sigils digits
  have hc : (digits.length < 2 ∨ (∃ c ∈ digits.data ++ sigils.data, 128 ≤ c.toNat) ∨
      ¬ (goBytes digits).Chain' (· < ·) ∨ ¬ (goBytes sigils).Chain' (· < ·)) ↔
      ¬ (validateSigils sigils = .ok () ∧ validateDigits digits = .ok ()) := by
    rw [hiff, not_not]
  rw [← hiff, hc]
  rcases NewKeySet_result sigils digits with ⟨⟨ks, h⟩, hv⟩ | ⟨⟨msg, h⟩, hv⟩
  · refine ⟨⟨?_, fun hn => absurd hv hn⟩, ⟨fun _ => hv, fun _ => ⟨ks, h⟩⟩⟩
    rintro ⟨msg, hm⟩
    rw [h] at hm
    simp at hm
  · refine ⟨⟨fun _ => hv, fun _ => ⟨msg, h⟩⟩, ⟨?_, fun hn => absurd hn hv⟩⟩
    rintro ⟨ks, hk⟩
    rw [h] at hk
    simp at hk

/-- C7: for every KeySet and all keys a, b, Between(a, b) returns the empty
key if and only if it returns a non-nil error (and it never panics or loops
for ever). -/
theorem Between_error_iff_no_key (sigils digits : String) (ks : KeySet)
    (hks : NewKeySet sigils digits = .ok ks) (a b : List Nat) :
    ((Between ks a b).1 = [] ↔ (Between ks a b).2 ≠ none) ∧
      (Between ks a b).2 ≠ some .panic ∧ (Between ks a b).2 ≠ some .fuel := by
  have hw := (NewKeySet_wf hks).1
  rcases Between_cases hw a b with ⟨e, he, h1, h2⟩ | ⟨p, _, hp⟩ | ⟨_, hz, hp⟩
  · rw [he]
    refine ⟨by simp, ?_, ?_⟩
    · simpa using h1
    · simpa using h2
  · rw [hp]
    simp [parsedKey.Value]
  · rw [hp]
    simp [hz]

/-- C7 at sigils `!#$%`, digits `abcdef`, for the keys `$a` and `$b`, where
the incremented candidate is not below `b` and the midpoint with no upper
bound is taken. -/
theorem Between_error_iff_no_key_witness :
    NewKeySet "!#$%" "abcdef" = .ok ksSix ∧
    (((Between ksSix (key "$a") (key "$b")).1 = [] ↔
        (Between ksSix (key "$a") (key "$b")).2 ≠ none) ∧
      (Between ksSix (key "$a") (key "$b")).2 ≠ some .panic ∧
      (Between ksSix (key "$a") (key "$b")).2 ≠ some .fuel) :=
  ⟨rfl, Between_error_iff_no_key "!#$%" "abcdef" ksSix rfl (key "$a") (key "$b")⟩

/-- C8, the code at the failing input: with no sigils and digits `01`,
Between("", "") returns the zero key `0`, and `parse` rejects that key as
having an invalid sigil, so Between("0", "") fails. -/
theorem parse_zero_key_no_sigils :
    NewKeySet "" "01" = .ok ksBinary ∧
    Between ksBinary [] [] = (key "0", none) ∧
    parse ksBinary (key "0") = .error (.invalidValue "invalid sigil") ∧
    Between ksBinary (key "0") [] = ([], some (.invalidValue "invalid sigil")) :=
  ⟨rfl, rfl, rfl, rfl⟩

/-- With the empty sigil alphabet `parse` accepts no key at all. -/
theorem parse_no_sigils (digits : String) (ks : KeySet)
    (hks : NewKeySet "" digits = .ok ks) (k : List Nat) :
    ∃ msg, parse ks k = .error (.invalidValue msg) := by
  obtain ⟨hw, hs, _⟩ := NewKeySet_wf hks
  have hs0 : ks.sigils = [] := by rw [hs]; rfl
  cases hp : parse ks k with
  | error e =>
    obtain ⟨msg, rfl⟩ := parse_error hw k e hp
    exact ⟨msg, rfl⟩
  | ok p =>
    obtain ⟨i, hi, _⟩ := ((parse_ok_iff hw k p).1 hp).2.sigil_ok
    rw [hs0] at hi
    simp at hi

/-- C9 as stated fails: with sigils `ABab` and digits `0123456789`,
Between("a05", "") is `a15`, whose fraction `5` is the one of `a05`. -/
theorem Between_fraction_kept_example :
    NewKeySet "ABab" "0123456789" = .ok ksAlnum ∧
    parse ksAlnum (key "a05") = .ok ⟨97, [48], [53]⟩ ∧
    Between ksAlnum (key "a05") [] = (key "a15", none) ∧
    parse ksAlnum (key "a15") = .ok ⟨97, [49], [53]⟩ ∧
    (key "a15").length ≠ mapGet ksAlnum.sigilsLen 97 :=
  ⟨rfl, rfl, rfl, rfl, by decide⟩

/-- C9 amended: for every KeySet and every key a that parses under it, a key
that Between(a, "") returns is a sigil, the integer digits its band asks for,
and the fraction of a, unchanged. -/
theorem Between_keeps_fraction (sigils digits : String) (ks : KeySet)
    (hks : NewKeySet sigils digits = .ok ks) (a : List Nat) (pa : parsedKey)
    (ha : parse ks a = .ok pa) (r : List Nat) (h : Between ks a [] = (r, none)) :
    ∃ p, parse ks r = .ok p ∧ p.fraction = pa.fraction ∧
      p.integer.length + 1 = mapGet ks.sigilsLen p.sigil ∧
      r = p.sigil :: (p.integer ++ pa.fraction) := by
  have hw := (NewKeySet_wf hks).1
  obtain ⟨mx, hmx⟩ := max_digit hw
  obtain ⟨hae, hva⟩ := (parse_ok_iff hw a pa).1 ha
  have ha0 : a ≠ [] := by rw [hae]; simp [parsedKey.Value]
  unfold Between at h
  rw [if_neg ha0, if_pos rfl, ha] at h
  simp only at h
  rcases incrementInteger_cases hw mx hmx pa hva with ⟨hres, _⟩ | ⟨v1, hres, hv1, hf1, _⟩
  · rw [hres] at h
    simp at h
  · rw [hres] at h
    have hr : r = v1.Value := (Prod.mk.inj h).1.symm
    obtain ⟨i, hi, hlen⟩ := hv1.sigil_ok
    refine ⟨v1, (parse_ok_iff hw r v1).2 ⟨hr, hv1⟩, hf1, ?_, ?_⟩
    · rw [mapGet_sigilsLen_eq hw hi]
      exact hlen
    · rw [hr, ← hf1]
      rfl

/-- C9 amended, at sigils `ABab`, digits `0123456789` and the key `a05`. -/
theorem Between_keeps_fraction_witness :
    NewKeySet "ABab" "0123456789" = .ok ksAlnum ∧
    parse ksAlnum (key "a05") = .ok ⟨97, [48], [53]⟩ ∧
    Between ksAlnum (key "a05") [] = (key "a15", none) ∧
    ∃ p, parse ksAlnum (key "a15") = .ok p ∧ p.fraction = [53] ∧
      p.integer.length + 1 = mapGet ksAlnum.sigilsLen p.sigil ∧
      key "a15" = p.sigil :: (p.integer ++ [53]) :=
  ⟨rfl, rfl, rfl,
    Between_keeps_fraction "ABab" "0123456789" ksAlnum rfl (key "a05") ⟨97, [48], [53]⟩
      rfl (key "a15") rfl⟩

/-- C10 as stated fails: with sigils `!#$%` and digits `abcdef` the key `!aa`
has the first sigil and an integer of smallest digits, and Between("", "!aa")
fails with ErrUnderflow; for `!aab` the fraction is dropped, where
midpoint(nil, "b") would be `ad`. -/
theorem Between_minimum_underflow_example :
    NewKeySet "!#$%" "abcdef" = .ok ksSix ∧
    parse ksSix (key "!aa") = .ok ⟨33, [97, 97], []⟩ ∧
    Between ksSix [] (key "!aa") = ([], some .underflow) ∧
    parse ksSix (key "!aab") = .ok ⟨33, [97, 97], [98]⟩ ∧
    midpoint ksSix [] (key "b") = .ok (key "ad") ∧
    Between ksSix [] (key "!aab") = (key "!aa", none) :=
  ⟨rfl, rfl, rfl, rfl, rfl, rfl⟩

/-- C10 amended: for every KeySet with at least one sigil and every key b
that parses with the first sigil and an integer made only of the smallest
digit, Between("", b) returns b's sigil and integer with the fraction dropped
when b has a fraction, and fails with ErrUnderflow when it has none. -/
theorem Between_minimum_band (sigils digits : String) (ks : KeySet)
    (hks : NewKeySet sigils digits = .ok ks) (b : List Nat) (pb : parsedKey)
    (hb : parse ks b = .ok pb) (hfirst : ks.sigils.head? = some pb.sigil)
    (hmin : ∀ x ∈ pb.integer, ks.digits.head? = some x) :
    (pb.fraction ≠ [] → Between ks [] b = (pb.sigil :: pb.integer, none)) ∧
      (pb.fraction = [] → Between ks [] b = ([], some .underflow)) := by
  have hw := (NewKeySet_wf hks).1
  obtain ⟨z, hz⟩ := zero_digit hw
  obtain ⟨hbe, hvb⟩ := (parse_ok_iff hw b pb).1 hb
  have hb0 : b ≠ [] := by rw [hbe]; simp [parsedKey.Value]
  have hf0 : ks.sigils[0]? = some pb.sigil := by
    rw [← head?_eq_index]
    exact hfirst
  have hall : ∀ x ∈ pb.integer, x = z := by
    intro x hx
    have := hmin x hx
    rw [head?_eq_index, hz] at this
    exact (Option.some.inj this).symm
  have hg : pb.integer ≠ ks.smallest := by
    obtain ⟨i, hi, hlen⟩ := hvb.sigil_ok
    have hi0 : i = 0 := (sigil_eq_iff hw hi hf0).1 rfl
    subst hi0
    cases hsig : ks.sigils with
    | nil =>
      rw [hsig] at hf0
      simp at hf0
    | cons s rest =>
      obtain ⟨d, _, hsm⟩ := hw.smallest_spec s rest hsig
      have hge := bandWidth_ge (ks.sigils.length / 2) 0
      intro heq
      have hl : pb.integer.length = ks.smallest.length := by rw [heq]
      rw [hsm] at hl
      simp only [List.length_cons, List.length_replicate] at hl
      omega
  unfold Between
  rw [if_pos rfl, if_neg hb0, hb]
  simp only
  rw [if_neg hg]
  constructor
  · intro hfr
    rw [if_pos (List.length_pos.2 hfr)]
    simp [parsedKey.Value]
  · intro hfr
    rw [if_neg (by rw [hfr]; simp)]
    rcases decrementInteger_cases hw z hz pb hvb with ⟨hres, _⟩ | ⟨v1, _, _, _, _, hnot⟩
    · rw [hres]
    · exact absurd ⟨hf0, hall⟩ hnot

/-- C10 amended, at sigils `!#$%`, digits `abcdef` and the key `!aab`. -/
theorem Between_minimum_band_witness :
    NewKeySet "!#$%" "abcdef" = .ok ksSix ∧
    parse ksSix (key "!aab") = .ok ⟨33, [97, 97], [98]⟩ ∧
    ksSix.sigils.head? = some 33 ∧
    (∀ x ∈ [97, 97], ksSix.digits.head? = some x) ∧
    (([98] : List Nat) ≠ [] → Between ksSix [] (key "!aab") = (33 :: [97, 97], none)) ∧
      (([98] : List Nat) = [] → Between ksSix [] (key "!aab") = ([], some .underflow)) :=
  ⟨rfl, rfl, rfl, by decide,
    Between_minimum_band "!#$%" "abcdef" ksSix rfl (key "!aab") ⟨33, [97, 97], [98]⟩ rfl rfl
      (by decide)⟩

theorem bandWidth_mid (m : Nat) : bandWidth m m = 2 := by
  simp [bandWidth]

/-- C11 as stated fails: with sigils `!#$%` the zero key's sigil is at
position 2, and the sigils at positions 1 and 2 both have band width 2. -/
theorem bandWidth_center_equal_example :
    NewKeySet "!#$%" "abcdef" = .ok ksSix ∧ ksSix.zero = [36, 97] ∧
    ksSix.sigils.length / 2 = 2 ∧
    ksSix.sigils[1]? = some 35 ∧ ksSix.sigils[2]? = some 36 ∧
    mapGet ksSix.sigilsLen 35 = 2 ∧ mapGet ksSix.sigilsLen 36 = 2 :=
  ⟨rfl, rfl, rfl, rfl, rfl, rfl, rfl⟩

/-- C11 amended: for every valid sigil alphabet with at least one sigil, with
mid the position of the zero key's sigil, the band width of sigils[mid] is 2;
above mid the width grows by exactly one per position; below mid it grows by
exactly one per position moving down from position mid - 1, whose width is
that of mid. -/
theorem bandWidth_profile (sigils digits : String) (ks : KeySet)
    (hks : NewKeySet sigils digits = .ok ks) :
    (ks.sigils ≠ [] →
      ∃ sm, ks.sigils[ks.sigils.length / 2]? = some sm ∧ ks.zero.head? = some sm ∧
        mapGet ks.sigilsLen sm = 2) ∧
    (∀ i j si sj, ks.sigils[i]? = some si → ks.sigils[j]? = some sj → i < j →
      (ks.sigils.length / 2 ≤ i →
        mapGet ks.sigilsLen sj = mapGet ks.sigilsLen si + (j - i)) ∧
      (j < ks.sigils.length / 2 →
        mapGet ks.sigilsLen si = mapGet ks.sigilsLen sj + (j - i)) ∧
      (j = ks.sigils.length / 2 →
        mapGet ks.sigilsLen si = mapGet ks.sigilsLen sj + (j - i) - 1)) := by
  have hw := (NewKeySet_wf hks).1
  refine ⟨?_, ?_⟩
  · intro hne
    obtain ⟨d, _, hzero⟩ := hw.zero_spec
    rcases hzero with ⟨h0, _⟩ | ⟨sm, hsm, hz⟩
    · exact absurd h0 hne
    · refine ⟨sm, hsm, by rw [hz]; rfl, ?_⟩
      rw [mapGet_sigilsLen_eq hw hsm]
      exact bandWidth_mid _
  · intro i j si sj hi hj hij
    rw [mapGet_sigilsLen_eq hw hi, mapGet_sigilsLen_eq hw hj]
    refine ⟨?_, ?_, ?_⟩
    · intro h
      unfold bandWidth
      rw [if_neg (by omega), if_neg (by omega)]
      omega
    · intro h
      unfold bandWidth
      rw [if_pos (by omega), if_pos (by omega)]
      omega
    · intro h
      unfold bandWidth
      rw [if_pos (by omega), if_neg (by omega)]
      omega

/-- C11 amended, at the single sigil `#`, whose width is 2, and at sigils
`!#$%`, where the widths are 3, 2, 2, 3. -/
theorem bandWidth_profile_witness :
    (NewKeySet "#" "01" = .ok ksSingle ∧
      ∃ sm, ksSingle.sigils[ksSingle.sigils.length / 2]? = some sm ∧
        ksSingle.zero.head? = some sm ∧ mapGet ksSingle.sigilsLen sm = 2) ∧
    (NewKeySet "!#$%" "abcdef" = .ok ksSix ∧
      (∃ sm, ksSix.sigils[ksSix.sigils.length / 2]? = some sm ∧
        ksSix.zero.head? = some sm ∧ mapGet ksSix.sigilsLen sm = 2) ∧
      mapGet ksSix.sigilsLen 33 = mapGet ksSix.sigilsLen 35 + (1 - 0) ∧
      mapGet ksSix.sigilsLen 35 = mapGet ksSix.sigilsLen 36 + (2 - 1) - 1 ∧
      mapGet ksSix.sigilsLen 37 = mapGet ksSix.sigilsLen 36 + (3 - 2)) :=
  ⟨⟨rfl, (bandWidth_profile "#" "01" ksSingle rfl).1 (by decide)⟩,
    ⟨rfl, (bandWidth_profile "!#$%" "abcdef" ksSix rfl).1 (by decide),
      ((bandWidth_profile "!#$%" "abcdef" ksSix rfl).2 0 1 33 35 rfl rfl
        (by decide)).2.1 (by decide),
      ((bandWidth_profile "!#$%" "abcdef" ksSix rfl).2 1 2 35 36 rfl rfl
        (by decide)).2.2 (by decide),
      ((bandWidth_profile "!#$%" "abcdef" ksSix rfl).2 2 3 36 37 rfl rfl
        (by decide)).1 (by decide)⟩⟩

theorem valid_sigil_facts {ks : KeySet} (hw : WF ks) {v : parsedKey} (hv : Valid ks v) :
    v.sigil ∈ ks.sigils ∧ mapGet? ks.sigilsLen v.sigil = some (v.integer.length + 1) := by
  obtain ⟨i, hi, hlen⟩ := hv.sigil_ok
  refine ⟨List.getElem?_mem hi, ?_⟩
  rw [mapGet_sigilsLen hw hi, hlen]

/-- C17: for every KeySet and every parsed key v returned by parse, after a
successful incrementInteger(v) or decrementInteger(v) the sigil is a
configured sigil, every integer byte is a configured digit, and
len(integer) = bandWidth[sigil] - 1. -/
theorem integer_arith_wellformed (sigils digits : String) (ks : KeySet)
    (hks : NewKeySet sigils digits = .ok ks) (a : List Nat) (v v1 : parsedKey)
    (hv : parse ks a = .ok v)
    (h : incrementInteger ks v = .ok v1 ∨ decrementInteger ks v = .ok v1) :
    v1.sigil ∈ ks.sigils ∧ (∀ x ∈ v1.integer, x ∈ ks.digits) ∧
      mapGet? ks.sigilsLen v1.sigil = some (v1.integer.length + 1) := by
  have hw := (NewKeySet_wf hks).1
  obtain ⟨z, hz⟩ := zero_digit hw
  obtain ⟨mx, hmx⟩ := max_digit hw
  have hvv := ((parse_ok_iff hw a v).1 hv).2
  have hv1 : Valid ks v1 := by
    rcases h with h | h
    · rcases incrementInteger_cases hw mx hmx v hvv with ⟨hres, _⟩ | ⟨v2, hres, hv2, _⟩
      · rw [hres] at h
        simp at h
      · rw [hres] at h
        rw [← Except.ok.inj h]
        exact hv2
    · rcases decrementInteger_cases hw z hz v hvv with ⟨hres, _⟩ | ⟨v2, hres, hv2, _⟩
      · rw [hres] at h
        simp at h
      · rw [hres] at h
        rw [← Except.ok.inj h]
        exact hv2
  obtain ⟨h1, h2⟩ := valid_sigil_facts hw hv1
  exact ⟨h1, hv1.integer_ok, h2⟩

/-- C17 at sigils `!#$%`, digits `abcdef`: incrementing `$f` crosses into the
wider band of `%`. -/
theorem integer_arith_wellformed_witness :
    NewKeySet "!#$%" "abcdef" = .ok ksSix ∧
    parse ksSix (key "$f") = .ok ⟨36, [102], []⟩ ∧
    (incrementInteger ksSix ⟨36, [102], []⟩ = .ok ⟨37, [97, 97], []⟩ ∨
      decrementInteger ksSix ⟨36, [102], []⟩ = .ok ⟨37, [97, 97], []⟩) ∧
    ((37 : Nat) ∈ ksSix.sigils ∧ (∀ x ∈ ([97, 97] : List Nat), x ∈ ksSix.digits) ∧
      mapGet? ksSix.sigilsLen 37 = some (([97, 97] : List Nat).length + 1)) :=
  ⟨rfl, rfl, Or.inl rfl,
    integer_arith_wellformed "!#$%" "abcdef" ksSix rfl (key "$f") ⟨36, [102], []⟩
      ⟨37, [97, 97], []⟩ rfl (Or.inl rfl)⟩

theorem getLast?_ne_head_iff {ks : KeySet} (z : Nat) (hz : ks.digits[0]? = some z)
    (l : List Nat) : (l = [] ∨ l.getLast? ≠ ks.digits.head?) ↔ l.getLast? ≠ some z := by
  rw [head?_eq_index, hz]
  constructor
  · rintro (h | h)
    · rw [h]
      simp
    · exact h
  · intro h
    exact Or.inr h

/-- C18: for every KeySet with at least one sigil, parse(key) succeeds if and
only if key is non-empty, key[0] is a configured sigil, len(key) >=
bandWidth[key[0]], every byte after the first is a configured digit, and the
bytes from position bandWidth[key[0]] on are empty or do not end in the
smallest digit; on success sigil, integer and fraction concatenate back to
key. -/
theorem parse_succeeds_iff (sigils digits : String) (ks : KeySet)
    (hks : NewKeySet sigils digits = .ok ks) (_hne : ks.sigils ≠ []) (k : List Nat) :
    ((∃ p, parse ks k = .ok p) ↔
      (k ≠ [] ∧ k.headD 0 ∈ ks.sigils ∧ mapGet ks.sigilsLen (k.headD 0) ≤ k.length ∧
        (∀ x ∈ k.tail, x ∈ ks.digits) ∧
        (k.drop (mapGet ks.sigilsLen (k.headD 0)) = [] ∨
          (k.drop (mapGet ks.sigilsLen (k.headD 0))).getLast? ≠ ks.digits.head?))) ∧
    (∀ p, parse ks k = .ok p → p.Value = k ∧ p.sigil :: (p.integer ++ p.fraction) = k) := by
  have hw := (NewKeySet_wf hks).1
  obtain ⟨z, hz⟩ := zero_digit hw
  refine ⟨⟨?_, ?_⟩, ?_⟩
  · rintro ⟨p, hp⟩
    obtain ⟨hk, hv⟩ := (parse_ok_iff hw k p).1 hp
    obtain ⟨i, hi, hlen⟩ := hv.sigil_ok
    have hwd := mapGet_sigilsLen_eq hw hi
    subst hk
    simp only [parsedKey.Value, List.headD_cons, List.tail_cons, List.length_cons,
      List.length_append, hwd, ← hlen, List.drop_succ_cons, List.drop_left]
    refine ⟨by simp, List.getElem?_mem hi, by omega, ?_, ?_⟩
    · intro x hx
      rcases List.mem_append.1 hx with h | h
      · exact hv.integer_ok x h
      · exact hv.fraction_ok x h
    · exact (getLast?_ne_head_iff z hz _).2 (hv.canonical z hz)
  · rintro ⟨h0, hs, hl, hd, hc⟩
    cases k with
    | nil => exact absurd rfl h0
    | cons s rest =>
      simp only [List.headD_cons, List.tail_cons, List.length_cons] at hs hl hd hc
      obtain ⟨i, hi⟩ := List.mem_iff_getElem?.1 hs
      have hwd := mapGet_sigilsLen_eq hw hi
      have hge := bandWidth_ge (ks.sigils.length / 2) i
      rw [hwd] at hl hc
      obtain ⟨n1, hn1⟩ : ∃ n1, bandWidth (ks.sigils.length / 2) i = n1 + 1 :=
        ⟨bandWidth (ks.sigils.length / 2) i - 1, by omega⟩
      rw [hn1, List.drop_succ_cons] at hc
      refine ⟨⟨s, rest.take n1, rest.drop n1⟩, (parse_ok_iff hw _ _).2 ⟨?_, ?_⟩⟩
      · simp [parsedKey.Value]
      · refine (valid_iff z hz _).2 ⟨⟨i, hi, ?_⟩, ?_, ?_, ?_⟩
        · simp only [List.length_take]
          omega
        · intro x hx
          exact hd x (List.mem_of_mem_take hx)
        · intro x hx
          exact hd x (List.mem_of_mem_drop hx)
        · exact (getLast?_ne_head_iff z hz _).1 hc
  · intro p hp
    have hk := ((parse_ok_iff hw k p).1 hp).1
    exact ⟨hk.symm, hk.symm⟩

/-- C18 at sigils `!#$%`, digits `abcdef` and the key `%abc`. -/
theorem parse_succeeds_iff_witness :
    NewKeySet "!#$%" "abcdef" = .ok ksSix ∧ ksSix.sigils ≠ [] ∧
    (((∃ p, parse ksSix (key "%abc") = .ok p) ↔
      (key "%abc" ≠ [] ∧ (key "%abc").headD 0 ∈ ksSix.sigils ∧
        mapGet ksSix.sigilsLen ((key "%abc").headD 0) ≤ (key "%abc").length ∧
        (∀ x ∈ (key "%abc").tail, x ∈ ksSix.digits) ∧
        ((key "%abc").drop (mapGet ksSix.sigilsLen ((key "%abc").headD 0)) = [] ∨
          ((key "%abc").drop (mapGet ksSix.sigilsLen ((key "%abc").headD 0))).getLast? ≠
            ksSix.digits.head?))) ∧
    (∀ p, parse ksSix (key "%abc") = .ok p →
      p.Value = key "%abc" ∧ p.sigil :: (p.integer ++ p.fraction) = key "%abc")) :=
  ⟨rfl, by decide, parse_succeeds_iff "!#$%" "abcdef" ksSix rfl (by decide) (key "%abc")⟩

theorem derived_valid {ks : KeySet} (hw : WF ks) {p : parsedKey} (hp : Derived ks p) :
    Valid ks p := by
  obtain ⟨z, hz⟩ := zero_digit hw
  obtain ⟨mx, hmx⟩ := max_digit hw
  induction hp with
  | parsed a p h => exact ((parse_ok_iff hw a p).1 h).2
  | integerOnly p _ ih => exact valid_integerOnly ih
  | incremented p p1 _ h ih =>
    rcases incrementInteger_cases hw mx hmx p ih with ⟨hres, _⟩ | ⟨v2, hres, hv2, _⟩
    · rw [hres] at h
      simp at h
    · rw [hres] at h
      rw [← Except.ok.inj h]
      exact hv2
  | decremented p p1 _ h ih =>
    rcases decrementInteger_cases hw z hz p ih with ⟨hres, _⟩ | ⟨v2, hres, hv2, _⟩
    · rw [hres] at h
      simp at h
    · rw [hres] at h
      rw [← Except.ok.inj h]
      exact hv2

/-- On valid keys `Compare` is -1, 0 or 1 as the values are in byte order. -/
theorem compare_cases {ks : KeySet} (hw : WF ks) {p q : parsedKey}
    (hp : Valid ks p) (hq : Valid ks q) :
    (p.Compare q = -1 ∧ p.Value < q.Value) ∨ (p.Compare q = 0 ∧ p.Value = q.Value) ∨
      (p.Compare q = 1 ∧ q.Value < p.Value) := by
  unfold parsedKey.Compare parsedKey.Value
  by_cases h1 : p.sigil < q.sigil
  · left
    rw [if_pos h1]
    exact ⟨rfl, value_lt_of_sigil_lt _ _ _ _ h1⟩
  · rw [if_neg h1]
    by_cases h2 : p.sigil > q.sigil
    · right; right
      rw [if_pos h2]
      exact ⟨rfl, value_lt_of_sigil_lt _ _ _ _ h2⟩
    · rw [if_neg h2]
      have hs : p.sigil = q.sigil := by omega
      obtain ⟨i, hi, hli⟩ := hp.sigil_ok
      obtain ⟨j, hj, hlj⟩ := hq.sigil_ok
      have hij : i = j := (sigil_eq_iff hw hi hj).1 hs
      subst hij
      have hl : p.integer.length = q.integer.length := by omega
      rw [hs]
      rcases bytesCompare_cases p.integer q.integer with ⟨hc, ho⟩ | ⟨hc, ho⟩ | ⟨hc, ho⟩
      · left
        rw [if_pos (by rw [hc]; decide), hc]
        refine ⟨rfl, ?_⟩
        rw [cons_lt_cons_iff]
        exact Or.inr ⟨rfl, (append_lt_append_of_length _ _ _ _ hl).2 (Or.inl ho)⟩
      · rw [if_neg (by rw [hc]; decide), ho]
        rcases bytesCompare_cases p.fraction q.fraction with ⟨hf, hfo⟩ | ⟨hf, hfo⟩ | ⟨hf, hfo⟩
        · left
          refine ⟨hf, ?_⟩
          rw [cons_lt_cons_iff]
          exact Or.inr ⟨rfl, (append_lt_append_iff _ _ _).2 hfo⟩
        · right; left
          exact ⟨hf, by rw [hfo]⟩
        · right; right
          refine ⟨hf, ?_⟩
          rw [cons_lt_cons_iff]
          exact Or.inr ⟨rfl, (append_lt_append_iff _ _ _).2 hfo⟩
      · right; right
        rw [if_pos (by rw [hc]; decide), hc]
        refine ⟨rfl, ?_⟩
        rw [cons_lt_cons_iff]
        exact Or.inr ⟨rfl, (append_lt_append_of_length _ _ _ _ hl.symm).2 (Or.inl ho)⟩

/-- C19: for every KeySet and parsed keys p, q that are each the result of
parse, possibly followed by integerOnly and a successful incrementInteger or
decrementInteger, p.Compare(q) is negative, zero or positive exactly when
p.Value() is byte-lexicographically less than, equal to or greater than
q.Value(). -/
theorem Compare_agrees_with_bytes (sigils digits : String) (ks : KeySet)
    (hks : NewKeySet sigils digits = .ok ks) (p q : parsedKey)
    (hp : Derived ks p) (hq : Derived ks q) :
    (p.Compare q < 0 ↔ p.Value < q.Value) ∧ (p.Compare q = 0 ↔ p.Value = q.Value) ∧
      (0 < p.Compare q ↔ q.Value < p.Value) := by
  have hw := (NewKeySet_wf hks).1
  rcases compare_cases hw (derived_valid hw hp) (derived_valid hw hq) with
    ⟨hc, ho⟩ | ⟨hc, ho⟩ | ⟨hc, ho⟩
  · rw [hc]
    refine ⟨⟨fun _ => ho, fun _ => by decide⟩, ⟨fun h => absurd h (by decide), fun h => ?_⟩,
      ⟨fun h => absurd h (by decide), fun h => ?_⟩⟩
    · exact absurd h (ne_of_lt ho)
    · exact absurd h (lt_asymm ho)
  · rw [hc]
    refine ⟨⟨fun h => absurd h (by decide), fun h => ?_⟩, ⟨fun _ => ho, fun _ => rfl⟩,
      ⟨fun h => absurd h (by decide), fun h => ?_⟩⟩
    · exact absurd ho (ne_of_lt h)
    · exact absurd ho.symm (ne_of_lt h)
  · rw [hc]
    refine ⟨⟨fun h => absurd h (by decide), fun h => ?_⟩, ⟨fun h => absurd h (by decide),
      fun h => ?_⟩, ⟨fun _ => ho, fun _ => by decide⟩⟩
    · exact absurd h (lt_asymm ho)
    · exact absurd h.symm (ne_of_lt ho)

/-- C19 at sigils `!#$%`, digits `abcdef`: `$f` incremented without its
fraction, which is `%aa`, against the parsed `%aab`. -/
theorem Compare_agrees_with_bytes_witness :
    NewKeySet "!#$%" "abcdef" = .ok ksSix ∧
    Derived ksSix ⟨37, [97, 97], []⟩ ∧ Derived ksSix ⟨37, [97, 97], [98]⟩ ∧
    ((parsedKey.Compare ⟨37, [97, 97], []⟩ ⟨37, [97, 97], [98]⟩ < 0 ↔
        parsedKey.Value ⟨37, [97, 97], []⟩ < parsedKey.Value ⟨37, [97, 97], [98]⟩) ∧
      (parsedKey.Compare ⟨37, [97, 97], []⟩ ⟨37, [97, 97], [98]⟩ = 0 ↔
        parsedKey.Value ⟨37, [97, 97], []⟩ = parsedKey.Value ⟨37, [97, 97], [98]⟩) ∧
      (0 < parsedKey.Compare ⟨37, [97, 97], []⟩ ⟨37, [97, 97], [98]⟩ ↔
        parsedKey.Value ⟨37, [97, 97], [98]⟩ < parsedKey.Value ⟨37, [97, 97], []⟩)) :=
  ⟨rfl,
    Derived.incremented ⟨36, [102], []⟩ _
      (Derived.integerOnly ⟨36, [102], [99]⟩ (Derived.parsed (key "$fc") _ rfl)) rfl,
    Derived.parsed (key "%aab") _ rfl,
    Compare_agrees_with_bytes "!#$%" "abcdef" ksSix rfl ⟨37, [97, 97], []⟩
      ⟨37, [97, 97], [98]⟩
      (Derived.incremented ⟨36, [102], []⟩ _
        (Derived.integerOnly ⟨36, [102], [99]⟩ (Derived.parsed (key "$fc") _ rfl)) rfl)
      (Derived.parsed (key "%aab") _ rfl)⟩

/-- The carry loop can be undone by the borrow loop, unless every digit is
the largest one. -/
theorem incrementLoop_inverse {ks : KeySet} (hw : WF ks) (z mx : Nat)
    (hz : ks.digits[0]? = some z) (hmx : ks.digits[ks.digits.length - 1]? = some mx)
    (pre : List Nat) (hpre : ∀ x ∈ pre, x ∈ ks.digits) :
    (∀ x ∈ pre, x = mx) ∨ ∃ pre1,
      (∀ suf, incrementLoop ks pre.length (pre ++ suf) = .ok (pre1 ++ suf, false)) ∧
      pre1.length = pre.length ∧ (∀ x ∈ pre1, x ∈ ks.digits) ∧
      (∀ suf, decrementLoop ks pre.length (pre1 ++ suf) = .ok (pre ++ suf, false)) := by
  have hN := hw.digits_len
  induction pre using List.reverseRecOn with
  | nil =>
    left
    simp
  | append_singleton init x ih =>
    have hx : x ∈ ks.digits := hpre x (by simp)
    have hinit : ∀ y ∈ init, y ∈ ks.digits := fun y hy => hpre y (by simp [hy])
    obtain ⟨i, hi, hilt⟩ := digit_index hx
    have hlen : (init ++ [x]).length = init.length + 1 := by simp
    by_cases hlast : ((i : Int) + 1 = (ks.digits.length : Int))
    · have hxm : x = mx := (digit_eq_iff hw hi hmx).2 (by omega)
      rcases ih hinit with hall | ⟨init1, hinc, hl1, hd1, hdec⟩
      · left
        intro y hy
        rcases List.mem_append.1 hy with h | h
        · exact hall y h
        · rw [List.mem_singleton.1 h, hxm]
      · right
        refine ⟨init1 ++ [z], ?_, by simp [hl1], ?_, ?_⟩
        · intro suf
          have happ : (init ++ [x]) ++ suf = init ++ x :: suf := by simp
          rw [hlen, happ, incrementLoop]
          simp only [index_append_length, bind, Except.bind, mapGet_digit hw hi,
            set_append_length]
          rw [if_pos hlast, index_intCast _ 0 0 z rfl hz]
          simp only
          rw [hinc (z :: suf)]
          simp
        · intro y hy
          rcases List.mem_append.1 hy with h | h
          · exact hd1 y h
          · rw [List.mem_singleton.1 h]
            exact List.getElem?_mem hz
        · intro suf
          have happ : (init1 ++ [z]) ++ suf = init1 ++ z :: suf := by simp
          have happ2 : (init ++ [x]) ++ suf = init ++ x :: suf := by simp
          rw [hlen, happ, happ2, decrementLoop, ← hl1]
          simp only [index_append_length, bind, Except.bind, mapGet_digit hw hz,
            set_append_length]
          rw [if_pos (by omega), index_last _ mx hmx]
          simp only
          rw [hl1, hdec (mx :: suf), hxm]
    · right
      have hi1 : i + 1 < ks.digits.length := by omega
      obtain ⟨x1, hx1, hx1m⟩ := digit_at hi1
      refine ⟨init ++ [x1], ?_, by simp, ?_, ?_⟩
      · intro suf
        have happ : (init ++ [x]) ++ suf = init ++ x :: suf := by simp
        rw [hlen, happ, incrementLoop]
        simp only [index_append_length, bind, Except.bind, mapGet_digit hw hi,
          set_append_length]
        rw [if_neg hlast, index_intCast _ _ (i + 1) x1 (by push_cast; ring) hx1]
        simp [pure, Except.pure]
      · intro y hy
        rcases List.mem_append.1 hy with h | h
        · exact hinit y h
        · rw [List.mem_singleton.1 h]
          exact hx1m
      · intro suf
        have happ : (init ++ [x1]) ++ suf = init ++ x1 :: suf := by simp
        have happ2 : (init ++ [x]) ++ suf = init ++ x :: suf := by simp
        rw [hlen, happ, happ2, decrementLoop]
        simp only [index_append_length, bind, Except.bind, mapGet_digit hw hx1,
          set_append_length]
        rw [if_neg (by omega), index_intCast _ _ i x (by push_cast; ring) hi]
        simp [pure, Except.pure]

/-- The borrow loop can be undone by the carry loop, unless every digit is
the smallest one. -/
theorem decrementLoop_inverse {ks : KeySet} (hw : WF ks) (z mx : Nat)
    (hz : ks.digits[0]? = some z) (hmx : ks.digits[ks.digits.length - 1]? = some mx)
    (pre : List Nat) (hpre : ∀ x ∈ pre, x ∈ ks.digits) :
    (∀ x ∈ pre, x = z) ∨ ∃ pre1,
      (∀ suf, decrementLoop ks pre.length (pre ++ suf) = .ok (pre1 ++ suf, false)) ∧
      pre1.length = pre.length ∧ (∀ x ∈ pre1, x ∈ ks.digits) ∧
      (∀ suf, incrementLoop ks pre.length (pre1 ++ suf) = .ok (pre ++ suf, false)) := by
  have hN := hw.digits_len
  induction pre using List.reverseRecOn with
  | nil =>
    left
    simp
  | append_singleton init x ih =>
    have hx : x ∈ ks.digits := hpre x (by simp)
    have hinit : ∀ y ∈ init, y ∈ ks.digits := fun y hy => hpre y (by simp [hy])
    obtain ⟨i, hi, hilt⟩ := digit_index hx
    have hlen : (init ++ [x]).length = init.length + 1 := by simp
    by_cases hfirst : ((i : Int) - 1 = -1)
    · have hxz : x = z := (digit_eq_iff hw hi hz).2 (by omega)
      rcases ih hinit with hall | ⟨init1, hdec, hl1, hd1, hinc⟩
      · left
        intro y hy
        rcases List.mem_append.1 hy with h | h
        · exact hall y h
        · rw [List.mem_singleton.1 h, hxz]
      · right
        refine ⟨init1 ++ [mx], ?_, by simp [hl1], ?_, ?_⟩
        · intro suf
          have happ : (init ++ [x]) ++ suf = init ++ x :: suf := by simp
          rw [hlen, happ, decrementLoop]
          simp only [index_append_length, bind, Except.bind, mapGet_digit hw hi,
            set_append_length]
          rw [if_pos hfirst, index_last _ mx hmx]
          simp only
          rw [hdec (mx :: suf)]
          simp
        · intro y hy
          rcases List.mem_append.1 hy with h | h
          · exact hd1 y h
          · rw [List.mem_singleton.1 h]
            exact List.getElem?_mem hmx
        · intro suf
          have happ : (init1 ++ [mx]) ++ suf = init1 ++ mx :: suf := by simp
          have happ2 : (init ++ [x]) ++ suf = init ++ x :: suf := by simp
          rw [hlen, happ, happ2, incrementLoop, ← hl1]
          simp only [index_append_length, bind, Except.bind, mapGet_digit hw hmx,
            set_append_length]
          rw [if_pos (by omega), index_intCast _ 0 0 z rfl hz]
          simp only
          rw [hl1, hinc (z :: suf), hxz]
    · right
      have hi1 : i - 1 < ks.digits.length := by omega
      obtain ⟨x1, hx1, hx1m⟩ := digit_at hi1
      refine ⟨init ++ [x1], ?_, by simp, ?_, ?_⟩
      · intro suf
        have happ : (init ++ [x]) ++ suf = init ++ x :: suf := by simp
        rw [hlen, happ, decrementLoop]
        simp only [index_append_length, bind, Except.bind, mapGet_digit hw hi,
          set_append_length]
        rw [if_neg hfirst, index_intCast _ _ (i - 1) x1 (by omega) hx1]
        simp [pure, Except.pure]
      · intro y hy
        rcases List.mem_append.1 hy with h | h
        · exact hinit y h
        · rw [List.mem_singleton.1 h]
          exact hx1m
      · intro suf
        have happ : (init ++ [x1]) ++ suf = init ++ x1 :: suf := by simp
        have happ2 : (init ++ [x]) ++ suf = init ++ x :: suf := by simp
        rw [hlen, happ, happ2, incrementLoop]
        simp only [index_append_length, bind, Except.bind, mapGet_digit hw hx1,
          set_append_length]
        rw [if_neg (by omega), index_intCast _ _ i x (by omega) hi]
        simp [pure, Except.pure]

theorem eq_replicate_of_all {l : List Nat} {n c : Nat} (hl : l.length = n)
    (h : ∀ x ∈ l, x = c) : l = List.replicate n c :=
  List.eq_replicate_iff.2 ⟨hl, h⟩

theorem zero_ne_max {ks : KeySet} (hw : WF ks) {z mx : Nat}
    (hz : ks.digits[0]? = some z) (hmx : ks.digits[ks.digits.length - 1]? = some mx) :
    z ≠ mx := by
  have hN := hw.digits_len
  intro h
  have := (digit_eq_iff hw hz hmx).1 h
  omega

/-- On a valid key, `decrementInteger` undoes a successful `incrementInteger`. -/
theorem decrement_after_increment {ks : KeySet} (hw : WF ks) (v v1 : parsedKey)
    (hv : Valid ks v) (h : incrementInteger ks v = .ok v1) :
    decrementInteger ks v1 = .ok v := by
  obtain ⟨z, hz⟩ := zero_digit hw
  obtain ⟨mx, hmx⟩ := max_digit hw
  obtain ⟨i, hi, hlen⟩ := hv.sigil_ok
  have hge := bandWidth_ge (ks.sigils.length / 2) i
  rcases incrementInteger_spec hw z mx hz hmx v i hi hlen hv.integer_ok with
    ⟨⟨x, hx, hne⟩, _⟩ | ⟨_, _, hres⟩ | ⟨hall, s1, hs1, hres⟩
  · rcases incrementLoop_inverse hw z mx hz hmx v.integer hv.integer_ok with
      hall | ⟨pre1, hinc, hl1, _, hdec⟩
    · exact absurd (hall x hx) hne
    · have hi1 := hinc []
      have hd1 := hdec []
      simp only [List.append_nil] at hi1 hd1
      have hv1 : v1 = ⟨v.sigil, pre1, v.fraction⟩ := by
        unfold incrementInteger at h
        simp only [hi1, bind, Except.bind] at h
        exact (Except.ok.inj h).symm
      subst hv1
      unfold decrementInteger
      simp only [hl1, hd1, bind, Except.bind]
      rfl
  · rw [hres] at h
    simp at h
  · rw [hres] at h
    have hv1 := (Except.ok.inj h).symm
    subst hv1
    have hge1 := bandWidth_ge (ks.sigils.length / 2) (i + 1)
    rcases decrementInteger_spec hw z mx hz hmx
      ⟨s1, List.replicate (bandWidth (ks.sigils.length / 2) (i + 1) - 1) z, v.fraction⟩
      (i + 1) hs1 (by simp only [List.length_replicate]; omega)
      (fun x hx => by
        rw [(List.mem_replicate.1 hx).2]
        exact List.getElem?_mem hz) with
      ⟨⟨x, hx, hne⟩, _⟩ | ⟨_, h0, _⟩ | ⟨_, j, s2, hj, hs2, hres2⟩
    · exact absurd (List.mem_replicate.1 hx).2 hne
    · omega
    · have hji : j = i := by omega
      subst hji
      rw [hres2]
      have hs : s2 = v.sigil := by
        rw [hi] at hs2
        exact (Option.some.inj hs2).symm
      have hint : v.integer = List.replicate (bandWidth (ks.sigils.length / 2) j - 1) mx :=
        eq_replicate_of_all (by omega) hall
      rw [hs, ← hint]

/-- On a valid key, `incrementInteger` undoes a successful `decrementInteger`. -/
theorem increment_after_decrement {ks : KeySet} (hw : WF ks) (v v1 : parsedKey)
    (hv : Valid ks v) (h : decrementInteger ks v = .ok v1) :
    incrementInteger ks v1 = .ok v := by
  obtain ⟨z, hz⟩ := zero_digit hw
  obtain ⟨mx, hmx⟩ := max_digit hw
  obtain ⟨i, hi, hlen⟩ := hv.sigil_ok
  have hge := bandWidth_ge (ks.sigils.length / 2) i
  have hilt : i < ks.sigils.length := (List.getElem?_eq_some.1 hi).1
  rcases decrementInteger_spec hw z mx hz hmx v i hi hlen hv.integer_ok with
    ⟨⟨x, hx, hne⟩, _⟩ | ⟨_, _, hres⟩ | ⟨hall, j, s1, hj, hs1, hres⟩
  · rcases decrementLoop_inverse hw z mx hz hmx v.integer hv.integer_ok with
      hall | ⟨pre1, hdec, hl1, _, hinc⟩
    · exact absurd (hall x hx) hne
    · have hi1 := hinc []
      have hd1 := hdec []
      simp only [List.append_nil] at hi1 hd1
      have hv1 : v1 = ⟨v.sigil, pre1, v.fraction⟩ := by
        unfold decrementInteger at h
        simp only [hd1, bind, Except.bind] at h
        exact (Except.ok.inj h).symm
      subst hv1
      unfold incrementInteger
      simp only [hl1, hi1, bind, Except.bind]
      rfl
  · rw [hres] at h
    simp at h
  · rw [hres] at h
    have hv1 := (Except.ok.inj h).symm
    subst hv1
    have hge1 := bandWidth_ge (ks.sigils.length / 2) j
    rcases incrementInteger_spec hw z mx hz hmx
      ⟨s1, List.replicate (bandWidth (ks.sigils.length / 2) j - 1) mx, v.fraction⟩
      j hs1 (by simp only [List.length_replicate]; omega)
      (fun x hx => by
        rw [(List.mem_replicate.1 hx).2]
        exact List.getElem?_mem hmx) with
      ⟨⟨x, hx, hne⟩, _⟩ | ⟨_, h0, _⟩ | ⟨_, s2, hs2, hres2⟩
    · exact absurd (List.mem_replicate.1 hx).2 hne
    · omega
    · rw [hres2]
      have hs : s2 = v.sigil := by
        rw [← hj, hi] at hs2
        exact (Option.some.inj hs2).symm
      have hint : v.integer =
          List.replicate (bandWidth (ks.sigils.length / 2) (j + 1) - 1) z :=
        eq_replicate_of_all (by rw [← hj]; omega) hall
      rw [hs, ← hint]

/-- C16: for every KeySet and every parsed key v returned by parse, if
incrementInteger(v) succeeds then decrementInteger applied to its result
succeeds and restores v's sigil, integer and fraction, and if
decrementInteger(v) succeeds then incrementInteger applied to its result
succeeds and restores v. -/
theorem increment_decrement_inverse (sigils digits : String) (ks : KeySet)
    (hks : NewKeySet sigils digits = .ok ks) (a : List Nat) (v : parsedKey)
    (hv : parse ks a = .ok v) :
    (∀ v1, incrementInteger ks v = .ok v1 → decrementInteger ks v1 = .ok v) ∧
      (∀ v1, decrementInteger ks v = .ok v1 → incrementInteger ks v1 = .ok v) := by
  have hw := (NewKeySet_wf hks).1
  have hvv := ((parse_ok_iff hw a v).1 hv).2
  exact ⟨fun v1 h => decrement_after_increment hw v v1 hvv h,
    fun v1 h => increment_after_decrement hw v v1 hvv h⟩

/-- C16 at sigils `!#$%`, digits `abcdef` and the key `$fc`: incrementing
gives `%aac`, in the next band, and decrementing that gives `$fc` back. -/
theorem increment_decrement_inverse_witness :
    NewKeySet "!#$%" "abcdef" = .ok ksSix ∧
    parse ksSix (key "$fc") = .ok ⟨36, [102], [99]⟩ ∧
    incrementInteger ksSix ⟨36, [102], [99]⟩ = .ok ⟨37, [97, 97], [99]⟩ ∧
    ((∀ v1, incrementInteger ksSix ⟨36, [102], [99]⟩ = .ok v1 →
        decrementInteger ksSix v1 = .ok ⟨36, [102], [99]⟩) ∧
      (∀ v1, decrementInteger ksSix ⟨36, [102], [99]⟩ = .ok v1 →
        incrementInteger ksSix v1 = .ok ⟨36, [102], [99]⟩)) :=
  ⟨rfl, rfl, rfl,
    increment_decrement_inverse "!#$%" "abcdef" ksSix rfl (key "$fc") ⟨36, [102], [99]⟩ rfl⟩

/-- The midpoint digit of the embedding is `math.Round` of half the sum. -/
theorem roundHalf_eq_goRound (s : Nat) : (roundHalf s : Int) = goRound ((s : ℚ) / 2) := by
  have h0 : (0 : ℚ) ≤ (s : ℚ) / 2 := by positivity
  have h1 : (s : ℚ) / 2 + 1 / 2 = ((s + 1 : ℕ) : ℚ) / ((2 : ℕ) : ℚ) := by
    push_cast
    ring
  unfold goRound roundHalf
  rw [if_pos h0, h1, Rat.floor_natCast_div_natCast]
  norm_cast

/-- The suffix loop on one digit below one digit with room in between. -/
theorem midpoint_single {ks : KeySet} (hw : WF ks) (i j di : Nat) (b : List Nat)
    (hi : ks.digits[i]? = some di)
    (hb : (b = [] ∧ j = ks.digits.length) ∨ ∃ dj, b = [dj] ∧ ks.digits[j]? = some dj)
    (hij : i + 1 < j) :
    ∃ d, ks.digits[(i + j + 1) / 2]? = some d ∧ midpoint ks [di] b = .ok [d] := by
  obtain ⟨z, hz⟩ := zero_digit hw
  have hjle : j ≤ ks.digits.length := by
    rcases hb with ⟨_, h⟩ | ⟨dj, _, h⟩
    · omega
    · have := (List.getElem?_eq_some.1 h).1
      omega
  have hb2 := roundHalf_bounds i j hij
  have hr : roundHalf (i + j) = (i + j + 1) / 2 := rfl
  obtain ⟨d, hd, _⟩ := digit_at (show (i + j + 1) / 2 < ks.digits.length by
    rw [← hr]; omega)
  refine ⟨d, hd, ?_⟩
  have hguard : ¬ (b.length > 0 ∧ bytesCompare [di] b ≥ 0) := by
    rintro ⟨h1, h2⟩
    rcases hb with ⟨h, _⟩ | ⟨dj, h, hj⟩
    · rw [h] at h1
      simp at h1
    · rw [h] at h2
      have hlt : di < dj := (digit_lt_iff hw hi hj).2 (by omega)
      exact (bytesCompare_nonneg_iff _ _).1 h2 ((cons_lt_cons_iff _ _ _ _).2 (Or.inl hlt))
  have hloop : midpointPrefixLoop z [di] b = 0 := by
    rcases hb with ⟨h, _⟩ | ⟨dj, h, hj⟩
    · rw [h]
      rfl
    · rw [h, midpointPrefixLoop]
      have hne : di ≠ dj := by
        intro he
        have := (digit_eq_iff hw hi hj).1 he
        omega
      rw [if_pos hne]
  have hdB : ((b.head?.map (mapGet ks.digitsIdx)).getD ks.digits.length) = j := by
    rcases hb with ⟨h, hj⟩ | ⟨dj, h, hj⟩
    · rw [h, hj]
      rfl
    · rw [h]
      simp only [List.head?_cons, Option.map_some', Option.getD_some]
      exact mapGet_digit hw hj
  unfold midpoint
  rw [if_neg hguard, midpointPrefix_eq z hz, hloop]
  simp only [bind, Except.bind, List.take_zero, List.length_nil, gt_iff_lt, lt_self_iff_false,
    if_false, List.length_cons, List.nil_append]
  rw [midpointSuffix_unfold]
  simp only [List.head?_cons, Option.map_some', Option.getD_some, mapGet_digit hw hi, hdB]
  rw [if_pos (by omega), hr, index_natCast _ _ d hd]
  rfl

/-- C15: the midpoint digit is the nearest integer to (digitA + digitB) / 2
with ties rounded up: for every KeySet with n digits and all digit indices
i < j with j - i > 1, midpoint([digits[i]], [digits[j]]) =
[digits[(i + j + 1) div 2]], and for every i with n - i > 1,
midpoint([digits[i]], nil) = [digits[(i + n + 1) div 2]]. -/
theorem midpoint_digit_rounding (sigils digits : String) (ks : KeySet)
    (hks : NewKeySet sigils digits = .ok ks) (i di : Nat)
    (hi : ks.digits[i]? = some di) :
    (∀ j dj, ks.digits[j]? = some dj → i + 1 < j →
      ∃ d, ks.digits[(i + j + 1) / 2]? = some d ∧ midpoint ks [di] [dj] = .ok [d]) ∧
    (i + 1 < ks.digits.length →
      ∃ d, ks.digits[(i + ks.digits.length + 1) / 2]? = some d ∧
        midpoint ks [di] [] = .ok [d]) := by
  have hw := (NewKeySet_wf hks).1
  exact ⟨fun j dj hj hij => midpoint_single hw i j di [dj] hi (Or.inr ⟨dj, rfl, hj⟩) hij,
    fun hin => midpoint_single hw i ks.digits.length di [] hi (Or.inl ⟨rfl, rfl⟩) hin⟩

/-- C15 at digits `0123456789` and the digit `5`: the tie between 5 and 10
goes up to 8, as `TestMidpoint` expects for midpoint("5", nil). -/
theorem midpoint_digit_rounding_witness :
    NewKeySet "" "0123456789" = .ok ksDecimal ∧
    ksDecimal.digits[5]? = some 53 ∧
    ((∀ j dj, ksDecimal.digits[j]? = some dj → 5 + 1 < j →
      ∃ d, ksDecimal.digits[(5 + j + 1) / 2]? = some d ∧
        midpoint ksDecimal [53] [dj] = .ok [d]) ∧
    (5 + 1 < ksDecimal.digits.length →
      ∃ d, ksDecimal.digits[(5 + ksDecimal.digits.length + 1) / 2]? = some d ∧
        midpoint ksDecimal [53] [] = .ok [d])) :=
  ⟨rfl, rfl, midpoint_digit_rounding "" "0123456789" ksDecimal rfl 5 53 rfl⟩

theorem mapGet_digitsIdx_lt {ks : KeySet} (hw : WF ks) (x : Nat) :
    mapGet ks.digitsIdx x < ks.digits.length := by
  have hN := hw.digits_len
  unfold mapGet
  cases h : mapGet? ks.digitsIdx x with
  | none =>
    simp only [Option.getD_none]
    omega
  | some i =>
    simp only [Option.getD_some]
    exact (List.getElem?_eq_some.1 ((hw.digitsIdx_spec x i).1 h)).1

theorem digitA_lt {ks : KeySet} (hw : WF ks) (a : List Nat) :
    (a.head?.map (mapGet ks.digitsIdx)).getD 0 < ks.digits.length := by
  have hN := hw.digits_len
  cases a with
  | nil =>
    simp only [List.head?_nil, Option.map_none', Option.getD_none]
    omega
  | cons x xs =>
    simp only [List.head?_cons, Option.map_some', Option.getD_some]
    exact mapGet_digitsIdx_lt hw x

theorem digitB_le {ks : KeySet} (hw : WF ks) (b : List Nat) :
    (b.head?.map (mapGet ks.digitsIdx)).getD ks.digits.length ≤ ks.digits.length := by
  cases b with
  | nil => simp
  | cons x xs =>
    simp only [List.head?_cons, Option.map_some', Option.getD_some]
    exact le_of_lt (mapGet_digitsIdx_lt hw x)

/-- With no upper bound the suffix loop ends on every byte sequence `a`,
within one iteration per byte and one more, and appends at most that many
digits. -/
theorem midpointSuffix_nil_total {ks : KeySet} (hw : WF ks) (a : List Nat)
    (fuel : Nat) (hf : a.length + 1 ≤ fuel) (acc : List Nat) :
    ∃ s, midpointSuffix ks fuel a [] acc = .ok (acc ++ s) ∧ s.length ≤ a.length + 1 := by
  have hN := hw.digits_len
  induction a generalizing fuel acc with
  | nil =>
    obtain ⟨f, rfl⟩ : ∃ f, fuel = f + 1 := ⟨fuel - 1, by omega⟩
    have hb := roundHalf_bounds 0 ks.digits.length (by omega)
    obtain ⟨d, hd, _⟩ := digit_at hb.2
    refine ⟨[d], ?_, by simp⟩
    rw [midpointSuffix_unfold]
    simp only [List.head?_nil, Option.map_none', Option.getD_none, Nat.cast_zero, sub_zero]
    rw [if_pos (by omega), index_natCast _ _ d hd]
    rfl
  | cons x xs ih =>
    obtain ⟨f, rfl⟩ : ∃ f, fuel = f + 1 := ⟨fuel - 1, by omega⟩
    have hlt := mapGet_digitsIdx_lt hw x
    rw [midpointSuffix_unfold]
    simp only [List.head?_cons, List.head?_nil, Option.map_some', Option.map_none',
      Option.getD_some, Option.getD_none, List.length_nil, List.tail_cons]
    by_cases hroom : (ks.digits.length : Int) - (mapGet ks.digitsIdx x : Int) > 1
    · have hb := roundHalf_bounds (mapGet ks.digitsIdx x) ks.digits.length (by omega)
      obtain ⟨d, hd, _⟩ := digit_at hb.2
      refine ⟨[d], ?_, by simp⟩
      rw [if_pos hroom, index_natCast _ _ d hd]
      rfl
    · obtain ⟨d, hd, _⟩ := digit_at hlt
      obtain ⟨s, hs, hl⟩ := ih f (by simp only [List.length_cons] at hf; omega) (acc ++ [d])
      refine ⟨d :: s, ?_, by simp only [List.length_cons]; omega⟩
      rw [if_neg hroom, if_neg (by omega), index_natCast _ _ d hd]
      simp only [Except.bind]
      rw [hs]
      simp

/-- The suffix loop ends on every pair of byte sequences, within one
iteration per byte of `a` and two more, and appends at most one digit more
than the longer of the two has bytes. -/
theorem midpointSuffix_total {ks : KeySet} (hw : WF ks) (a b : List Nat)
    (fuel : Nat) (hf : a.length + 2 ≤ fuel) (acc : List Nat) :
    ∃ s, midpointSuffix ks fuel a b acc = .ok (acc ++ s) ∧
      s.length ≤ max a.length b.length + 1 := by
  have hN := hw.digits_len
  obtain ⟨f, rfl⟩ : ∃ f, fuel = f + 1 := ⟨fuel - 1, by omega⟩
  have hA := digitA_lt hw a
  have hB := digitB_le hw b
  rw [midpointSuffix_unfold]
  by_cases hroom : (((b.head?.map (mapGet ks.digitsIdx)).getD ks.digits.length : Nat) : Int) -
      (((a.head?.map (mapGet ks.digitsIdx)).getD 0 : Nat) : Int) > 1
  · have hb := roundHalf_bounds ((a.head?.map (mapGet ks.digitsIdx)).getD 0)
      ((b.head?.map (mapGet ks.digitsIdx)).getD ks.digits.length) (by omega)
    obtain ⟨d, hd, _⟩ := digit_at (lt_of_lt_of_le hb.2 hB)
    refine ⟨[d], ?_, by simp⟩
    rw [if_pos hroom, index_natCast _ _ d hd]
    rfl
  · rw [if_neg hroom]
    by_cases hlen : 1 < b.length
    · rw [if_pos hlen]
      exact ⟨[b.headD 0], rfl, by simp⟩
    · rw [if_neg hlen]
      obtain ⟨d, hd, _⟩ := digit_at hA
      obtain ⟨s, hs, hl⟩ := midpointSuffix_nil_total hw a.tail f
        (by simp only [List.length_tail]; omega) (acc ++ [d])
      refine ⟨d :: s, ?_, ?_⟩
      · rw [index_natCast _ _ d hd]
        simp only [Except.bind]
        rw [hs]
        simp
      · simp only [List.length_cons, List.length_tail] at hl ⊢
        cases a with
        | nil =>
          cases b with
          | nil =>
            simp only [List.head?_nil, Option.map_none', Option.getD_none] at hroom
            omega
          | cons y ys =>
            simp only [List.length_nil, List.length_cons] at hl ⊢
            omega
        | cons x xs =>
          simp only [List.length_cons] at hl ⊢
          omega

/-- More iterations than the suffix loop needs do not change its result. -/
theorem midpointSuffix_fuel_mono (ks : KeySet) (f1 f2 : Nat) (a b acc s : List Nat)
    (hf : f1 ≤ f2) (h : midpointSuffix ks f1 a b acc = .ok s) :
    midpointSuffix ks f2 a b acc = .ok s := by
  induction f1 generalizing f2 a b acc with
  | zero =>
    rw [midpointSuffix] at h
    simp at h
  | succ f ih =>
    obtain ⟨g, rfl⟩ : ∃ g, f2 = g + 1 := ⟨f2 - 1, by omega⟩
    rw [midpointSuffix_unfold] at h ⊢
    split_ifs at h ⊢ with h1 h2
    · exact h
    · exact h
    · cases hd : index ks.digits ((a.head?.map (mapGet ks.digitsIdx)).getD 0 : Nat) with
      | error e =>
        rw [hd] at h
        simp [Except.bind] at h
      | ok d =>
        rw [hd] at h
        simp only [Except.bind] at h ⊢
        exact ih g a.tail [] (acc ++ [d]) (by omega) h

/-- A successful `midpoint` is at most one digit longer than the longer of
its two arguments. -/
theorem midpoint_length {ks : KeySet} (hw : WF ks) (a b m : List Nat)
    (h : midpoint ks a b = .ok m) : m.length ≤ max a.length b.length + 1 := by
  obtain ⟨z, hz⟩ := zero_digit hw
  have hle := midpointPrefixLoop_le z a b
  have hlen : (b.take (midpointPrefixLoop z a b)).length = midpointPrefixLoop z a b := by
    rw [List.length_take]
    omega
  have ha1 : (if midpointPrefixLoop z a b > 0 then
      (if midpointPrefixLoop z a b < a.length then a.drop (midpointPrefixLoop z a b) else [])
      else a) = a.drop (midpointPrefixLoop z a b) := by
    split_ifs with h1 h2
    · rfl
    · exact (List.drop_eq_nil_of_le (by omega)).symm
    · have : midpointPrefixLoop z a b = 0 := by omega
      rw [this]
      rfl
  have hb1 : (if midpointPrefixLoop z a b > 0 then b.drop (midpointPrefixLoop z a b) else b) =
      b.drop (midpointPrefixLoop z a b) := by
    split_ifs with h1
    · rfl
    · have : midpointPrefixLoop z a b = 0 := by omega
      rw [this]
      rfl
  unfold midpoint at h
  split_ifs at h with hg
  rw [midpointPrefix_eq z hz] at h
  simp only [bind, Except.bind, hlen, ha1, hb1] at h
  obtain ⟨s, hs, hl⟩ := midpointSuffix_total hw (a.drop (midpointPrefixLoop z a b))
    (b.drop (midpointPrefixLoop z a b)) ((a.drop (midpointPrefixLoop z a b)).length + 2)
    (le_refl _) []
  rw [hs] at h
  simp only [List.nil_append, pure, Except.pure] at h
  rw [← Except.ok.inj h]
  simp only [List.length_append, hlen, List.length_drop] at hl ⊢
  omega

/-- A successful `incrementInteger` on a valid key lengthens its value by at
most one byte. -/
theorem incrementInteger_length {ks : KeySet} (hw : WF ks) (v v1 : parsedKey)
    (hv : Valid ks v) (h : incrementInteger ks v = .ok v1) :
    v1.Value.length ≤ v.Value.length + 1 := by
  obtain ⟨z, hz⟩ := zero_digit hw
  obtain ⟨mx, hmx⟩ := max_digit hw
  obtain ⟨i, hi, hlen⟩ := hv.sigil_ok
  have hge := bandWidth_ge (ks.sigils.length / 2) (i + 1)
  have hsucc := bandWidth_succ (ks.sigils.length / 2) i
  rcases incrementInteger_spec hw z mx hz hmx v i hi hlen hv.integer_ok with
    ⟨_, int1, hres, hl1, _⟩ | ⟨_, _, hres⟩ | ⟨_, s1, _, hres⟩
  · rw [hres] at h
    rw [← Except.ok.inj h]
    simp only [parsedKey.Value, List.length_cons, List.length_append, hl1]
    omega
  · rw [hres] at h
    simp at h
  · rw [hres] at h
    rw [← Except.ok.inj h]
    simp only [parsedKey.Value, List.length_cons, List.length_append, List.length_replicate]
    omega

/-- A successful `decrementInteger` on a valid key lengthens its value by at
most one byte. -/
theorem decrementInteger_length {ks : KeySet} (hw : WF ks) (v v1 : parsedKey)
    (hv : Valid ks v) (h : decrementInteger ks v = .ok v1) :
    v1.Value.length ≤ v.Value.length + 1 := by
  obtain ⟨z, hz⟩ := zero_digit hw
  obtain ⟨mx, hmx⟩ := max_digit hw
  obtain ⟨i, hi, hlen⟩ := hv.sigil_ok
  rcases decrementInteger_spec hw z mx hz hmx v i hi hlen hv.integer_ok with
    ⟨_, int1, hres, hl1, _⟩ | ⟨_, _, hres⟩ | ⟨_, j, s1, hj, _, hres⟩
  · rw [hres] at h
    rw [← Except.ok.inj h]
    simp only [parsedKey.Value, List.length_cons, List.length_append, hl1]
    omega
  · rw [hres] at h
    simp at h
  · rw [hres] at h
    rw [← Except.ok.inj h]
    have hge := bandWidth_ge (ks.sigils.length / 2) j
    have hsucc := bandWidth_succ (ks.sigils.length / 2) j
    rw [← hj] at hsucc
    simp only [parsedKey.Value, List.length_cons, List.length_append, List.length_replicate]
    omega

/-- On a well-formed `KeySet`, a key returned by `Between` for two keys that
are not both empty is at most one byte longer than the longer of the two. -/
theorem Between_length_wf {ks : KeySet} (hw : WF ks) (a b r : List Nat)
    (hne : ¬ (a = [] ∧ b = [])) (h : Between ks a b = (r, none)) :
    r.length ≤ max a.length b.length + 1 := by
  unfold Between at h
  by_cases ha : a = []
  · have hb : b ≠ [] := fun hb => hne ⟨ha, hb⟩
    rw [if_pos ha, if_neg hb] at h
    cases hpb : parse ks b with
    | error e =>
      rw [hpb] at h
      simp at h
    | ok pb =>
      rw [hpb] at h
      simp only at h
      obtain ⟨hbe, hvb⟩ := (parse_ok_iff hw b pb).1 hpb
      have hbl : b.length = 1 + (pb.integer.length + pb.fraction.length) := by
        rw [hbe]
        simp only [parsedKey.Value, List.length_cons, List.length_append]
        omega
      split_ifs at h with hsm hfr
      · cases hm : midpoint ks [] pb.fraction with
        | error e =>
          rw [hm] at h
          simp at h
        | ok m =>
          rw [hm] at h
          have hml := midpoint_length hw _ _ m hm
          rw [← (Prod.mk.inj h).1]
          simp only [parsedKey.Value, List.length_cons, List.length_append,
            List.length_nil] at hml ⊢
          omega
      · rw [← (Prod.mk.inj h).1]
        simp only [parsedKey.Value, List.length_cons, List.length_append, List.length_nil]
        omega
      · cases hd : decrementInteger ks pb with
        | error e =>
          rw [hd] at h
          simp at h
        | ok pb1 =>
          rw [hd] at h
          have hdl := decrementInteger_length hw pb pb1 hvb hd
          rw [← (Prod.mk.inj h).1]
          rw [← hbe] at hdl
          omega
  · rw [if_neg ha] at h
    by_cases hb : b = []
    · rw [if_pos hb] at h
      cases hpa : parse ks a with
      | error e =>
        rw [hpa] at h
        simp at h
      | ok pa =>
        rw [hpa] at h
        simp only at h
        obtain ⟨hae, hva⟩ := (parse_ok_iff hw a pa).1 hpa
        cases hi : incrementInteger ks pa with
        | error e =>
          rw [hi] at h
          simp at h
        | ok pa1 =>
          rw [hi] at h
          have hil := incrementInteger_length hw pa pa1 hva hi
          rw [← (Prod.mk.inj h).1]
          rw [← hae] at hil
          omega
    · rw [if_neg hb] at h
      cases hpa : parse ks a with
      | error e =>
        rw [hpa] at h
        simp at h
      | ok pa =>
        rw [hpa] at h
        simp only at h
        obtain ⟨hae, hva⟩ := (parse_ok_iff hw a pa).1 hpa
        have hal : a.length = 1 + (pa.integer.length + pa.fraction.length) := by
          rw [hae]
          simp only [parsedKey.Value, List.length_cons, List.length_append]
          omega
        cases hpb : parse ks b with
        | error e =>
          rw [hpb] at h
          simp at h
        | ok pb =>
          rw [hpb] at h
          simp only at h
          obtain ⟨hbe, hvb⟩ := (parse_ok_iff hw b pb).1 hpb
          have hbl : b.length = 1 + (pb.integer.length + pb.fraction.length) := by
            rw [hbe]
            simp only [parsedKey.Value, List.length_cons, List.length_append]
            omega
          split_ifs at h with hsame
          · cases hm : midpoint ks pa.fraction pb.fraction with
            | error e =>
              rw [hm] at h
              simp at h
            | ok m =>
              rw [hm] at h
              have hml := midpoint_length hw _ _ m hm
              have hil : pa.integer.length = pb.integer.length := by rw [hsame.2]
              rw [← (Prod.mk.inj h).1]
              simp only [parsedKey.Value, List.length_cons, List.length_append]
              omega
          · cases hi : incrementInteger ks pa.integerOnly with
            | error e =>
              rw [hi] at h
              simp at h
            | ok ai =>
              rw [hi] at h
              simp only at h
              have hil := incrementInteger_length hw _ ai (valid_integerOnly hva) hi
              simp only [parsedKey.integerOnly, parsedKey.Value, List.length_cons,
                List.length_append, List.length_nil] at hil
              split_ifs at h with hcmp
              · rw [← (Prod.mk.inj h).1]
                simp only [parsedKey.Value, List.length_cons, List.length_append] at hil ⊢
                omega
              · cases hm : midpoint ks pa.fraction [] with
                | error e =>
                  obtain ⟨z, hz⟩ := zero_digit hw
                  obtain ⟨m, hm1, _⟩ := midpoint_open hw z hz pa.fraction hva.fraction_ok
                  rw [hm1] at hm
                  simp at hm
                | ok m =>
                  rw [hm] at h
                  have hml := midpoint_length hw _ _ m hm
                  rw [← (Prod.mk.inj h).1]
                  simp only [parsedKey.Value, List.length_cons, List.length_append,
                    List.length_nil] at hml ⊢
                  omega

/-- C20: for every KeySet and keys a, b not both empty, if Between(a, b)
returns r without error then len(r) <= max(len(a), len(b)) + 1; and the
midpointSuffix loop terminates on every input, within len(a) + 2
iterations. -/
theorem Between_grows_by_one (sigils digits : String) (ks : KeySet)
    (hks : NewKeySet sigils digits = .ok ks) :
    (∀ a b r, ¬ (a = [] ∧ b = []) → Between ks a b = (r, none) →
      r.length ≤ max a.length b.length + 1) ∧
    (∀ a b acc fuel, a.length + 2 ≤ fuel →
      ∃ s, midpointSuffix ks fuel a b acc = .ok (acc ++ s) ∧
        midpointSuffix ks fuel a b acc = midpointSuffix ks (a.length + 2) a b acc) := by
  have hw := (NewKeySet_wf hks).1
  refine ⟨fun a b r hne h => Between_length_wf hw a b r hne h, ?_⟩
  intro a b acc fuel hf
  obtain ⟨s, hs, _⟩ := midpointSuffix_total hw a b fuel hf acc
  obtain ⟨s1, hs1, _⟩ := midpointSuffix_total hw a b (a.length + 2) (le_refl _) acc
  refine ⟨s, hs, ?_⟩
  rw [midpointSuffix_fuel_mono ks (a.length + 2) fuel a b acc _ hf hs1, hs1]

/-- C20 at sigils `ABab`, digits `0123456789`: Between("a05", "a06") is
`a055`, one byte longer than both keys. -/
theorem Between_grows_by_one_witness :
    NewKeySet "ABab" "0123456789" = .ok ksAlnum ∧
    Between ksAlnum (key "a05") (key "a06") = (key "a055", none) ∧
    ((∀ a b r, ¬ (a = [] ∧ b = []) → Between ksAlnum a b = (r, none) →
      r.length ≤ max a.length b.length + 1) ∧
    (∀ a b acc fuel, a.length + 2 ≤ fuel →
      ∃ s, midpointSuffix ksAlnum fuel a b acc = .ok (acc ++ s) ∧
        midpointSuffix ksAlnum fuel a b acc =
          midpointSuffix ksAlnum (a.length + 2) a b acc)) :=
  ⟨rfl, rfl, Between_grows_by_one "ABab" "0123456789" ksAlnum rfl⟩

theorem paddedCompare_nil_right (ks : KeySet) (a : List Nat) :
    0 ≤ paddedCompare ks a [] := by
  cases a with
  | nil => simp [paddedCompare, allSmallest]
  | cons x xs =>
    rw [paddedCompare]
    split_ifs <;> decide

theorem paddedCompare_nil_left (ks : KeySet) (b : List Nat) :
    paddedCompare ks [] b ≤ 0 := by
  rw [paddedCompare]
  split_ifs <;> decide

theorem digit_of_index_zero {ks : KeySet} (hw : WF ks) {z x : Nat}
    (hz : ks.digits[0]? = some z) (hx : x ∈ ks.digits) (h0 : ¬ 0 < mapGet ks.digitsIdx x) :
    x = z := by
  obtain ⟨i, hi, _⟩ := digit_index hx
  rw [mapGet_digit hw hi] at h0
  exact (digit_eq_iff hw hi hz).2 (by omega)

theorem digit_eq_of_index_eq {ks : KeySet} (hw : WF ks) {x y : Nat}
    (hx : x ∈ ks.digits) (hy : y ∈ ks.digits)
    (h : mapGet ks.digitsIdx x = mapGet ks.digitsIdx y) : x = y := by
  obtain ⟨i, hi, _⟩ := digit_index hx
  obtain ⟨j, hj, _⟩ := digit_index hy
  rw [mapGet_digit hw hi, mapGet_digit hw hj] at h
  exact (digit_eq_iff hw hi hj).2 h

theorem digit_lt_iff_index {ks : KeySet} (hw : WF ks) {x y : Nat}
    (hx : x ∈ ks.digits) (hy : y ∈ ks.digits) :
    x < y ↔ mapGet ks.digitsIdx x < mapGet ks.digitsIdx y := by
  obtain ⟨i, hi, _⟩ := digit_index hx
  obtain ⟨j, hj, _⟩ := digit_index hy
  rw [mapGet_digit hw hi, mapGet_digit hw hj]
  exact digit_lt_iff hw hi hj

/-- Below a sequence that does not end in the smallest digit, the empty
sequence is strictly smaller in the padded order. -/
theorem paddedCompare_nil_canonical {ks : KeySet} (hw : WF ks) (z : Nat)
    (hz : ks.digits[0]? = some z) (b : List Nat) (hb : ∀ x ∈ b, x ∈ ks.digits)
    (hne : b ≠ []) (hlast : b.getLast? ≠ some z) : paddedCompare ks [] b = -1 := by
  rw [paddedCompare]
  split_ifs with h
  · exfalso
    have hl := List.getLast?_eq_getLast b hne
    have hmem : b.getLast hne ∈ b := List.getLast_mem hne
    have h0 : mapGet ks.digitsIdx (b.getLast hne) = 0 := by
      have := List.all_eq_true.1 h _ hmem
      simpa using this
    have hz0 : b.getLast hne = z :=
      digit_of_index_zero hw hz (hb _ hmem) (by omega)
    apply hlast
    rw [hl, hz0]
  · rfl

/-- On configured digits, smaller in the padded order means smaller in byte
order. -/
theorem lt_of_paddedCompare_neg {ks : KeySet} (hw : WF ks) (a b : List Nat)
    (ha : ∀ x ∈ a, x ∈ ks.digits) (hb : ∀ x ∈ b, x ∈ ks.digits)
    (h : paddedCompare ks a b < 0) : a < b := by
  induction a generalizing b with
  | nil =>
    cases b with
    | nil => simp [paddedCompare, allSmallest] at h
    | cons y ys => exact List.nil_lt_cons _ _
  | cons x xs ih =>
    cases b with
    | nil =>
      have := paddedCompare_nil_right ks (x :: xs)
      omega
    | cons y ys =>
      have hx := ha x (List.mem_cons_self _ _)
      have hy := hb y (List.mem_cons_self _ _)
      rw [paddedCompare] at h
      rw [cons_lt_cons_iff]
      split_ifs at h with h1 h2
      · exact Or.inl ((digit_lt_iff_index hw hx hy).2 h1)
      · omega
      · refine Or.inr ⟨digit_eq_of_index_eq hw hx hy (by omega), ?_⟩
        exact ih ys (fun e he => ha e (List.mem_cons_of_mem _ he))
          (fun e he => hb e (List.mem_cons_of_mem _ he)) h

/-- Below a sequence of configured digits that does not end in the smallest
digit, smaller in byte order means smaller in the padded order. -/
theorem paddedCompare_neg_of_lt {ks : KeySet} (hw : WF ks) (z : Nat)
    (hz : ks.digits[0]? = some z) (a b : List Nat)
    (ha : ∀ x ∈ a, x ∈ ks.digits) (hb : ∀ x ∈ b, x ∈ ks.digits)
    (hlast : b.getLast? ≠ some z) (h : a < b) : paddedCompare ks a b < 0 := by
  induction a generalizing b with
  | nil =>
    rw [paddedCompare_nil_canonical hw z hz b hb (ne_nil_of_lt h) hlast]
    decide
  | cons x xs ih =>
    cases b with
    | nil => exact absurd h (not_lt_nil _)
    | cons y ys =>
      have hx := ha x (List.mem_cons_self _ _)
      have hy := hb y (List.mem_cons_self _ _)
      rw [paddedCompare]
      rcases (cons_lt_cons_iff x y xs ys).1 h with h1 | ⟨h1, h2⟩
      · rw [if_pos ((digit_lt_iff_index hw hx hy).1 h1)]
        decide
      · subst h1
        rw [if_neg (lt_irrefl _), if_neg (lt_irrefl _)]
        have hys := ne_nil_of_lt h2
        apply ih ys (fun e he => ha e (List.mem_cons_of_mem _ he))
          (fun e he => hb e (List.mem_cons_of_mem _ he)) _ h2
        rw [← getLast?_cons_of_ne_nil x ys hys]
        exact hlast

theorem canonical_of_head {ks : KeySet} (z : Nat) (hz : ks.digits[0]? = some z)
    (l : List Nat) (h : l.getLast? ≠ ks.digits.head?) : l.getLast? ≠ some z := by
  rw [head?_eq_index, hz] at h
  exact h

/-- C12: for every KeySet and all sequences a, b of configured digits, with
the upper bound b not ending in the smallest digit, and with b empty or
a < b: midpoint(a, b) returns no error and its result m satisfies a < m and,
when b is non-empty, m < b, where sequences are compared by digit index after
right-padding the shorter one with the smallest digit. -/
theorem midpoint_between_padded (sigils digits : String) (ks : KeySet)
    (hks : NewKeySet sigils digits = .ok ks) (a b : List Nat)
    (ha : ∀ x ∈ a, x ∈ ks.digits) (hb : ∀ x ∈ b, x ∈ ks.digits)
    (hcb : b.getLast? ≠ ks.digits.head?)
    (hab : b = [] ∨ paddedCompare ks a b < 0) :
    ∃ m, midpoint ks a b = .ok m ∧ paddedCompare ks a m < 0 ∧
      (b ≠ [] → paddedCompare ks m b < 0) := by
  have hw := (NewKeySet_wf hks).1
  obtain ⟨z, hz⟩ := zero_digit hw
  have hlb := canonical_of_head z hz b hcb
  have hab1 : b = [] ∨ a < b := by
    rcases hab with h | h
    · exact Or.inl h
    · exact Or.inr (lt_of_paddedCompare_neg hw a b ha hb h)
  obtain ⟨m, hm, h1, h2, hdm, hlm⟩ := midpoint_spec hw z hz a b ha hb hlb hab1
  exact ⟨m, hm, paddedCompare_neg_of_lt hw z hz a m ha hdm hlm h1,
    fun hne => paddedCompare_neg_of_lt hw z hz m b hdm hb hlb (h2 hne)⟩

/-- C12 at digits `0123456789`, between `499` and `5`, where `TestMidpoint`
expects `4995`. -/
theorem midpoint_between_padded_witness :
    NewKeySet "" "0123456789" = .ok ksDecimal ∧
    (∀ x ∈ key "499", x ∈ ksDecimal.digits) ∧ (∀ x ∈ key "5", x ∈ ksDecimal.digits) ∧
    (key "5").getLast? ≠ ksDecimal.digits.head? ∧
    (key "5" = [] ∨ paddedCompare ksDecimal (key "499") (key "5") < 0) ∧
    midpoint ksDecimal (key "499") (key "5") = .ok (key "4995") ∧
    ∃ m, midpoint ksDecimal (key "499") (key "5") = .ok m ∧
      paddedCompare ksDecimal (key "499") m < 0 ∧
      (key "5" ≠ [] → paddedCompare ksDecimal m (key "5") < 0) :=
  ⟨rfl, by decide, by decide, by decide, Or.inr (by decide), rfl,
    midpoint_between_padded "" "0123456789" ksDecimal rfl (key "499") (key "5") (by decide)
      (by decide) (by decide) (Or.inr (by decide))⟩

/-- C14 as stated fails: with digits `0123456789`, `1` and `10` are equal in
the padded order, and midpoint("1", "10") returns `105` without error. -/
theorem midpoint_padded_equal_example :
    NewKeySet "" "0123456789" = .ok ksDecimal ∧
    (∀ x ∈ key "1", x ∈ ksDecimal.digits) ∧ (∀ x ∈ key "10", x ∈ ksDecimal.digits) ∧
    key "10" ≠ [] ∧
    paddedCompare ksDecimal (key "1") (key "10") = 0 ∧
    midpoint ksDecimal (key "1") (key "10") = .ok (key "105") :=
  ⟨rfl, by decide, by decide, by decide, by decide, rfl⟩

/-- When the guard of `midpoint` passes, `midpoint` returns a result. -/
theorem midpoint_ok_of_lt {ks : KeySet} (hw : WF ks) (a b : List Nat)
    (hab : b = [] ∨ a < b) : ∃ m, midpoint ks a b = .ok m := by
  obtain ⟨z, hz⟩ := zero_digit hw
  have hguard : ¬ (b.length > 0 ∧ bytesCompare a b ≥ 0) := by
    rintro ⟨h1, h2⟩
    rcases hab with h | h
    · subst h; simp at h1
    · exact (bytesCompare_nonneg_iff a b).1 h2 h
  unfold midpoint
  rw [if_neg hguard, midpointPrefix_eq z hz]
  simp only [bind, Except.bind]
  obtain ⟨s, hs, _⟩ := midpointSuffix_total hw
    (if (List.take (midpointPrefixLoop z a b) b).length > 0 then
      if (List.take (midpointPrefixLoop z a b) b).length < a.length then
        List.drop (List.take (midpointPrefixLoop z a b) b).length a
      else []
    else a)
    (if (List.take (midpointPrefixLoop z a b) b).length > 0 then
      List.drop (List.take (midpointPrefixLoop z a b) b).length b
    else b) _ (le_refl _) []
  rw [hs]
  exact ⟨_, rfl⟩

/-- On configured digits, `a` below `b` in byte order is below `b` in the
padded order, unless `b` is `a` followed by one or more smallest digits. -/
theorem paddedCompare_neg_or_zero_tail {ks : KeySet} (hw : WF ks) (z : Nat)
    (hz : ks.digits[0]? = some z) (a b : List Nat)
    (ha : ∀ x ∈ a, x ∈ ks.digits) (hb : ∀ x ∈ b, x ∈ ks.digits) (h : a < b) :
    paddedCompare ks a b < 0 ∨ ∃ c, c ≠ [] ∧ (∀ x ∈ c, x = z) ∧ b = a ++ c := by
  induction a generalizing b with
  | nil =>
    by_cases hall : allSmallest ks b = true
    · right
      refine ⟨b, ne_nil_of_lt h, fun x hx => ?_, rfl⟩
      have h0 := List.all_eq_true.1 hall x hx
      exact digit_of_index_zero hw hz (hb x hx) (by simpa using h0)
    · left
      rw [paddedCompare, if_neg hall]
      decide
  | cons x xs ih =>
    cases b with
    | nil => exact absurd h (not_lt_nil _)
    | cons y ys =>
      rw [paddedCompare]
      rcases (cons_lt_cons_iff x y xs ys).1 h with h1 | ⟨h1, h2⟩
      · left
        by_cases hlt : mapGet ks.digitsIdx x < mapGet ks.digitsIdx y
        · rw [if_pos hlt]
          decide
        · exact absurd ((digit_lt_iff_index hw (ha x (List.mem_cons_self _ _))
            (hb y (List.mem_cons_self _ _))).1 h1) hlt
      · subst h1
        rw [if_neg (lt_irrefl _), if_neg (lt_irrefl _)]
        rcases ih ys (fun e he => ha e (List.mem_cons_of_mem _ he))
          (fun e he => hb e (List.mem_cons_of_mem _ he)) h2 with h3 | ⟨c, hc, hz1, hbc⟩
        · exact Or.inl h3
        · exact Or.inr ⟨c, hc, hz1, by rw [hbc]; rfl⟩

/-- C14 amended: for every KeySet and all sequences a, b of configured digits
with b non-empty: if a >= b in the padded order, then midpoint(a, b) returns
the error for misordered arguments, unless b is a followed by one or more
smallest digits; in that case midpoint(a, b) returns a result without
error. -/
theorem midpoint_rejects_misordered (sigils digits : String) (ks : KeySet)
    (hks : NewKeySet sigils digits = .ok ks) (a b : List Nat)
    (ha : ∀ x ∈ a, x ∈ ks.digits) (hb : ∀ x ∈ b, x ∈ ks.digits) (hne : b ≠ [])
    (hab : 0 ≤ paddedCompare ks a b) :
    ((¬ ∃ c, c ≠ [] ∧ (∀ x ∈ c, ks.digits.head? = some x) ∧ b = a ++ c) →
      midpoint ks a b = .error .misordered) ∧
    ((∃ c, c ≠ [] ∧ (∀ x ∈ c, ks.digits.head? = some x) ∧ b = a ++ c) →
      ∃ m, midpoint ks a b = .ok m) := by
  have hw := (NewKeySet_wf hks).1
  obtain ⟨z, hz⟩ := zero_digit hw
  have hhead : ks.digits.head? = some z := by
    rw [List.head?_eq_getElem?]
    exact hz
  constructor
  · intro hfam
    apply midpoint_misordered ks a b hne
    intro hlt
    rcases paddedCompare_neg_or_zero_tail hw z hz a b ha hb hlt with h | ⟨c, hc, hcz, hbc⟩
    · omega
    · refine hfam ⟨c, hc, fun x hx => ?_, hbc⟩
      rw [hhead, hcz x hx]
  · rintro ⟨c, hc, _, hbc⟩
    exact midpoint_ok_of_lt hw a b (Or.inr (hbc ▸ lt_append_of_ne_nil a c hc))

/-- C14 amended, at digits `0123456789`: `3` is above `20` in the padded
order, `20` ends in the smallest digit and is not `3` followed by smallest
digits, and midpoint("3", "20") returns the error. -/
theorem midpoint_rejects_misordered_witness :
    NewKeySet "" "0123456789" = .ok ksDecimal ∧
    (∀ x ∈ key "3", x ∈ ksDecimal.digits) ∧ (∀ x ∈ key "20", x ∈ ksDecimal.digits) ∧
    key "20" ≠ [] ∧ (key "20").getLast? = ksDecimal.digits.head? ∧
    0 ≤ paddedCompare ksDecimal (key "3") (key "20") ∧
    midpoint ksDecimal (key "3") (key "20") = .error .misordered ∧
    (((¬ ∃ c, c ≠ [] ∧ (∀ x ∈ c, ksDecimal.digits.head? = some x) ∧
          key "20" = key "3" ++ c) →
        midpoint ksDecimal (key "3") (key "20") = .error .misordered) ∧
      ((∃ c, c ≠ [] ∧ (∀ x ∈ c, ksDecimal.digits.head? = some x) ∧
          key "20" = key "3" ++ c) →
        ∃ m, midpoint ksDecimal (key "3") (key "20") = .ok m)) :=
  ⟨rfl, by decide, by decide, by decide, by decide, by decide, rfl,
    midpoint_rejects_misordered "" "0123456789" ksDecimal rfl (key "3") (key "20")
      (by decide) (by decide) (by decide) (by decide)⟩

theorem not_paddedCompare_neg_nil (ks : KeySet) (a : List Nat) :
    ¬ paddedCompare ks a [] < 0 := by
  have := paddedCompare_nil_right ks a
  omega

theorem allSmallest_cons (ks : KeySet) (c : Nat) (t : List Nat) :
    allSmallest ks (c :: t) = true ↔ mapGet ks.digitsIdx c = 0 ∧ allSmallest ks t = true := by
  simp [allSmallest]

theorem paddedCompare_nil_neg_iff (ks : KeySet) (t : List Nat) :
    paddedCompare ks [] t < 0 ↔ ¬ allSmallest ks t = true := by
  rw [paddedCompare]
  split_ifs with h
  · simp [h]
  · simp [h]

/-- What `a` below `c :: t` in the padded order says about the first digit
of the padded `a` and about the rest. -/
theorem paddedCompare_neg_cons_right (ks : KeySet) (a : List Nat) (c : Nat) (t : List Nat)
    (h : paddedCompare ks a (c :: t) < 0) :
    (a.head?.map (mapGet ks.digitsIdx)).getD 0 ≤ mapGet ks.digitsIdx c ∧
      ((a.head?.map (mapGet ks.digitsIdx)).getD 0 = mapGet ks.digitsIdx c →
        paddedCompare ks a.tail t < 0) := by
  cases a with
  | nil =>
    simp only [List.head?_nil, Option.map_none', Option.getD_none, List.tail_nil]
    refine ⟨Nat.zero_le _, fun h0 => ?_⟩
    rw [paddedCompare_nil_neg_iff] at h ⊢
    intro hall
    exact h ((allSmallest_cons ks c t).2 ⟨h0.symm, hall⟩)
  | cons x xs =>
    simp only [List.head?_cons, Option.map_some', Option.getD_some, List.tail_cons]
    rw [paddedCompare] at h
    split_ifs at h with h1 h2
    · exact ⟨by omega, fun h0 => by omega⟩
    · omega
    · exact ⟨by omega, fun _ => h⟩

/-- What `c :: t` below `y :: ys` in the padded order says about the first
digits and about the rest. -/
theorem paddedCompare_neg_cons_cons (ks : KeySet) (c y : Nat) (t ys : List Nat)
    (h : paddedCompare ks (c :: t) (y :: ys) < 0) :
    mapGet ks.digitsIdx c ≤ mapGet ks.digitsIdx y ∧
      (mapGet ks.digitsIdx c = mapGet ks.digitsIdx y → paddedCompare ks t ys < 0) := by
  rw [paddedCompare] at h
  split_ifs at h with h1 h2
  · exact ⟨by omega, fun h0 => by omega⟩
  · omega
  · exact ⟨by omega, fun _ => h⟩

/-- With no upper bound, the suffix loop returns a sequence that is no
longer than any sequence above `a` in the padded order. -/
theorem midpointSuffix_nil_shortest {ks : KeySet} (hw : WF ks) (a : List Nat)
    (fuel : Nat) (hf : a.length + 1 ≤ fuel) (acc : List Nat) :
    ∃ s, midpointSuffix ks fuel a [] acc = .ok (acc ++ s) ∧
      ∀ t, paddedCompare ks a t < 0 → s.length ≤ t.length := by
  have hN := hw.digits_len
  induction a generalizing fuel acc with
  | nil =>
    obtain ⟨s, hs, hl⟩ := midpointSuffix_nil_total hw [] fuel hf acc
    refine ⟨s, hs, fun t ht => ?_⟩
    cases t with
    | nil => exact absurd ht (not_paddedCompare_neg_nil ks _)
    | cons c t1 =>
      simp only [List.length_nil, List.length_cons] at hl ⊢
      omega
  | cons x xs ih =>
    obtain ⟨f, rfl⟩ : ∃ f, fuel = f + 1 := ⟨fuel - 1, by omega⟩
    have hlt := mapGet_digitsIdx_lt hw x
    rw [midpointSuffix_unfold]
    simp only [List.head?_cons, List.head?_nil, Option.map_some', Option.map_none',
      Option.getD_some, Option.getD_none, List.length_nil, List.tail_cons]
    by_cases hroom : (ks.digits.length : Int) - (mapGet ks.digitsIdx x : Int) > 1
    · have hb := roundHalf_bounds (mapGet ks.digitsIdx x) ks.digits.length (by omega)
      obtain ⟨d, hd, _⟩ := digit_at hb.2
      refine ⟨[d], ?_, fun t ht => ?_⟩
      · rw [if_pos hroom, index_natCast _ _ d hd]
        rfl
      · cases t with
        | nil => exact absurd ht (not_paddedCompare_neg_nil ks _)
        | cons c t1 => simp
    · obtain ⟨d, hd, _⟩ := digit_at hlt
      obtain ⟨s, hs, hmin⟩ := ih f (by simp only [List.length_cons] at hf; omega) (acc ++ [d])
      refine ⟨d :: s, ?_, fun t ht => ?_⟩
      · rw [if_neg hroom, if_neg (by omega), index_natCast _ _ d hd]
        simp only [Except.bind]
        rw [hs]
        simp
      · cases t with
        | nil => exact absurd ht (not_paddedCompare_neg_nil ks _)
        | cons c t1 =>
          have hc := mapGet_digitsIdx_lt hw c
          obtain ⟨h1, h2⟩ := paddedCompare_neg_cons_cons ks x c xs t1 ht
          have := hmin t1 (h2 (by omega))
          simp only [List.length_cons]
          omega

/-- The suffix loop returns a sequence that is no longer than any sequence
strictly between `a` and `b` in the padded order (`b` empty: no upper
bound). -/
theorem midpointSuffix_shortest {ks : KeySet} (hw : WF ks) (a b : List Nat)
    (fuel : Nat) (hf : a.length + 2 ≤ fuel) :
    ∃ s, midpointSuffix ks fuel a b [] = .ok s ∧
      ∀ t, paddedCompare ks a t < 0 → (b ≠ [] → paddedCompare ks t b < 0) →
        s.length ≤ t.length := by
  have hN := hw.digits_len
  obtain ⟨f, rfl⟩ : ∃ f, fuel = f + 1 := ⟨fuel - 1, by omega⟩
  have hA := digitA_lt hw a
  have hB := digitB_le hw b
  rw [midpointSuffix_unfold]
  have hone : ∀ t : List Nat, paddedCompare ks a t < 0 → 1 ≤ t.length := by
    intro t ht
    cases t with
    | nil => exact absurd ht (not_paddedCompare_neg_nil ks _)
    | cons c t1 => simp
  by_cases hroom : (((b.head?.map (mapGet ks.digitsIdx)).getD ks.digits.length : Nat) : Int) -
      (((a.head?.map (mapGet ks.digitsIdx)).getD 0 : Nat) : Int) > 1
  · have hb := roundHalf_bounds ((a.head?.map (mapGet ks.digitsIdx)).getD 0)
      ((b.head?.map (mapGet ks.digitsIdx)).getD ks.digits.length) (by omega)
    obtain ⟨d, hd, _⟩ := digit_at (lt_of_lt_of_le hb.2 hB)
    refine ⟨[d], ?_, fun t ht _ => hone t ht⟩
    rw [if_pos hroom, index_natCast _ _ d hd]
    rfl
  · rw [if_neg hroom]
    by_cases hlen : 1 < b.length
    · rw [if_pos hlen]
      exact ⟨[b.headD 0], rfl, fun t ht _ => hone t ht⟩
    · rw [if_neg hlen]
      obtain ⟨d, hd, _⟩ := digit_at hA
      obtain ⟨s, hs, hmin⟩ := midpointSuffix_nil_shortest hw a.tail f
        (by simp only [List.length_tail]; omega) ([] ++ [d])
      refine ⟨d :: s, ?_, fun t ht htb => ?_⟩
      · rw [index_natCast _ _ d hd]
        simp only [Except.bind]
        rw [hs]
        simp
      · cases t with
        | nil => exact absurd ht (not_paddedCompare_neg_nil ks _)
        | cons c t1 =>
          have hc := mapGet_digitsIdx_lt hw c
          obtain ⟨h1, h2⟩ := paddedCompare_neg_cons_right ks a c t1 ht
          have heq : (a.head?.map (mapGet ks.digitsIdx)).getD 0 = mapGet ks.digitsIdx c := by
            cases b with
            | nil =>
              simp only [List.head?_nil, Option.map_none', Option.getD_none] at hroom
              omega
            | cons y ys =>
              have hys : ys = [] := by
                cases ys with
                | nil => rfl
                | cons y1 ys1 =>
                  simp only [List.length_cons] at hlen
                  omega
              subst hys
              simp only [List.head?_cons, Option.map_some', Option.getD_some] at hroom
              obtain ⟨h3, h4⟩ := paddedCompare_neg_cons_cons ks c y t1 [] (htb (by simp))
              by_cases hcy : mapGet ks.digitsIdx c = mapGet ks.digitsIdx y
              · exact absurd (h4 hcy) (not_paddedCompare_neg_nil ks _)
              · omega
          have := hmin t1 (h2 heq)
          simp only [List.length_cons]
          omega

/-- A sequence strictly between `a` and `b` in the padded order starts with
their common prefix, and what follows is strictly between what is left of
`a` and of `b`. -/
theorem between_common_prefix {ks : KeySet} (hw : WF ks) (z : Nat)
    (hz : ks.digits[0]? = some z) (a b s : List Nat)
    (ha : ∀ x ∈ a, x ∈ ks.digits) (hb : ∀ x ∈ b, x ∈ ks.digits)
    (hs : ∀ x ∈ s, x ∈ ks.digits)
    (h1 : paddedCompare ks a s < 0) (h2 : paddedCompare ks s b < 0) :
    ∃ t, s = b.take (midpointPrefixLoop z a b) ++ t ∧
      paddedCompare ks (a.drop (midpointPrefixLoop z a b)) t < 0 ∧
      paddedCompare ks t (b.drop (midpointPrefixLoop z a b)) < 0 := by
  have hz0 : mapGet ks.digitsIdx z = 0 := mapGet_digit hw hz
  induction b generalizing a s with
  | nil => exact absurd h2 (not_paddedCompare_neg_nil ks _)
  | cons y ys ih =>
    have hy := hb y (List.mem_cons_self _ _)
    have hys : ∀ x ∈ ys, x ∈ ks.digits := fun x hx => hb x (List.mem_cons_of_mem _ hx)
    cases s with
    | nil => exact absurd h1 (not_paddedCompare_neg_nil ks _)
    | cons c t0 =>
      have hc := hs c (List.mem_cons_self _ _)
      have ht0 : ∀ x ∈ t0, x ∈ ks.digits := fun x hx => hs x (List.mem_cons_of_mem _ hx)
      obtain ⟨h3, h4⟩ := paddedCompare_neg_cons_right ks a c t0 h1
      obtain ⟨h5, h6⟩ := paddedCompare_neg_cons_cons ks c y t0 ys h2
      cases a with
      | nil =>
        rw [midpointPrefixLoop]
        split_ifs with hzy
        · exact ⟨c :: t0, rfl, h1, h2⟩
        · have hzy1 : z = y := by simpa using hzy
          simp only [List.head?_nil, Option.map_none', Option.getD_none, List.tail_nil] at h3 h4
          have hcy : mapGet ks.digitsIdx c = mapGet ks.digitsIdx y := by
            rw [← hzy1, hz0] at h5 ⊢
            omega
          have hc0 : 0 = mapGet ks.digitsIdx c := by rw [hcy, ← hzy1, hz0]
          obtain ⟨t, ht, ht1, ht2⟩ := ih [] t0 (by simp) hys ht0 (h4 hc0) (h6 hcy)
          refine ⟨t, ?_, ?_, ?_⟩
          · rw [List.take_succ_cons, List.cons_append, ← ht,
              digit_eq_of_index_eq hw hc hy hcy]
          · simpa using ht1
          · simpa using ht2
      | cons x xs =>
        have hx := ha x (List.mem_cons_self _ _)
        have hxs : ∀ e ∈ xs, e ∈ ks.digits := fun e he => ha e (List.mem_cons_of_mem _ he)
        rw [midpointPrefixLoop]
        split_ifs with hxy
        · exact ⟨c :: t0, rfl, h1, h2⟩
        · have hxy1 : x = y := by simpa using hxy
          simp only [List.head?_cons, Option.map_some', Option.getD_some, List.tail_cons]
            at h3 h4
          have hcy : mapGet ks.digitsIdx c = mapGet ks.digitsIdx y := by
            rw [hxy1] at h3
            omega
          have hxc : mapGet ks.digitsIdx x = mapGet ks.digitsIdx c := by rw [hxy1, hcy]
          obtain ⟨t, ht, ht1, ht2⟩ := ih xs t0 hxs hys ht0 (h4 hxc) (h6 hcy)
          refine ⟨t, ?_, ?_, ?_⟩
          · rw [List.take_succ_cons, List.cons_append, ← ht,
              digit_eq_of_index_eq hw hc hy hcy]
          · simpa using ht1
          · simpa using ht2

/-- A result of `midpoint` is the common prefix followed by the result of the
suffix loop on what is left of the two sequences. -/
theorem midpoint_ok_decompose {ks : KeySet} (z : Nat) (hz : ks.digits[0]? = some z)
    (a b m : List Nat) (h : midpoint ks a b = .ok m) :
    ∃ s, midpointSuffix ks ((a.drop (midpointPrefixLoop z a b)).length + 2)
        (a.drop (midpointPrefixLoop z a b)) (b.drop (midpointPrefixLoop z a b)) [] = .ok s ∧
      m = b.take (midpointPrefixLoop z a b) ++ s := by
  have hle := midpointPrefixLoop_le z a b
  have hlen : (b.take (midpointPrefixLoop z a b)).length = midpointPrefixLoop z a b := by
    rw [List.length_take]
    omega
  have ha1 : (if midpointPrefixLoop z a b > 0 then
      (if midpointPrefixLoop z a b < a.length then a.drop (midpointPrefixLoop z a b) else [])
      else a) = a.drop (midpointPrefixLoop z a b) := by
    split_ifs with h1 h2
    · rfl
    · exact (List.drop_eq_nil_of_le (by omega)).symm
    · have : midpointPrefixLoop z a b = 0 := by omega
      rw [this]
      rfl
  have hb1 : (if midpointPrefixLoop z a b > 0 then b.drop (midpointPrefixLoop z a b) else b) =
      b.drop (midpointPrefixLoop z a b) := by
    split_ifs with h1
    · rfl
    · have : midpointPrefixLoop z a b = 0 := by omega
      rw [this]
      rfl
  unfold midpoint at h
  split_ifs at h with hg
  rw [midpointPrefix_eq z hz] at h
  simp only [bind, Except.bind, hlen, ha1, hb1] at h
  cases hs : midpointSuffix ks ((a.drop (midpointPrefixLoop z a b)).length + 2)
      (a.drop (midpointPrefixLoop z a b)) (b.drop (midpointPrefixLoop z a b)) [] with
  | error e =>
    rw [hs] at h
    simp at h
  | ok s =>
    rw [hs] at h
    simp only [pure, Except.pure] at h
    exact ⟨s, rfl, (Except.ok.inj h).symm⟩

/-- On a well-formed `KeySet`, no sequence of configured digits strictly
between `a` and `b` in the padded order is shorter than a result of
`midpoint`. -/
theorem shortest_of_midpoint_wf {ks : KeySet} (hw : WF ks) (a b m s : List Nat)
    (ha : ∀ x ∈ a, x ∈ ks.digits) (hb : ∀ x ∈ b, x ∈ ks.digits)
    (hs : ∀ x ∈ s, x ∈ ks.digits) (hm : midpoint ks a b = .ok m)
    (h1 : paddedCompare ks a s < 0) (h2 : b ≠ [] → paddedCompare ks s b < 0) :
    m.length ≤ s.length := by
  obtain ⟨z, hz⟩ := zero_digit hw
  obtain ⟨s1, hs1, hm1⟩ := midpoint_ok_decompose z hz a b m hm
  obtain ⟨s2, hs2, hmin⟩ := midpointSuffix_shortest hw (a.drop (midpointPrefixLoop z a b))
    (b.drop (midpointPrefixLoop z a b)) ((a.drop (midpointPrefixLoop z a b)).length + 2)
    (le_refl _)
  rw [hs1] at hs2
  have h12 := Except.ok.inj hs2
  subst h12
  have hle := midpointPrefixLoop_le z a b
  by_cases hb0 : b = []
  · subst hb0
    rw [midpointPrefixLoop_nil] at hm1 hmin
    simp only [List.drop_zero, List.take_nil, List.nil_append, List.drop_nil] at hm1 hmin
    rw [hm1]
    exact hmin s h1 (fun h => absurd rfl h)
  · obtain ⟨t, ht, ht1, ht2⟩ := between_common_prefix hw z hz a b s ha hb hs h1 (h2 hb0)
    have := hmin t ht1 (fun _ => ht2)
    rw [hm1, ht]
    simp only [List.length_append]
    omega

/-- C13: for every KeySet and all sequences a, b of configured digits, with
the upper bound b not ending in the smallest digit, and with b empty or
a < b: midpoint(a, b) returns a shortest solution m, that is m is a sequence
of configured digits strictly between a and b (b empty meaning unbounded
above) in the smallest-digit-padded order, and no sequence of configured
digits strictly shorter than m lies strictly between a and b in that
order. -/
theorem midpoint_shortest (sigils digits : String) (ks : KeySet)
    (hks : NewKeySet sigils digits = .ok ks) (a b : List Nat)
    (ha : ∀ x ∈ a, x ∈ ks.digits) (hb : ∀ x ∈ b, x ∈ ks.digits)
    (hcb : b.getLast? ≠ ks.digits.head?)
    (hab : b = [] ∨ paddedCompare ks a b < 0) :
    ∃ m, midpoint ks a b = .ok m ∧
      (∀ x ∈ m, x ∈ ks.digits) ∧
      paddedCompare ks a m < 0 ∧ (b ≠ [] → paddedCompare ks m b < 0) ∧
      ∀ s, (∀ x ∈ s, x ∈ ks.digits) → s.length < m.length →
        ¬ (paddedCompare ks a s < 0 ∧ (b ≠ [] → paddedCompare ks s b < 0)) := by
  have hw := (NewKeySet_wf hks).1
  obtain ⟨z, hz⟩ := zero_digit hw
  have hlb := canonical_of_head z hz b hcb
  have hab1 : b = [] ∨ a < b := by
    rcases hab with h | h
    · exact Or.inl h
    · exact Or.inr (lt_of_paddedCompare_neg hw a b ha hb h)
  obtain ⟨m, hm, h1, h2, hdm, hlm⟩ := midpoint_spec hw z hz a b ha hb hlb hab1
  refine ⟨m, hm, hdm, paddedCompare_neg_of_lt hw z hz a m ha hdm hlm h1,
    fun hne => paddedCompare_neg_of_lt hw z hz m b hdm hb hlb (h2 hne),
    fun s hs hlt hbtw => ?_⟩
  have := shortest_of_midpoint_wf hw a b m s ha hb hs hm hbtw.1 hbtw.2
  omega

/-- C13 at digits `0123456789`, between `499` and `5`: the result is `4995`,
which lies strictly between the two, and no sequence of at most three digits
lies strictly between. -/
theorem midpoint_shortest_witness :
    NewKeySet "" "0123456789" = .ok ksDecimal ∧
    (∀ x ∈ key "499", x ∈ ksDecimal.digits) ∧ (∀ x ∈ key "5", x ∈ ksDecimal.digits) ∧
    (key "5").getLast? ≠ ksDecimal.digits.head? ∧
    (key "5" = [] ∨ paddedCompare ksDecimal (key "499") (key "5") < 0) ∧
    midpoint ksDecimal (key "499") (key "5") = .ok (key "4995") ∧
    ∃ m, midpoint ksDecimal (key "499") (key "5") = .ok m ∧
      (∀ x ∈ m, x ∈ ksDecimal.digits) ∧
      paddedCompare ksDecimal (key "499") m < 0 ∧
      (key "5" ≠ [] → paddedCompare ksDecimal m (key "5") < 0) ∧
      ∀ s, (∀ x ∈ s, x ∈ ksDecimal.digits) → s.length < m.length →
        ¬ (paddedCompare ksDecimal (key "499") s < 0 ∧
          (key "5" ≠ [] → paddedCompare ksDecimal s (key "5") < 0)) :=
  ⟨rfl, by decide, by decide, by decide, Or.inr (by decide), rfl,
    midpoint_shortest "" "0123456789" ksDecimal rfl (key "499") (key "5") (by decide)
      (by decide) (by decide) (Or.inr (by decide))⟩

end Sortkey
